import Mathlib

/-!
# Huffman codec (`huffman.c`): shallow embedding and verified properties

Conventions of the embedding.

* A file is a `List Nat` of byte values; `(unsigned char)c` is `c % 256`.
  A file has fewer than `2^64` bytes: statements about files carry the
  hypothesis `b.length < U64` where the 64-bit counters matter.
* `int` is 4 bytes, `unsigned long long` is 8 bytes (arithmetic modulo `2^64`),
  and `fwrite`/`fread` of an integer use little-endian byte order.
* A `Node*` is the inductive type `Node`: `Node.null` is `NULL`, `Node.mk` a
  pointer to an allocated `struct Node`.
* `MinHeap.nodes` holds the cells `nodes[0 .. size-1]` of the C array, so the
  field `size` is the length of that list; cells at index `size` and beyond
  are never read by the code.
* A `while` loop is a recursive function with an explicit iteration budget;
  the budget handed over by the caller is never used up (`insert_loop_budget`,
  `sift_down_budget`, `merge_loop_budget`).
* The run of a function is described by lists computed along the same
  recursion: the values taken by `heap` (`fill_states`, `merge_states`), the
  heaps passed to `extract_min` (`merge_extract_calls`), the indices written
  in `current_code` (`write_indices`).
-/

namespace Huffman

/-! ## Data model -/

/-- Constant `MAX_SYMBOLS`. -/
def MAX_SYMBOLS : Nat := 256

/-- Constant `MAX_HEAP_SIZE`. -/
def MAX_HEAP_SIZE : Nat := 256

/-- Modulus of `unsigned long long` arithmetic. -/
def U64 : Nat := 18446744073709551616

/-- A value of type `Node*`. -/
inductive Node where
  | null : Node
  | mk (symbol : Nat) (freq : Nat) (left right : Node) : Node
  deriving DecidableEq

namespace Node

/-- Test `!p` on a pointer. -/
def isNull : Node → Bool
  | null => true
  | mk _ _ _ _ => false

/-- Field access `p->freq` (reads 0 through `NULL`, which the code never does). -/
def freq : Node → Nat
  | null => 0
  | mk _ f _ _ => f

/-- Field access `p->symbol`. -/
def symbol : Node → Nat
  | null => 0
  | mk s _ _ _ => s

/-- Field access `p->left`. -/
def left : Node → Node
  | null => null
  | mk _ _ l _ => l

/-- Field access `p->right`. -/
def right : Node → Node
  | null => null
  | mk _ _ _ r => r

/-- Test `!p->left && !p->right` used by `build_codes` and `decode_file`. -/
def isLeaf (p : Node) : Bool := p.left.isNull && p.right.isNull

end Node

/-- The struct `MinHeap`; `nodes` is the live prefix of the array. -/
structure MinHeap where
  nodes : List Node
  deriving DecidableEq

/-- Field `heap->size`. -/
def MinHeap.size (heap : MinHeap) : Nat := heap.nodes.length

/-- The struct `Code`: `code` is the C string held in `char code[256]`
(the characters before the terminating NUL), `length` the `int` field. -/
structure Code where
  code : List Nat
  length : Nat
  deriving DecidableEq

/-- Array assignment `a[i] = v` on a table indexed by byte value. -/
def assign {α : Type} (a : Nat → α) (i : Nat) (v : α) : Nat → α :=
  fun j => if j = i then v else a j

/-! ## Min-heap -/

/-- Function `init_heap`. -/
def init_heap : MinHeap := ⟨[]⟩

/-- The `while (i > 0)` loop of `insert_heap`, followed by `nodes[i] = node`. -/
def insert_loop (node : Node) : Nat → List Node → Nat → List Node
  | 0, nodes, i => nodes.set i node
  | fuel + 1, nodes, i =>
    if i > 0 then
      let parent := (i - 1) / 2
      if (nodes.getD parent Node.null).freq ≤ node.freq then nodes.set i node
      else insert_loop node fuel (nodes.set i (nodes.getD parent Node.null)) parent
    else nodes.set i node

/-- Function `insert_heap`: `i = heap->size++`, then the sift-up loop.  The new
cell `nodes[i]` is written before it is ever read. -/
def insert_heap (heap : MinHeap) (node : Node) : MinHeap :=
  ⟨insert_loop node (heap.size + 1) (heap.nodes ++ [Node.null]) heap.size⟩

/-- Exchange of `nodes[i]` and `nodes[j]` through `temp`. -/
def swap_nodes (nodes : List Node) (i j : Nat) : List Node :=
  let temp := nodes.getD i Node.null
  (nodes.set i (nodes.getD j Node.null)).set j temp

/-- The `while (1)` loop of `extract_min`. -/
def sift_down : Nat → List Node → Nat → List Node
  | 0, nodes, _ => nodes
  | fuel + 1, nodes, i =>
    let left := 2 * i + 1
    let right := 2 * i + 2
    let smallest := i
    let smallest :=
      if left < nodes.length ∧
          (nodes.getD left Node.null).freq < (nodes.getD smallest Node.null).freq
      then left else smallest
    let smallest :=
      if right < nodes.length ∧
          (nodes.getD right Node.null).freq < (nodes.getD smallest Node.null).freq
      then right else smallest
    if smallest = i then nodes
    else sift_down fuel (swap_nodes nodes i smallest) smallest

/-- Function `extract_min` (called on a non-empty heap). -/
def extract_min (heap : MinHeap) : Node × MinHeap :=
  let min := heap.nodes.getD 0 Node.null
  let size := heap.size - 1
  let nodes := (heap.nodes.set 0 (heap.nodes.getD size Node.null)).take size
  (min, ⟨sift_down size nodes 0⟩)

/-! ## Tree construction -/

/-- Function `create_node`. -/
def create_node (symbol freq : Nat) : Node :=
  Node.mk symbol freq Node.null Node.null

/-- The first loop of `build_huffman_tree`: one leaf per nonzero frequency. -/
def fill_heap (freq : Nat → Nat) : MinHeap :=
  (List.range MAX_SYMBOLS).foldl
    (fun heap i => if freq i > 0 then insert_heap heap (create_node (i % 256) (freq i)) else heap)
    init_heap

/-- The loop `while (heap.size > 1)` of `build_huffman_tree`. -/
def merge_loop : Nat → MinHeap → MinHeap
  | 0, heap => heap
  | fuel + 1, heap =>
    if heap.size > 1 then
      let left := (extract_min heap).1
      let heap1 := (extract_min heap).2
      let right := (extract_min heap1).1
      let heap2 := (extract_min heap1).2
      let parent := Node.mk 0 ((left.freq + right.freq) % U64) left right
      merge_loop fuel (insert_heap heap2 parent)
    else heap

/-- Function `build_huffman_tree`; the result `Node.null` is `NULL`. -/
def build_huffman_tree (freq : Nat → Nat) : Node :=
  let heap := fill_heap freq
  let heap := merge_loop heap.size heap
  if heap.size = 0 then Node.null else (extract_min heap).1

/-! ## Code table -/

/-- The source string that `strcpy` copies: the characters before the first NUL. -/
def c_string (buf : List Nat) : List Nat := buf.takeWhile (fun c => c != 0)

/-- Function `build_codes`.  The buffer `current_code` is shared by all
recursive calls, so it is threaded through and returned with the table;
`'0'` is 48 and `'1'` is 49. -/
def build_codes : Node → (Nat → Code) → List Nat → Nat → (Nat → Code) × List Nat
  | Node.null, codes, current_code, _ => (codes, current_code)
  | Node.mk symbol _ left right, codes, current_code, depth =>
    if left.isNull && right.isNull then
      (assign codes symbol ⟨c_string current_code, depth⟩, current_code)
    else
      let r := build_codes left codes (current_code.set depth 48) (depth + 1)
      build_codes right r.1 (r.2.set depth 49) (depth + 1)

/-- The table `codes` as `encode_file` sets it up before calling `build_codes`:
every `length` is 0 (the `code` arrays are uninitialised and never read). -/
def init_codes : Nat → Code := fun _ => ⟨[], 0⟩

/-- The buffer `char current_code[256] = {0}`. -/
def init_current_code : List Nat := List.replicate 256 0

/-- The code table `encode_file` works with for a given tree. -/
def code_table (root : Node) : Nat → Code :=
  (build_codes root init_codes init_current_code 0).1

/-! ## Encoder -/

/-- The counting loop of `encode_file`: `freq[(unsigned char)c]++`. -/
def count_freq (input : List Nat) : Nat → Nat :=
  input.foldl (fun freq c => assign freq (c % 256) ((freq (c % 256) + 1) % U64)) (fun _ => 0)

/-- The loop computing `total_bits` in `encode_file`. -/
def total_bits (freq : Nat → Nat) (codes : Nat → Code) : Nat :=
  (List.range MAX_SYMBOLS).foldl
    (fun tb i => if freq i > 0 then (tb + freq i * (codes i).length) % U64 else tb) 0

/-- The loop computing `symbol_count` in `encode_file`. -/
def symbol_count (freq : Nat → Nat) : Nat :=
  (List.range MAX_SYMBOLS).foldl (fun n i => if freq i > 0 then n + 1 else n) 0

/-- The bytes `fwrite` emits for an integer of `n` bytes holding `v`. -/
def le_bytes : Nat → Nat → List Nat
  | 0, _ => []
  | n + 1, v => (v % 256) :: le_bytes n (v / 256)

/-- The loop writing the `(symbol, frequency)` pairs of the header.  The call
`fwrite(&i, sizeof(unsigned char), 1, out)` writes the first byte of the
`int i`, which is its low byte in little-endian order. -/
def header_entries (freq : Nat → Nat) : List Nat :=
  (List.range MAX_SYMBOLS).foldl
    (fun out i => if freq i > 0 then out ++ [i % 256] ++ le_bytes 8 (freq i) else out) []

/-- The expression `total_bits % 8 ? total_bits % 8 : 8`. -/
def valid_bits (tb : Nat) : Nat := if tb % 8 ≠ 0 then tb % 8 else 8

/-- State of the bit writer: bytes written so far, `buffer`, `bit_count`. -/
structure Writer where
  out : List Nat
  buffer : Nat
  bit_count : Nat
  deriving DecidableEq

/-- One iteration of the inner `for` loop of the payload writer.  The
character read is `'0'` or `'1'` whenever the loop runs (`code_of_present`), so
the difference `codes[symbol].code[i] - '0'` is 0 or 1. -/
def push_bit (code : List Nat) (w : Writer) (i : Nat) : Writer :=
  let buffer := ((w.buffer <<< 1) ||| (code.getD i 0 - 48)) % 256
  let bit_count := w.bit_count + 1
  if bit_count = 8 then ⟨w.out ++ [buffer], 0, 0⟩ else ⟨w.out, buffer, bit_count⟩

/-- The inner loop `for (i = 0; i < codes[symbol].length; i++)`. -/
def push_code (c : Code) (w : Writer) : Writer :=
  (List.range c.length).foldl (push_bit c.code) w

/-- The loop `while ((c = fgetc(in)) != EOF)` of the payload writer. -/
def write_payload (codes : Nat → Code) (input : List Nat) : Writer :=
  input.foldl (fun w c => push_code (codes (c % 256)) w) ⟨[], 0, 0⟩

/-- The final flush `if (bit_count > 0)` of the payload writer. -/
def flush (w : Writer) : List Nat :=
  if w.bit_count > 0 then w.out ++ [(w.buffer <<< (8 - w.bit_count)) % 256] else w.out

/-- The header `encode_file` writes for a frequency table and a code table. -/
def header (freq : Nat → Nat) (codes : Nat → Code) : List Nat :=
  le_bytes 4 (symbol_count freq) ++ header_entries freq
    ++ [valid_bits (total_bits freq codes)] ++ le_bytes 8 (total_bits freq codes)

/-- Function `encode_file`: the bytes written to the output file, or `none`
when the function returns at `Empty file` without creating the output. -/
def encode_file (input : List Nat) : Option (List Nat) :=
  let freq := count_freq input
  let root := build_huffman_tree freq
  if root.isNull then none
  else
    let codes := code_table root
    some (header freq codes ++ flush (write_payload codes input))

/-! ## Decoder -/

/-- The value `fread` stores into an integer from its bytes. -/
def le_value : List Nat → Nat
  | [] => 0
  | b :: bs => b + 256 * le_value bs

/-- Call `fread(&x, n, 1, in)`: the `n` bytes read and the rest of the file,
or `none` when fewer than `n` bytes are left (the variable stays unset). -/
def fread (n : Nat) (inp : List Nat) : Option (List Nat × List Nat) :=
  if inp.length < n then none else some (inp.take n, inp.drop n)

/-- The loop of `decode_file` reading `count` `(symbol, frequency)` pairs
with `freq[symbol] = f`. -/
def read_entries : Nat → (Nat → Nat) → List Nat → Option ((Nat → Nat) × List Nat)
  | 0, freq, inp => some (freq, inp)
  | count + 1, freq, inp =>
    match fread 1 inp with
    | none => none
    | some (sb, rest) =>
      match fread 8 rest with
      | none => none
      | some (fb, rest1) => read_entries count (assign freq (le_value sb) (le_value fb)) rest1

/-- The parsed header: frequency table, `valid_bits`, `total_bits`. -/
structure Header where
  freq : Nat → Nat
  valid_bits : Nat
  total_bits : Nat

/-- The header-reading part of `decode_file`, with the unread rest of the
file (the payload).  `symbol_count` is a signed `int`: a value with the sign
bit set makes the loop `for (i = 0; i < symbol_count; i++)` run zero times. -/
def read_header (inp : List Nat) : Option (Header × List Nat) :=
  match fread 4 inp with
  | none => none
  | some (cb, rest) =>
    let symbol_count := le_value cb
    let count := if symbol_count < 2147483648 then symbol_count else 0
    match read_entries count (fun _ => 0) rest with
    | none => none
    | some (freq, rest1) =>
      match fread 1 rest1 with
      | none => none
      | some (vb, rest2) =>
        match fread 8 rest2 with
        | none => none
        | some (tb, payload) => some (⟨freq, le_value vb, le_value tb⟩, payload)

/-- State of the decoding loop: `current`, `bit_count`, bytes written so far. -/
structure Reader where
  current : Node
  bit_count : Nat
  out : List Nat
  deriving DecidableEq

/-- The inner loop `for (i = 7; i >= 8 - bits_to_read; i--)` of `decode_file`,
over the remaining values of `i`; `none` when a `NULL` pointer is
dereferenced. -/
def decode_bits (root : Node) (total : Nat) (buffer : Nat) : List Nat → Reader → Option Reader
  | [], r => some r
  | i :: rest, r =>
    let bit := (buffer >>> i) &&& 1
    match r.current with
    | Node.null => none
    | Node.mk _ _ left right =>
      match (if bit ≠ 0 then right else left) with
      | Node.null => none
      | Node.mk symbol f l1 r1 =>
        let r2 : Reader :=
          if l1.isNull && r1.isNull then ⟨root, (r.bit_count + 1) % U64, r.out ++ [symbol]⟩
          else ⟨Node.mk symbol f l1 r1, (r.bit_count + 1) % U64, r.out⟩
        if r2.bit_count ≥ total then some r2 else decode_bits root total buffer rest r2

/-- The values `7, 6, ..., 8 - bits_to_read` taken by `i` in the inner loop. -/
def bit_indices (bits_to_read : Nat) : List Nat :=
  (List.range bits_to_read).map (fun k => 7 - k)

/-- The loop `while ((c = fgetc(in)) != EOF && bit_count < total_bits)` of
`decode_file`.  The test `feof(in)` inside the body is false whenever `fgetc`
has just returned a byte, so that `break` is never taken. -/
def decode_loop (root : Node) (total : Nat) : List Nat → Reader → Option Reader
  | [], r => some r
  | c :: rest, r =>
    if r.bit_count < total then
      let buffer := c % 256
      let bits_to_read := if (r.bit_count + 8) % U64 > total then total - r.bit_count else 8
      match decode_bits root total buffer (bit_indices bits_to_read) r with
      | none => none
      | some r1 => decode_loop root total rest r1
    else some r

/-- What a run of `decode_file` does. -/
inductive DecodeResult where
  /-- The output file was written with these bytes. -/
  | written (out : List Nat)
  /-- Return at `Empty file`: no output file is created. -/
  | empty_file
  /-- The header is cut short: variables are used without having been read. -/
  | short_header
  /-- A `NULL` pointer is dereferenced while walking the tree. -/
  | null_deref
  deriving DecidableEq

/-- Function `decode_file` on the bytes of the input file. -/
def decode_file (inp : List Nat) : DecodeResult :=
  match read_header inp with
  | none => DecodeResult.short_header
  | some (h, payload) =>
    let root := build_huffman_tree h.freq
    if root.isNull then DecodeResult.empty_file
    else
      match decode_loop root h.total_bits payload ⟨root, 0, []⟩ with
      | none => DecodeResult.null_deref
      | some r => DecodeResult.written r.out

/-- Run `encode_file`, then `decode_file` on the file it wrote (`none` when
`encode_file` wrote no file). -/
def encode_then_decode (input : List Nat) : Option DecodeResult :=
  (encode_file input).map decode_file

/-! ## Vocabulary for the properties -/

namespace Node

/-- A well-formed tree: every node is a leaf (both children `NULL`) or has
two well-formed children. -/
def proper : Node → Bool
  | null => false
  | mk _ _ l r => (l.isNull && r.isNull) || (proper l && proper r)

/-- The leaves of a tree from left to right, as `(symbol, freq)` pairs. -/
def leaves : Node → List (Nat × Nat)
  | null => []
  | mk s f l r => if l.isNull && r.isNull then [(s, f)] else leaves l ++ leaves r

/-- The leaves of a tree with their root-to-leaf paths (`false` for a step
to `left`, `true` for a step to `right`). -/
def paths : Node → List (Nat × List Bool)
  | null => []
  | mk s _ l r =>
    if l.isNull && r.isNull then [(s, [])]
    else (paths l).map (fun p => (p.1, false :: p.2)) ++ (paths r).map (fun p => (p.1, true :: p.2))

/-- Number of edges on the longest root-to-leaf path. -/
def height : Node → Nat
  | null => 0
  | mk _ _ l r => if l.isNull && r.isNull then 0 else max (height l) (height r) + 1

end Node

/-- The byte values with a nonzero count, in increasing order. -/
def present (freq : Nat → Nat) : List Nat :=
  (List.range MAX_SYMBOLS).filter (fun i => decide (freq i > 0))

/-- The leaves a tree for `freq` has to carry. -/
def leaf_entries (freq : Nat → Nat) : List (Nat × Nat) :=
  (present freq).map (fun i => (i, freq i))

/-- All leaves of the trees held in a heap. -/
def forest_leaves (heap : MinHeap) : List (Nat × Nat) :=
  heap.nodes.flatMap Node.leaves

/-- The character `'0'` or `'1'` that `build_codes` writes for a step. -/
def step_char (b : Bool) : Nat := if b then 49 else 48

/-- The heap after both loops of `build_huffman_tree`. -/
def final_heap (freq : Nat → Nat) : MinHeap :=
  merge_loop (fill_heap freq).size (fill_heap freq)

/-- The code of a symbol: the first `length` characters of its stored string. -/
def Code.bits (c : Code) : List Nat := c.code.take c.length

/-- The path from the root to the leaf of symbol `s` (empty when `s` is at no leaf). -/
def sym_path (t : Node) (s : Nat) : List Bool :=
  ((t.paths.find? (fun p => p.1 == s)).map Prod.snd).getD []

/-- The eight bits of a byte, most significant first. -/
def byte_bits (c : Nat) : List Bool :=
  (bit_indices 8).map (fun i => decide ((c >>> i) &&& 1 ≠ 0))

/-- The bits of a payload, byte after byte, most significant bit first. -/
def payload_bits (payload : List Nat) : List Bool :=
  payload.flatMap (fun c => byte_bits (c % 256))

/-- The inner loop of the payload writer on a sequence of code bits. -/
def write_bits (bits : List Bool) (w : Writer) : Writer :=
  bits.foldl (fun w b => push_bit [step_char b] w 0) w

/-- The `n` bits held in `buffer`, oldest (most significant) first. -/
def pending_bits (buffer n : Nat) : List Bool :=
  (List.range n).map (fun k => decide ((buffer >>> (n - 1 - k)) &&& 1 ≠ 0))

/-- One step of the decoder for one payload bit: position in the tree and
bytes written; `none` when a `NULL` pointer is dereferenced. -/
def walk_bit (root : Node) (st : Node × List Nat) (b : Bool) : Option (Node × List Nat) :=
  match st.1 with
  | Node.null => none
  | Node.mk _ _ left right =>
    match (if b then right else left) with
    | Node.null => none
    | Node.mk symbol f l1 r1 =>
      if l1.isNull && r1.isNull then some (root, st.2 ++ [symbol])
      else some (Node.mk symbol f l1 r1, st.2)

/-- The decoder run on a sequence of bits. -/
def walk (root : Node) : List Bool → Node × List Nat → Option (Node × List Nat)
  | [], st => some st
  | b :: bs, st =>
    match walk_bit root st b with
    | none => none
    | some st1 => walk root bs st1

/-! ## Auxiliary notions for the proofs -/

/-- Invariant of the bit writer. -/
def Writer.ok (w : Writer) : Prop :=
  w.bit_count < 8 ∧ w.buffer < 2 ^ w.bit_count ∧ ∀ c ∈ w.out, c < 256

/-- The bits the writer has taken so far: those written and those held. -/
def Writer.content (w : Writer) : List Bool :=
  payload_bits w.out ++ pending_bits w.buffer w.bit_count

/-- The reader state after more bits have been consumed. -/
def Reader.advance (r : Reader) (n : Nat) (st : Node × List Nat) : Reader :=
  ⟨st.1, r.bit_count + n, st.2⟩

/-- The table the reading loop of `decode_file` builds from the listed entries. -/
def read_table (freq : Nat → Nat) (syms : List Nat) (init : Nat → Nat) : Nat → Nat :=
  syms.foldl (fun t i => assign t (i % 256) (freq i % U64)) init

/-- The bits `encode_file` writes for an input: the paths of its bytes. -/
def input_bits (t : Node) (input : List Nat) : List Bool :=
  input.flatMap (fun c => sym_path t (c % 256))

/-- The result of `decode_file` once the header has given the table `freq`
and the loop walks the bits `bits`. -/
def decode_of_bits (freq : Nat → Nat) (bits : List Bool) : DecodeResult :=
  if (build_huffman_tree freq).isNull then DecodeResult.empty_file
  else
    match walk (build_huffman_tree freq) bits (build_huffman_tree freq, []) with
    | none => DecodeResult.null_deref
    | some st => DecodeResult.written st.2

/-- The weight `nodes[j]->freq` of a heap cell. -/
def weight_at (nodes : List Node) (j : Nat) : Nat := (nodes.getD j Node.null).freq

/-- The heap order: no cell is lighter than its parent cell `(j - 1) / 2`. -/
def heap_ordered (nodes : List Node) : Prop :=
  ∀ j, 0 < j → j < nodes.length → weight_at nodes ((j - 1) / 2) ≤ weight_at nodes j

/-! ## Notions for the optimality of the tree -/

/-- The multisets of leaf depths of the binary trees in which every inner
node has two children: a single leaf at depth 0, or a leaf replaced by an
inner node with two leaves one level down. -/
inductive TreeDepths : Multiset Nat → Prop
  | single : TreeDepths {0}
  | split (d : Nat) (s : Multiset Nat) :
      TreeDepths (d ::ₘ s) → TreeDepths ((d + 1) ::ₘ (d + 1) ::ₘ s)

/-- The cost of merging a multiset of weights the way the merge loop does:
the two least weights are replaced by their sum, at the price of that sum,
until one weight is left. -/
inductive MergeCost : Multiset Nat → Nat → Prop
  | single (w : Nat) : MergeCost {w} 0
  | merge (a b : Nat) (s : Multiset Nat) (c : Nat) :
      a ≤ b → (∀ x ∈ s, b ≤ x) → MergeCost ((a + b) ::ₘ s) c →
      MergeCost (a ::ₘ b ::ₘ s) (c + a + b)

/-- The sum of weight times depth over a multiset of `(weight, depth)` pairs. -/
def weighted_depth (l : Multiset (Nat × Nat)) : Nat :=
  (l.map (fun p => p.1 * p.2)).sum

/-- The weighted path length of a tree for a frequency table: the sum over
its leaves of the frequency of the symbol times the depth of the leaf. -/
def wpl (freq : Nat → Nat) (t : Node) : Nat :=
  (t.paths.map (fun p => freq p.1 * p.2.length)).sum

namespace Node

/-- The sum of the `freq` fields of the leaves. -/
def leaf_sum (t : Node) : Nat := (t.leaves.map Prod.snd).sum

/-- The weighted path length computed from the `freq` fields of the leaves. -/
def cost : Node → Nat
  | null => 0
  | mk _ _ l r =>
    if l.isNull && r.isNull then 0 else cost l + cost r + leaf_sum l + leaf_sum r

end Node

/-- Invariant of the heap in `build_huffman_tree` when the weights do not
overflow: the heap order holds, every tree is well formed and carries the sum
of its leaf weights, and the weights add up to less than `2^64`. -/
def MinHeap.sound (heap : MinHeap) : Prop :=
  heap_ordered heap.nodes ∧ (∀ n ∈ heap.nodes, n.proper = true ∧ n.freq = n.leaf_sum) ∧
    (heap.nodes.map Node.freq).sum < U64

/-- A tree of height at most `d` whose leaves carry the symbols of `l` from
left to right (for a non-empty `l` of at most `2^d` symbols), built by
halving the list. -/
def halving_tree : Nat → List Nat → Node
  | 0, l => create_node (l.headD 0) 0
  | d + 1, l =>
    if l.length ≤ 1 then create_node (l.headD 0) 0
    else Node.mk 0 0 (halving_tree d (l.take (l.length / 2)))
      (halving_tree d (l.drop (l.length / 2)))

/-- The table with the counts `2^63, 2^63, 2^63 + 1, 2^63 + 1` for the byte
values 0, 1, 2, 3 and zero elsewhere. -/
def overflow_table : Nat → Nat :=
  assign (assign (assign (assign (fun _ => 0) 0 9223372036854775808) 1 9223372036854775808)
    2 9223372036854775809) 3 9223372036854775809

/-- The tree with the four leaves 0, 1, 2, 3 at depth 2. -/
def balanced_four : Node :=
  Node.mk 0 0
    (Node.mk 0 0 (create_node 0 0) (create_node 1 0))
    (Node.mk 0 0 (create_node 2 0) (create_node 3 0))

/-! ## Heaps reachable through the heap interface -/

/-- The heaps obtained from `init_heap` by calls of `insert_heap` and
`extract_min`, where `insert_heap` is called with room left in the array of
`MAX_HEAP_SIZE` cells and `extract_min` on a non-empty heap. -/
inductive Reachable : MinHeap → Prop
  | init : Reachable init_heap
  | insert (heap : MinHeap) (node : Node) :
      Reachable heap → heap.size < MAX_HEAP_SIZE → Reachable (insert_heap heap node)
  | extract (heap : MinHeap) :
      Reachable heap → 0 < heap.size → Reachable (extract_min heap).2

/-! ## Run of `build_huffman_tree` -/

/-- The values of `heap` after each iteration of the first loop of
`build_huffman_tree`, started on `heap` and run over the indices `is`. -/
def fill_states (freq : Nat → Nat) : List Nat → MinHeap → List MinHeap
  | [], _ => []
  | i :: is, heap =>
    let heap1 := if freq i > 0 then insert_heap heap (create_node (i % 256) (freq i)) else heap
    heap1 :: fill_states freq is heap1

/-- The body of the loop `while (heap.size > 1)`: the heap after the two
`extract_min` calls and the `insert_heap` call. -/
def merge_body (heap : MinHeap) : MinHeap :=
  let left := (extract_min heap).1
  let heap1 := (extract_min heap).2
  let right := (extract_min heap1).1
  let heap2 := (extract_min heap1).2
  let parent := Node.mk 0 ((left.freq + right.freq) % U64) left right
  insert_heap heap2 parent

/-- The number of iterations of the loop `while (heap.size > 1)`. -/
def merge_iterations : Nat → MinHeap → Nat
  | 0, _ => 0
  | fuel + 1, heap =>
    if heap.size > 1 then merge_iterations fuel (merge_body heap) + 1 else 0

/-- The values of `heap` in the loop `while (heap.size > 1)`: after the
first `extract_min`, after the second, and after `insert_heap`, for each
iteration. -/
def merge_states : Nat → MinHeap → List MinHeap
  | 0, _ => []
  | fuel + 1, heap =>
    if heap.size > 1 then
      (extract_min heap).2 :: (extract_min (extract_min heap).2).2 :: merge_body heap ::
        merge_states fuel (merge_body heap)
    else []

/-- The heaps on which the loop `while (heap.size > 1)` calls `extract_min`. -/
def merge_extract_calls : Nat → MinHeap → List MinHeap
  | 0, _ => []
  | fuel + 1, heap =>
    if heap.size > 1 then
      heap :: (extract_min heap).2 :: merge_extract_calls fuel (merge_body heap)
    else []

/-- All values of `heap` during `build_huffman_tree`, in order: after
`init_heap`, in the first loop, in the merge loop, and after the last
`extract_min` (made when the heap is not empty). -/
def build_states (freq : Nat → Nat) : List MinHeap :=
  init_heap :: fill_states freq (List.range MAX_SYMBOLS) init_heap
    ++ merge_states (fill_heap freq).size (fill_heap freq)
    ++ (if (final_heap freq).size = 0 then [] else [(extract_min (final_heap freq)).2])

/-- All heaps on which `build_huffman_tree` calls `extract_min`. -/
def extract_calls (freq : Nat → Nat) : List MinHeap :=
  merge_extract_calls (fill_heap freq).size (fill_heap freq)
    ++ (if (final_heap freq).size = 0 then [] else [final_heap freq])

/-! ## Run of `build_codes` -/

/-- The indices at which `build_codes` writes to `current_code`, in order. -/
def write_indices : Node → Nat → List Nat
  | Node.null, _ => []
  | Node.mk _ _ left right, depth =>
    if left.isNull && right.isNull then []
    else depth :: write_indices left (depth + 1) ++ depth :: write_indices right (depth + 1)

/-! ## Payload -/

/-- The code characters of the bytes of an input, one code after the other:
for each byte the first `length` characters of the string stored for it. -/
def code_stream (codes : Nat → Code) (input : List Nat) : List Nat :=
  input.flatMap (fun c => (codes (c % 256)).bits)

/-- The file made of `n` bytes of value 0, then `n` of value 1, and so on up
to value 7. -/
def eight_values (n : Nat) : List Nat :=
  [0, 1, 2, 3, 4, 5, 6, 7].flatMap (fun s => List.replicate n s)

/-- The frequency table of `eight_values n`. -/
def eight_table (n : Nat) : Nat → Nat := fun i => if i < 8 then n else 0

/-! # Lemmas -/

/-! ## Lists as arrays -/

theorem getD_set_eq {α : Type} (l : List α) (i : Nat) (x d : α) (h : i < l.length) :
    (l.set i x).getD i d = x := by
  simp [List.getD_eq_getElem?_getD, List.getElem?_set, h]

theorem getD_set_ne {α : Type} (l : List α) (i j : Nat) (x d : α) (h : i ≠ j) :
    (l.set i x).getD j d = l.getD j d := by
  simp [List.getD_eq_getElem?_getD, List.getElem?_set, h]

theorem perm_set {α : Type} (l : List α) (i : Nat) (x : α) (h : i < l.length) :
    List.Perm (l.set i x) (x :: l.eraseIdx i) := by
  rw [List.set_eq_take_append_cons_drop, if_pos h, List.eraseIdx_eq_take_drop_succ]
  exact List.perm_middle

theorem perm_getD_eraseIdx {α : Type} (l : List α) (i : Nat) (d : α) (h : i < l.length) :
    List.Perm l (l.getD i d :: l.eraseIdx i) := by
  rw [List.getD_eq_getElem _ _ h, List.eraseIdx_eq_take_drop_succ]
  conv_lhs => rw [← List.take_append_drop i l, List.drop_eq_getElem_cons h]
  exact List.perm_middle

theorem perm_swap_nodes (nodes : List Node) (i j : Nat) (hi : i < nodes.length)
    (hj : j < nodes.length) (hij : i ≠ j) : List.Perm (swap_nodes nodes i j) nodes := by
  unfold swap_nodes
  have hj1 : j < (nodes.set i (nodes.getD j Node.null)).length := by simpa using hj
  have e1 := perm_set (nodes.set i (nodes.getD j Node.null)) j (nodes.getD i Node.null) hj1
  have e2 := perm_getD_eraseIdx (nodes.set i (nodes.getD j Node.null)) j Node.null hj1
  rw [getD_set_ne _ _ _ _ _ hij] at e2
  have e3 := perm_set nodes i (nodes.getD j Node.null) hi
  have e4 := (e2.symm.trans e3).cons_inv
  exact (e1.trans (List.Perm.cons _ e4)).trans (perm_getD_eraseIdx nodes i Node.null hi).symm

/-! ## The heap operations keep the collection of nodes -/

theorem length_insert_loop (node : Node) (fuel : Nat) :
    ∀ (nodes : List Node) (i : Nat), (insert_loop node fuel nodes i).length = nodes.length := by
  induction fuel with
  | zero => intro nodes i; simp [insert_loop]
  | succ fuel ih =>
    intro nodes i
    rw [insert_loop]
    dsimp only
    split_ifs <;> simp [ih]

theorem perm_insert_loop (node : Node) (fuel : Nat) :
    ∀ (nodes : List Node) (i : Nat), i < nodes.length →
      List.Perm (insert_loop node fuel nodes i) (node :: nodes.eraseIdx i) := by
  induction fuel with
  | zero => intro nodes i hi; exact perm_set nodes i node hi
  | succ fuel ih =>
    intro nodes i hi
    rw [insert_loop]
    dsimp only
    split_ifs with h0 h1
    · exact perm_set nodes i node hi
    · have hp : (i - 1) / 2 < i := by omega
      have hne : i ≠ (i - 1) / 2 := by omega
      have hlen : (i - 1) / 2 < (nodes.set i (nodes.getD ((i - 1) / 2) Node.null)).length := by
        simp only [List.length_set]; omega
      refine (ih _ _ hlen).trans (List.Perm.cons _ ?_)
      have e2 := perm_getD_eraseIdx _ _ Node.null hlen
      rw [getD_set_ne _ _ _ _ _ hne] at e2
      exact (e2.symm.trans (perm_set nodes i _ hi)).cons_inv
    · exact perm_set nodes i node hi

theorem perm_insert_heap (heap : MinHeap) (node : Node) :
    List.Perm (insert_heap heap node).nodes (node :: heap.nodes) := by
  unfold insert_heap MinHeap.size
  refine (perm_insert_loop node _ _ _ (by simp)).trans ?_
  rw [List.eraseIdx_append_of_length_le (le_refl _)]
  simp

theorem size_insert_heap (heap : MinHeap) (node : Node) :
    (insert_heap heap node).size = heap.size + 1 := by
  simp [insert_heap, MinHeap.size, length_insert_loop]

theorem length_swap_nodes (nodes : List Node) (i j : Nat) :
    (swap_nodes nodes i j).length = nodes.length := by
  simp [swap_nodes]

theorem perm_sift_down (fuel : Nat) :
    ∀ (nodes : List Node) (i : Nat), List.Perm (sift_down fuel nodes i) nodes := by
  induction fuel with
  | zero => intro nodes i; exact List.Perm.refl _
  | succ fuel ih =>
    intro nodes i
    unfold sift_down
    simp only
    split_ifs with h1 h2 h3 h4 h5 h6 h7
    all_goals first
      | exact List.Perm.refl _
      | exact (ih _ _).trans (perm_swap_nodes _ _ _ (by omega) (by omega) (by omega))

theorem length_sift_down (fuel : Nat) (nodes : List Node) (i : Nat) :
    (sift_down fuel nodes i).length = nodes.length :=
  (perm_sift_down fuel nodes i).length_eq

theorem perm_extract_min (heap : MinHeap) (h : 0 < heap.size) :
    List.Perm ((extract_min heap).1 :: (extract_min heap).2.nodes) heap.nodes := by
  obtain ⟨nodes⟩ := heap
  simp only [MinHeap.size] at h
  simp only [extract_min, MinHeap.size]
  refine (List.Perm.cons _ (perm_sift_down _ _ _)).trans ?_
  cases nodes with
  | nil => simp at h
  | cons a rest =>
    simp only [List.length_cons, Nat.add_sub_cancel, List.set_cons_zero, List.getD_cons_zero]
    cases hr : rest.length with
    | zero => simp [List.length_eq_zero.mp hr]
    | succ n =>
      have hn : n < rest.length := by omega
      have e1 := perm_getD_eraseIdx rest n Node.null hn
      rw [List.take_succ_cons, List.getD_cons_succ]
      have e2 : rest.eraseIdx n = rest.take n := by
        rw [← List.dropLast_eq_eraseIdx (by omega), List.dropLast_eq_take, hr]
        rfl
      rw [e2] at e1
      exact (List.Perm.cons a e1.symm)

theorem size_extract_min (heap : MinHeap) :
    (extract_min heap).2.size = heap.size - 1 := by
  simp [extract_min, MinHeap.size, length_sift_down]

/-! ## Shape of the tree -/

theorem leaves_create_node (s f : Nat) : (create_node s f).leaves = [(s, f)] := by
  simp [create_node, Node.leaves, Node.isNull]

theorem proper_create_node (s f : Nat) : (create_node s f).proper = true := by
  simp [create_node, Node.proper, Node.isNull]

theorem isNull_of_proper {t : Node} (h : t.proper = true) : t.isNull = false := by
  cases t with
  | null => simp [Node.proper] at h
  | mk s f l r => rfl

theorem proper_parent {l r : Node} (f : Nat) (hl : l.proper = true) (hr : r.proper = true) :
    (Node.mk 0 f l r).proper = true := by
  simp [Node.proper, hl, hr]

theorem leaves_parent {l r : Node} (f : Nat) (hl : l.proper = true) :
    (Node.mk 0 f l r).leaves = l.leaves ++ r.leaves := by
  simp [Node.leaves, isNull_of_proper hl]

theorem forest_leaves_perm {h1 h2 : MinHeap} (h : List.Perm h1.nodes h2.nodes) :
    List.Perm (forest_leaves h1) (forest_leaves h2) :=
  List.Perm.flatMap_right _ h

/-- The first loop of `build_huffman_tree` leaves one leaf per present symbol. -/
theorem fill_heap_fold (freq : Nat → Nat) (is : List Nat) :
    ∀ heap : MinHeap,
      (∀ n ∈ heap.nodes, n.proper = true) →
      let res := is.foldl
        (fun heap i => if freq i > 0 then insert_heap heap (create_node (i % 256) (freq i)) else heap)
        heap
      (∀ n ∈ res.nodes, n.proper = true) ∧
      List.Perm (forest_leaves res)
        (forest_leaves heap ++
          (is.filter (fun i => decide (freq i > 0))).map (fun i => (i % 256, freq i))) := by
  induction is with
  | nil => intro heap hp; simpa using hp
  | cons i is ih =>
    intro heap hp
    simp only [List.foldl_cons]
    by_cases hf : freq i > 0
    · simp only [hf, if_true, List.filter_cons, decide_True, List.map_cons]
      have hperm := perm_insert_heap heap (create_node (i % 256) (freq i))
      have hp1 : ∀ n ∈ (insert_heap heap (create_node (i % 256) (freq i))).nodes,
          n.proper = true := by
        intro n hn
        rcases List.mem_cons.mp (hperm.subset hn) with h | h
        · rw [h]; exact proper_create_node _ _
        · exact hp n h
      obtain ⟨r1, r2⟩ := ih _ hp1
      refine ⟨r1, r2.trans ?_⟩
      have e := forest_leaves_perm hperm
      have e2 : forest_leaves ⟨create_node (i % 256) (freq i) :: heap.nodes⟩
          = (i % 256, freq i) :: forest_leaves heap := by
        simp [forest_leaves, leaves_create_node]
      rw [e2] at e
      refine (List.Perm.append_right _ e).trans ?_
      simp only [List.cons_append]
      exact List.perm_middle.symm
    · simp only [hf, if_false, List.filter_cons, decide_False]
      exact ih heap hp

theorem fill_heap_spec (freq : Nat → Nat) :
    (∀ n ∈ (fill_heap freq).nodes, n.proper = true) ∧
      List.Perm (forest_leaves (fill_heap freq)) (leaf_entries freq) := by
  have h := fill_heap_fold freq (List.range MAX_SYMBOLS) init_heap (by simp [init_heap])
  refine ⟨h.1, h.2.trans ?_⟩
  simp only [forest_leaves, init_heap, List.flatMap_nil, List.nil_append, leaf_entries, present]
  refine List.Perm.of_eq (List.map_congr_left ?_)
  intro i hi
  have : i < 256 := by
    have := (List.mem_filter.mp hi).1
    simpa [MAX_SYMBOLS] using this
  simp [Nat.mod_eq_of_lt this]

/-- One iteration of the merge loop, as a function of the heap. -/
theorem merge_step_spec (heap : MinHeap) (hs : 1 < heap.size)
    (hp : ∀ n ∈ heap.nodes, n.proper = true) :
    let left := (extract_min heap).1
    let heap1 := (extract_min heap).2
    let right := (extract_min heap1).1
    let heap2 := (extract_min heap1).2
    let parent := Node.mk 0 ((left.freq + right.freq) % U64) left right
    let res := insert_heap heap2 parent
    res.size + 1 = heap.size ∧ (∀ n ∈ res.nodes, n.proper = true) ∧
      List.Perm (forest_leaves res) (forest_leaves heap) ∧
      List.Perm (left :: right :: heap2.nodes) heap.nodes := by
  intro left heap1 right heap2 parent res
  have e1 := perm_extract_min heap (by omega)
  have s1 : heap1.size = heap.size - 1 := size_extract_min heap
  have e2 := perm_extract_min heap1 (by omega)
  have s2 : heap2.size = heap1.size - 1 := size_extract_min heap1
  have e3 := perm_insert_heap heap2 parent
  have hall : List.Perm (left :: right :: heap2.nodes) heap.nodes :=
    (List.Perm.cons left e2).trans e1
  have hl : left.proper = true := hp _ (hall.subset (by simp))
  have hr : right.proper = true := hp _ (hall.subset (by simp))
  refine ⟨?_, ?_, ?_, hall⟩
  · rw [size_insert_heap]; omega
  · intro n hn
    rcases List.mem_cons.mp (e3.subset hn) with h | h
    · rw [h]; exact proper_parent _ hl hr
    · exact hp _ (hall.subset (by simp [h]))
  · refine (forest_leaves_perm e3).trans ?_
    have e4 : forest_leaves ⟨parent :: heap2.nodes⟩
        = forest_leaves ⟨left :: right :: heap2.nodes⟩ := by
      simp [forest_leaves, parent, leaves_parent _ hl]
    rw [e4]
    exact forest_leaves_perm hall

theorem merge_loop_spec (fuel : Nat) :
    ∀ heap : MinHeap, heap.size ≤ fuel + 1 → (∀ n ∈ heap.nodes, n.proper = true) →
      (merge_loop fuel heap).size = min heap.size 1 ∧
      (∀ n ∈ (merge_loop fuel heap).nodes, n.proper = true) ∧
      List.Perm (forest_leaves (merge_loop fuel heap)) (forest_leaves heap) := by
  induction fuel with
  | zero =>
    intro heap hs hp
    refine ⟨?_, hp, List.Perm.refl _⟩
    simp only [merge_loop]; omega
  | succ fuel ih =>
    intro heap hs hp
    rw [merge_loop]
    by_cases h1 : heap.size > 1
    · simp only [h1, if_true]
      obtain ⟨q1, q2, q3, _⟩ := merge_step_spec heap h1 hp
      obtain ⟨r1, r2, r3⟩ := ih _ (by omega) q2
      refine ⟨?_, r2, r3.trans q3⟩
      rw [r1]; omega
    · simp only [h1, if_false]
      refine ⟨?_, hp, List.Perm.refl _⟩
      omega

theorem final_heap_spec (freq : Nat → Nat) :
    (final_heap freq).size = min (fill_heap freq).size 1 ∧
      (∀ n ∈ (final_heap freq).nodes, n.proper = true) ∧
      List.Perm (forest_leaves (final_heap freq)) (leaf_entries freq) := by
  obtain ⟨f1, f2⟩ := fill_heap_spec freq
  obtain ⟨r1, r2, r3⟩ := merge_loop_spec (fill_heap freq).size (fill_heap freq) (by omega) f1
  exact ⟨r1, r2, r3.trans f2⟩

theorem build_huffman_tree_eq (freq : Nat → Nat) :
    build_huffman_tree freq =
      if (final_heap freq).size = 0 then Node.null else (final_heap freq).nodes.getD 0 Node.null := by
  simp [build_huffman_tree, final_heap, extract_min]

theorem leaves_ne_nil_of_proper : ∀ t : Node, t.proper = true → t.leaves ≠ [] := by
  intro t
  induction t with
  | null => intro h; simp [Node.proper] at h
  | mk s f l r ihl ihr =>
    intro h
    simp only [Node.leaves]
    split_ifs with hc
    · simp
    · simp only [Node.proper, hc, Bool.false_or, Bool.and_eq_true] at h
      simp [ihl h.1]

/-- With no present symbol the result is `NULL`; otherwise it is a
well-formed tree whose leaves are the present symbols with their counts. -/
theorem build_huffman_tree_spec (freq : Nat → Nat) :
    (present freq = [] → build_huffman_tree freq = Node.null) ∧
    (present freq ≠ [] → (build_huffman_tree freq).proper = true ∧
      List.Perm (build_huffman_tree freq).leaves (leaf_entries freq)) := by
  obtain ⟨r1, r2, r3⟩ := final_heap_spec freq
  rw [build_huffman_tree_eq]
  cases hn : (final_heap freq).nodes with
  | nil =>
    have h0 : forest_leaves (final_heap freq) = [] := by simp [forest_leaves, hn]
    rw [h0] at r3
    have hp : present freq = [] := by
      have := r3.symm.eq_nil
      simpa [leaf_entries] using this
    simp [MinHeap.size, hn, hp]
  | cons n rest =>
    have hrest : rest = [] := by
      have : (final_heap freq).size ≤ 1 := by rw [r1]; omega
      simp only [MinHeap.size, hn, List.length_cons] at this
      exact List.length_eq_zero.mp (by omega)
    subst hrest
    have h0 : forest_leaves (final_heap freq) = n.leaves := by simp [forest_leaves, hn]
    rw [h0] at r3
    have hpn := r2 n (by simp [hn])
    have hp : present freq ≠ [] := by
      intro hp
      have : leaf_entries freq = [] := by simp [leaf_entries, hp]
      rw [this] at r3
      exact leaves_ne_nil_of_proper n hpn r3.eq_nil
    simp [MinHeap.size, hn, hp, hpn, r3]

/-! ## The code table -/

theorem assign_eq {α : Type} (a : Nat → α) (i : Nat) (v : α) : assign a i v i = v := by
  simp [assign]

theorem assign_ne {α : Type} (a : Nat → α) (i j : Nat) (v : α) (h : j ≠ i) :
    assign a i v j = a j := by
  simp [assign, h]

theorem step_char_ne_zero (b : Bool) : (step_char b != 0) = true := by
  cases b <;> decide

theorem c_string_take (cc : List Nat) (pre : List Bool)
    (h : cc.take pre.length = pre.map step_char) :
    (c_string cc).take pre.length = pre.map step_char := by
  have hsplit : cc = pre.map step_char ++ cc.drop pre.length := by
    rw [← h]; exact (List.take_append_drop _ _).symm
  unfold c_string
  rw [hsplit, List.takeWhile_append_of_pos]
  · rw [List.take_append_of_le_length (by simp)]
    rw [List.take_of_length_le (by simp)]
  · intro c hc
    obtain ⟨b, _, rfl⟩ := List.mem_map.mp hc
    exact step_char_ne_zero b

theorem take_set_self (cc : List Nat) (d x : Nat) : (cc.set d x).take d = cc.take d := by
  rw [List.set_take, List.set_eq_of_length_le]
  simp

theorem take_succ_set (cc : List Nat) (d x : Nat) (h : d < cc.length) :
    (cc.set d x).take (d + 1) = cc.take d ++ [x] := by
  rw [List.take_succ, take_set_self]
  simp [List.getElem?_set, h]

theorem take_of_take_succ {cc l : List Nat} {d x : Nat} (h : cc.take (d + 1) = l ++ [x])
    (hl : l.length = d) : cc.take d = l := by
  have := congrArg (List.take d) h
  rw [List.take_take, Nat.min_eq_left (Nat.le_succ d)] at this
  rw [this, List.take_append_of_le_length (by omega), List.take_of_length_le (by omega)]

theorem paths_map_fst (t : Node) : t.paths.map Prod.fst = t.leaves.map Prod.fst := by
  induction t with
  | null => rfl
  | mk s f l r ihl ihr =>
    simp only [Node.paths, Node.leaves]
    split_ifs
    · rfl
    · simp [List.map_append, ← ihl, ← ihr, Function.comp_def]

theorem build_codes_spec : ∀ t : Node, t.proper = true →
    ∀ (codes : Nat → Code) (cc : List Nat) (pre : List Bool),
      cc.length = 256 → pre.length + t.height < 256 →
      cc.take pre.length = pre.map step_char →
      (build_codes t codes cc pre.length).2.length = 256 ∧
      (build_codes t codes cc pre.length).2.take pre.length = pre.map step_char ∧
      (∀ s, s ∉ t.paths.map Prod.fst → (build_codes t codes cc pre.length).1 s = codes s) ∧
      ((t.paths.map Prod.fst).Nodup → ∀ p ∈ t.paths,
        ((build_codes t codes cc pre.length).1 p.1).length = pre.length + p.2.length ∧
        ((build_codes t codes cc pre.length).1 p.1).code.take (pre.length + p.2.length)
          = (pre ++ p.2).map step_char) := by
  intro t
  induction t with
  | null => intro h; simp [Node.proper] at h
  | mk s f l r ihl ihr =>
    intro hp codes cc pre hlen hh hpre
    by_cases hc : (l.isNull && r.isNull) = true
    · simp only [build_codes, hc, if_true, Node.paths, List.map_cons, List.map_nil,
        List.mem_singleton, List.length_nil, Nat.add_zero, List.append_nil]
      refine ⟨hlen, hpre, ?_, ?_⟩
      · intro s' hs'; exact assign_ne _ _ _ _ hs'
      · intro _ p hp'
        subst hp'
        simp only [assign_eq]
        exact ⟨rfl, by simpa using c_string_take cc pre hpre⟩
    · simp only [Node.proper, hc, Bool.false_or, Bool.and_eq_true] at hp
      simp only [Node.height, hc, Bool.false_eq_true, if_false] at hh
      have hhl : l.height ≤ max l.height r.height := le_max_left _ _
      have hhr : r.height ≤ max l.height r.height := le_max_right _ _
      have hd : pre.length < cc.length := by omega
      have hpre1 : (cc.set pre.length 48).take (pre ++ [false]).length
          = (pre ++ [false]).map step_char := by
        simp only [List.length_append, List.length_singleton]
        rw [take_succ_set _ _ _ hd, hpre]
        simp [step_char]
      have hlen1 : (cc.set pre.length 48).length = 256 := by simpa using hlen
      have hl1 : (pre ++ [false]).length + l.height < 256 := by
        simp only [List.length_append, List.length_singleton]; omega
      have hr1 : (pre ++ [true]).length + r.height < 256 := by
        simp only [List.length_append, List.length_singleton]; omega
      have e1 : (pre ++ [false]).length = pre.length + 1 := by simp
      have e2 : (pre ++ [true]).length = pre.length + 1 := by simp
      obtain ⟨a1, a2, a3, a4⟩ := ihl hp.1 codes (cc.set pre.length 48) (pre ++ [false])
        hlen1 hl1 hpre1
      rw [e1] at a1 a2 a3 a4
      generalize hr1def : build_codes l codes (cc.set pre.length 48) (pre.length + 1) = r1
        at a1 a2 a3 a4
      have hd2 : pre.length < r1.2.length := by omega
      have hpre2 : (r1.2.set pre.length 49).take (pre ++ [true]).length
          = (pre ++ [true]).map step_char := by
        rw [e2, take_succ_set _ _ _ hd2]
        have := take_of_take_succ (by simpa using a2) (by simp) (d := pre.length)
        rw [this]
        simp [step_char]
      have hlen2 : (r1.2.set pre.length 49).length = 256 := by simpa using a1
      obtain ⟨b1, b2, b3, b4⟩ := ihr hp.2 r1.1 (r1.2.set pre.length 49) (pre ++ [true])
        hlen2 hr1 hpre2
      rw [e2] at b1 b2 b3 b4
      have hbc : build_codes (Node.mk s f l r) codes cc pre.length
          = build_codes r r1.1 (r1.2.set pre.length 49) (pre.length + 1) := by
        simp only [build_codes, hc, hr1def]
        rfl
      rw [hbc]
      generalize build_codes r r1.1 (r1.2.set pre.length 49) (pre.length + 1) = r2
        at b1 b2 b3 b4
      have hpaths : (Node.mk s f l r).paths
          = l.paths.map (fun p => (p.1, false :: p.2)) ++ r.paths.map (fun p => (p.1, true :: p.2)) := by
        simp only [Node.paths, hc]; rfl
      have hfst : (Node.mk s f l r).paths.map Prod.fst
          = l.paths.map Prod.fst ++ r.paths.map Prod.fst := by
        rw [hpaths]; simp [Function.comp_def]
      rw [hfst]
      refine ⟨b1, ?_, ?_, ?_⟩
      · exact take_of_take_succ (by simpa using b2) (by simp)
      · intro s' hs'
        rw [List.mem_append, not_or] at hs'
        rw [b3 s' hs'.2, a3 s' hs'.1]
      · intro hnd p hp'
        rw [List.nodup_append] at hnd
        obtain ⟨hndl, hndr, hdisj⟩ := hnd
        rw [hpaths, List.mem_append] at hp'
        rcases hp' with hp' | hp'
        · obtain ⟨q, hq, rfl⟩ := List.mem_map.mp hp'
          have hql : q.1 ∈ l.paths.map Prod.fst := List.mem_map.mpr ⟨q, hq, rfl⟩
          have hqr : q.1 ∉ r.paths.map Prod.fst := fun h => hdisj hql h
          obtain ⟨c1, c2⟩ := a4 hndl q hq
          simp only [List.length_cons]
          rw [b3 _ hqr]
          constructor
          · rw [c1]; omega
          · have : pre.length + (q.2.length + 1) = pre.length + 1 + q.2.length := by omega
            rw [this, c2]; simp
        · obtain ⟨q, hq, rfl⟩ := List.mem_map.mp hp'
          obtain ⟨c1, c2⟩ := b4 hndr q hq
          simp only [List.length_cons]
          constructor
          · rw [c1]; omega
          · have : pre.length + (q.2.length + 1) = pre.length + 1 + q.2.length := by omega
            rw [this, c2]; simp

theorem height_lt_leaves : ∀ t : Node, t.proper = true → t.height + 1 ≤ t.leaves.length := by
  intro t
  induction t with
  | null => intro h; simp [Node.proper] at h
  | mk s f l r ihl ihr =>
    intro hp
    by_cases hc : (l.isNull && r.isNull) = true
    · simp [Node.height, Node.leaves, hc]
    · simp only [Node.proper, hc, Bool.false_or, Bool.and_eq_true] at hp
      simp only [Node.height, Node.leaves, hc, Bool.false_eq_true, if_false, List.length_append]
      have := ihl hp.1
      have := ihr hp.2
      rcases max_cases l.height r.height with h | h <;> omega

theorem present_nodup (freq : Nat → Nat) : (present freq).Nodup :=
  List.Nodup.filter _ (List.nodup_range _)

theorem present_length_le (freq : Nat → Nat) : (present freq).length ≤ 256 := by
  have := List.length_filter_le (fun i => decide (freq i > 0)) (List.range MAX_SYMBOLS)
  simpa [present, MAX_SYMBOLS] using this

theorem mem_present {freq : Nat → Nat} {s : Nat} : s ∈ present freq ↔ s < 256 ∧ 0 < freq s := by
  simp [present, MAX_SYMBOLS]

theorem leaf_entries_map_fst (freq : Nat → Nat) :
    (leaf_entries freq).map Prod.fst = present freq := by
  simp [leaf_entries, Function.comp_def]

/-- The symbols at the leaves of the tree are the present symbols, each once. -/
theorem tree_syms_perm (freq : Nat → Nat) (h : present freq ≠ []) :
    List.Perm ((build_huffman_tree freq).paths.map Prod.fst) (present freq) := by
  rw [paths_map_fst, ← leaf_entries_map_fst]
  exact ((build_huffman_tree_spec freq).2 h).2.map _

theorem tree_height_lt (freq : Nat → Nat) (h : present freq ≠ []) :
    (build_huffman_tree freq).height < 256 := by
  have h1 := height_lt_leaves _ ((build_huffman_tree_spec freq).2 h).1
  have h2 := ((build_huffman_tree_spec freq).2 h).2.length_eq
  have h3 := present_length_le freq
  simp only [leaf_entries, List.length_map] at h2
  omega

theorem length_init_current_code : init_current_code.length = 256 :=
  List.length_replicate _ _

/-- The call `build_codes(root, codes, current_code, 0)` of `encode_file`. -/
theorem code_table_root (t : Node) (hp : t.proper = true) (hh : t.height < 256) :
    (∀ s, s ∉ t.paths.map Prod.fst → code_table t s = init_codes s) ∧
    ((t.paths.map Prod.fst).Nodup → ∀ p ∈ t.paths,
      (code_table t p.1).length = p.2.length ∧
      (code_table t p.1).code.take p.2.length = p.2.map step_char) := by
  have hs := build_codes_spec t hp init_codes init_current_code []
    length_init_current_code (by rw [List.length_nil, Nat.zero_add]; exact hh) rfl
  simp only [List.length_nil, Nat.zero_add, List.nil_append] at hs
  exact ⟨hs.2.2.1, hs.2.2.2⟩

/-- The code table of the tree: each leaf gets its root-to-leaf path. -/
theorem code_table_spec (freq : Nat → Nat) (h : present freq ≠ []) :
    ∀ p ∈ (build_huffman_tree freq).paths,
      (code_table (build_huffman_tree freq) p.1).length = p.2.length ∧
      (code_table (build_huffman_tree freq) p.1).code.take p.2.length = p.2.map step_char := by
  have hnd : ((build_huffman_tree freq).paths.map Prod.fst).Nodup :=
    (tree_syms_perm freq h).nodup_iff.mpr (present_nodup freq)
  exact (code_table_root _ ((build_huffman_tree_spec freq).2 h).1 (tree_height_lt freq h)).2 hnd

theorem code_table_absent (freq : Nat → Nat) (s : Nat) (hs : s ∉ present freq) :
    code_table (build_huffman_tree freq) s = init_codes s := by
  by_cases h : present freq = []
  · rw [(build_huffman_tree_spec freq).1 h]; rfl
  · refine (code_table_root _ ((build_huffman_tree_spec freq).2 h).1
      (tree_height_lt freq h)).1 s ?_
    intro hmem
    exact hs ((tree_syms_perm freq h).subset hmem)

theorem paths_prefix_eq : ∀ t : Node, ∀ p ∈ t.paths, ∀ q ∈ t.paths, p.2 <+: q.2 → p = q := by
  intro t
  induction t with
  | null => intro p hp; simp [Node.paths] at hp
  | mk s f l r ihl ihr =>
    intro p hp q hq hpre
    by_cases hc : (l.isNull && r.isNull) = true
    · simp only [Node.paths, hc, if_true, List.mem_singleton] at hp hq
      rw [hp, hq]
    · simp only [Node.paths, hc, Bool.false_eq_true, if_false, List.mem_append,
        List.mem_map] at hp hq
      rcases hp with ⟨p', hp', rfl⟩ | ⟨p', hp', rfl⟩ <;>
        rcases hq with ⟨q', hq', rfl⟩ | ⟨q', hq', rfl⟩
      · have h2 : p'.2 <+: q'.2 := by
          simpa using (List.cons_prefix_cons.mp hpre).2
        rw [ihl p' hp' q' hq' h2]
      · have := (List.cons_prefix_cons.mp hpre).1
        simp at this
      · have := (List.cons_prefix_cons.mp hpre).1
        simp at this
      · have h2 : p'.2 <+: q'.2 := by
          simpa using (List.cons_prefix_cons.mp hpre).2
        rw [ihr p' hp' q' hq' h2]

theorem step_char_injective : Function.Injective step_char := by
  intro a b h
  cases a <;> cases b <;> simp [step_char] at h ⊢

theorem prefix_of_map_step_char {p q : List Bool}
    (h : p.map step_char <+: q.map step_char) : p <+: q := by
  induction p generalizing q with
  | nil => exact List.nil_prefix
  | cons a p ih =>
    cases q with
    | nil => simp at h
    | cons b q =>
      simp only [List.map_cons] at h
      obtain ⟨h1, h2⟩ := List.cons_prefix_cons.mp h
      rw [step_char_injective h1]
      exact List.cons_prefix_cons.mpr ⟨rfl, ih h2⟩

/-- Every present symbol sits at a leaf of the tree. -/
theorem exists_path (freq : Nat → Nat) (s : Nat) (hs : s ∈ present freq) :
    ∃ p ∈ (build_huffman_tree freq).paths, p.1 = s := by
  have hne : present freq ≠ [] := List.ne_nil_of_mem hs
  have := (tree_syms_perm freq hne).symm.subset hs
  obtain ⟨p, hp, rfl⟩ := List.mem_map.mp this
  exact ⟨p, hp, rfl⟩

theorem prefix_free (freq : Nat → Nat) (s t : Nat)
    (hs : s < 256) (ht : t < 256) (hfs : 0 < freq s) (hft : 0 < freq t) (hne : s ≠ t) :
    ¬ (code_table (build_huffman_tree freq) s).bits <+: (code_table (build_huffman_tree freq) t).bits := by
  have hps : s ∈ present freq := mem_present.mpr ⟨hs, hfs⟩
  have hpt : t ∈ present freq := mem_present.mpr ⟨ht, hft⟩
  have hn : present freq ≠ [] := List.ne_nil_of_mem hps
  obtain ⟨p, hp, rfl⟩ := exists_path freq s hps
  obtain ⟨q, hq, rfl⟩ := exists_path freq t hpt
  obtain ⟨p1, p2⟩ := code_table_spec freq hn p hp
  obtain ⟨q1, q2⟩ := code_table_spec freq hn q hq
  intro hpre
  simp only [Code.bits] at hpre
  rw [p1, q1, p2, q2] at hpre
  have := paths_prefix_eq _ p hp q hq (prefix_of_map_step_char hpre)
  exact hne (by rw [this])

/-! ## Bit packing -/

set_option maxRecDepth 100000 in
theorem push_bit_full : ∀ buf, buf < 2 ^ 7 → ∀ b : Bool,
    push_bit [step_char b] ⟨[], buf, 7⟩ 0 = ⟨[(2 * buf + b.toNat)], 0, 0⟩ ∧
    2 * buf + b.toNat < 256 ∧
    byte_bits (2 * buf + b.toNat) = pending_bits buf 7 ++ [b] := by
  decide

set_option maxRecDepth 100000 in
theorem push_bit_part : ∀ n, n < 7 → ∀ buf, buf < 2 ^ n → ∀ b : Bool,
    push_bit [step_char b] ⟨[], buf, n⟩ 0 = ⟨[], 2 * buf + b.toNat, n + 1⟩ ∧
    2 * buf + b.toNat < 2 ^ (n + 1) ∧
    pending_bits (2 * buf + b.toNat) (n + 1) = pending_bits buf n ++ [b] := by
  decide

set_option maxRecDepth 100000 in
theorem flush_cases : ∀ n, n < 8 → ∀ buf, buf < 2 ^ n →
    (buf <<< (8 - n)) % 256 < 256 ∧
    byte_bits ((buf <<< (8 - n)) % 256) = pending_bits buf n ++ List.replicate (8 - n) false := by
  decide

theorem push_bit_out (code : List Nat) (out : List Nat) (buf n i : Nat) :
    push_bit code ⟨out, buf, n⟩ i =
      ⟨out ++ (push_bit code ⟨[], buf, n⟩ i).out, (push_bit code ⟨[], buf, n⟩ i).buffer,
        (push_bit code ⟨[], buf, n⟩ i).bit_count⟩ := by
  simp only [push_bit]
  split_ifs <;> simp

theorem payload_bits_append (p q : List Nat) :
    payload_bits (p ++ q) = payload_bits p ++ payload_bits q := by
  simp [payload_bits]

theorem payload_bits_singleton (c : Nat) (h : c < 256) : payload_bits [c] = byte_bits c := by
  simp [payload_bits, Nat.mod_eq_of_lt h]

theorem push_bit_spec (w : Writer) (b : Bool) (h : w.ok) :
    (push_bit [step_char b] w 0).ok ∧
    (push_bit [step_char b] w 0).content = w.content ++ [b] ∧
    8 * (push_bit [step_char b] w 0).out.length + (push_bit [step_char b] w 0).bit_count
      = 8 * w.out.length + w.bit_count + 1 := by
  obtain ⟨out, buf, n⟩ := w
  obtain ⟨h1, h2, h3⟩ := h
  simp only at h1 h2 h3
  rw [push_bit_out]
  by_cases h7 : n = 7
  · subst h7
    obtain ⟨e1, e2, e3⟩ := push_bit_full buf h2 b
    rw [e1]
    refine ⟨⟨by simp, by simp, ?_⟩, ?_, ?_⟩
    · intro c hc
      rcases List.mem_append.mp hc with hc | hc
      · exact h3 c hc
      · rw [List.mem_singleton.mp hc]; exact e2
    · simp only [Writer.content, payload_bits_append, payload_bits_singleton _ e2, e3,
        pending_bits, List.range_zero, List.map_nil, List.append_nil, List.append_assoc]
    · simp; omega
  · obtain ⟨e1, e2, e3⟩ := push_bit_part n (by omega) buf h2 b
    rw [e1]
    refine ⟨⟨by simp; omega, by simpa using e2, by simpa using h3⟩, ?_, ?_⟩
    · simp only [Writer.content, List.append_nil, e3, List.append_assoc]
    · simp; omega

theorem write_bits_spec (bits : List Bool) : ∀ w : Writer, w.ok →
    (write_bits bits w).ok ∧ (write_bits bits w).content = w.content ++ bits ∧
    8 * (write_bits bits w).out.length + (write_bits bits w).bit_count
      = 8 * w.out.length + w.bit_count + bits.length := by
  induction bits with
  | nil => intro w h; simp [write_bits, h]
  | cons b bits ih =>
    intro w h
    obtain ⟨a1, a2, a3⟩ := push_bit_spec w b h
    obtain ⟨b1, b2, b3⟩ := ih _ a1
    simp only [write_bits, List.foldl_cons] at b1 b2 b3 ⊢
    refine ⟨b1, ?_, ?_⟩
    · rw [b2, a2]; simp
    · rw [b3, a3]; simp; omega

theorem flush_spec (w : Writer) (h : w.ok) :
    (∀ c ∈ flush w, c < 256) ∧
    payload_bits (flush w) = w.content ++ List.replicate ((8 - w.bit_count) % 8) false ∧
    8 * (flush w).length = 8 * w.out.length + w.bit_count + (8 - w.bit_count) % 8 := by
  obtain ⟨out, buf, n⟩ := w
  obtain ⟨h1, h2, h3⟩ := h
  simp only at h1 h2 h3
  obtain ⟨e1, e2⟩ := flush_cases n h1 buf h2
  by_cases hn : n > 0
  · have h8 : (8 - n) % 8 = 8 - n := Nat.mod_eq_of_lt (by omega)
    simp only [flush, hn, if_true, Writer.content, h8]
    refine ⟨?_, ?_, ?_⟩
    · intro c hc
      rcases List.mem_append.mp hc with hc | hc
      · exact h3 c hc
      · rw [List.mem_singleton.mp hc]; exact e1
    · rw [payload_bits_append, payload_bits_singleton _ e1, e2, List.append_assoc]
    · simp; omega
  · have hn0 : n = 0 := by omega
    subst hn0
    simp [flush, Writer.content, pending_bits]
    exact h3

theorem init_writer_ok : (⟨[], 0, 0⟩ : Writer).ok := by
  simp [Writer.ok]

/-- The payload written for a sequence of bits holds these bits, then zero
padding up to the next byte boundary. -/
theorem packed_bits (bits : List Bool) :
    (∀ c ∈ flush (write_bits bits ⟨[], 0, 0⟩), c < 256) ∧
    payload_bits (flush (write_bits bits ⟨[], 0, 0⟩))
      = bits ++ List.replicate ((8 - (write_bits bits ⟨[], 0, 0⟩).bit_count) % 8) false ∧
    8 * (flush (write_bits bits ⟨[], 0, 0⟩)).length
      = bits.length + (8 - (write_bits bits ⟨[], 0, 0⟩).bit_count) % 8 := by
  obtain ⟨a1, a2, a3⟩ := write_bits_spec bits ⟨[], 0, 0⟩ init_writer_ok
  obtain ⟨b1, b2, b3⟩ := flush_spec _ a1
  refine ⟨b1, ?_, ?_⟩
  · rw [b2, a2]; simp [Writer.content, payload_bits, pending_bits]
  · rw [b3, a3]; simp

/-! ## The decoding loop reads the payload bit by bit -/

theorem walk_append (root : Node) (a b : List Bool) : ∀ st : Node × List Nat,
    walk root (a ++ b) st = (walk root a st).bind (walk root b) := by
  induction a with
  | nil => intro st; rfl
  | cons x a ih =>
    intro st
    simp only [List.cons_append, walk]
    cases walk_bit root st x with
    | none => rfl
    | some st1 => exact ih st1

theorem advance_eq (r1 r2 : Reader) (n m : Nat) (h : r1.bit_count + n = r2.bit_count + m) :
    r1.advance n = r2.advance m := by
  funext st
  simp [Reader.advance, h]

theorem decode_bits_spec (root : Node) (total buffer : Nat) (ht : total < U64) :
    ∀ (is : List Nat) (r : Reader), r.bit_count < total →
      decode_bits root total buffer is r =
        (walk root ((is.take (total - r.bit_count)).map
            (fun i => decide ((buffer >>> i) &&& 1 ≠ 0))) (r.current, r.out)).map
          (r.advance (min is.length (total - r.bit_count))) := by
  intro is
  induction is with
  | nil => intro r _; simp [decode_bits, walk, Reader.advance]
  | cons i rest ih =>
    intro r hr
    obtain ⟨cur, bc, out⟩ := r
    simp only at hr
    have htk : total - bc = (total - bc - 1) + 1 := by omega
    have hmod : (bc + 1) % U64 = bc + 1 := Nat.mod_eq_of_lt (by omega)
    rw [decode_bits]
    simp only
    rw [htk, List.take_succ_cons, List.map_cons, walk, walk_bit]
    simp only [hmod]
    cases cur with
    | null => rfl
    | mk s f left right =>
      simp only
      have hb : (if decide ((buffer >>> i) &&& 1 ≠ 0) = true then right else left)
          = (if (buffer >>> i) &&& 1 ≠ 0 then right else left) := by
        simp only [decide_eq_true_eq]
      rw [hb]
      generalize (if (buffer >>> i) &&& 1 ≠ 0 then right else left) = child
      cases child with
      | null => rfl
      | mk symbol f1 l1 r1 =>
        simp only
        by_cases hleaf : (l1.isNull && r1.isNull) = true
        · simp only [hleaf, if_true, hmod]
          by_cases hge : bc + 1 ≥ total
          · have h0 : total - bc - 1 = 0 := by omega
            simp only [hge, if_true, h0, List.take_zero, List.map_nil, walk, Option.map_some',
              Reader.advance, List.length_cons]
            congr 2
            omega
          · simp only [hge, if_false]
            rw [ih _ (by simp only; omega)]
            have e1 : total - (bc + 1) = total - bc - 1 := by omega
            simp only [e1]
            refine congrArg (fun g => Option.map g _) (advance_eq _ _ _ _ ?_)
            simp only [List.length_cons]
            omega
        · simp only [hleaf, if_false, Bool.false_eq_true, hmod]
          by_cases hge : bc + 1 ≥ total
          · have h0 : total - bc - 1 = 0 := by omega
            simp only [hge, if_true, h0, List.take_zero, List.map_nil, walk, Option.map_some',
              Reader.advance, List.length_cons]
            congr 2
            omega
          · simp only [hge, if_false]
            rw [ih _ (by simp only; omega)]
            have e1 : total - (bc + 1) = total - bc - 1 := by omega
            simp only [e1]
            refine congrArg (fun g => Option.map g _) (advance_eq _ _ _ _ ?_)
            simp only [List.length_cons]
            omega

theorem bit_indices_eq_take (n : Nat) (h : n ≤ 8) : bit_indices n = (bit_indices 8).take n := by
  simp only [bit_indices, ← List.map_take, List.take_range, Nat.min_eq_left h]

theorem length_byte_bits (c : Nat) : (byte_bits c).length = 8 := by
  simp [byte_bits, bit_indices]

theorem decode_loop_spec (root : Node) (total : Nat) (ht : total < U64) :
    ∀ (payload : List Nat) (r : Reader),
      decode_loop root total payload r =
        (walk root ((payload_bits payload).take (total - r.bit_count)) (r.current, r.out)).map
          (r.advance (min (8 * payload.length) (total - r.bit_count))) := by
  intro payload
  induction payload with
  | nil => intro r; simp [decode_loop, payload_bits, walk, Reader.advance]
  | cons c rest ih =>
    intro r
    rw [decode_loop]
    by_cases hlt : r.bit_count < total
    · simp only [hlt, if_true]
      generalize hbtr : (if (r.bit_count + 8) % U64 > total then total - r.bit_count else 8) = btr
      have hb8 : btr ≤ 8 := by
        rw [← hbtr]; split_ifs with h
        · by_contra hc
          have : (r.bit_count + 8) % U64 ≤ r.bit_count + 8 := Nat.mod_le _ _
          omega
        · exact le_refl _
      have hmin : min btr (total - r.bit_count) = min 8 (total - r.bit_count) := by
        rw [← hbtr]; split_ifs with h
        · have : (r.bit_count + 8) % U64 ≤ r.bit_count + 8 := Nat.mod_le _ _
          omega
        · rfl
      rw [decode_bits_spec root total (c % 256) ht _ r hlt]
      have hlen : (bit_indices btr).length = btr := by simp [bit_indices]
      have htake : ((bit_indices btr).take (total - r.bit_count)).map
            (fun i => decide (((c % 256) >>> i) &&& 1 ≠ 0))
          = (byte_bits (c % 256)).take (min 8 (total - r.bit_count)) := by
        rw [bit_indices_eq_take btr hb8, List.take_take, byte_bits, ← List.map_take,
          Nat.min_comm, hmin]
      rw [htake, hlen, hmin]
      have hpb : payload_bits (c :: rest) = byte_bits (c % 256) ++ payload_bits rest := by
        simp [payload_bits]
      rw [hpb, List.take_append_eq_append_take, walk_append, length_byte_bits]
      have htk8 : (byte_bits (c % 256)).take (total - r.bit_count)
          = (byte_bits (c % 256)).take (min 8 (total - r.bit_count)) := by
        rw [List.take_eq_take, length_byte_bits]; omega
      rw [htk8]
      cases hw : walk root ((byte_bits (c % 256)).take (min 8 (total - r.bit_count)))
          (r.current, r.out) with
      | none => rfl
      | some st1 =>
        simp only [Option.map_some', Option.some_bind]
        rw [ih]
        have e1 : total - (r.advance (min 8 (total - r.bit_count)) st1).bit_count
            = total - r.bit_count - 8 := by
          simp only [Reader.advance]; omega
        rw [e1]
        refine congrArg (fun g => Option.map g _) (advance_eq _ _ _ _ ?_)
        simp only [Reader.advance, List.length_cons]
        omega
    · simp only [hlt, if_false]
      have h0 : total - r.bit_count = 0 := by omega
      simp [h0, walk, Reader.advance]

/-! ## The header is read back as it was written -/

theorem length_le_bytes (n v : Nat) : (le_bytes n v).length = n := by
  induction n generalizing v with
  | zero => rfl
  | succ n ih => simp [le_bytes, ih]

theorem le_value_le_bytes (n v : Nat) : le_value (le_bytes n v) = v % 256 ^ n := by
  induction n generalizing v with
  | zero => simp [le_bytes, le_value, Nat.mod_one]
  | succ n ih =>
    simp only [le_bytes, le_value, ih]
    rw [pow_succ, Nat.mul_comm (256 ^ n) 256, Nat.mod_mul, Nat.add_comm]

theorem fread_append (l rest : List Nat) : fread l.length (l ++ rest) = some (l, rest) := by
  simp [fread]

theorem fread_le_bytes (n v : Nat) (rest : List Nat) :
    fread n (le_bytes n v ++ rest) = some (le_bytes n v, rest) := by
  have := fread_append (le_bytes n v) rest
  rwa [length_le_bytes] at this

theorem foldl_filter_append {α : Type} (p : Nat → Prop) [DecidablePred p] (g : Nat → List α)
    (is : List Nat) : ∀ acc : List α,
    is.foldl (fun out i => if p i then out ++ g i else out) acc
      = acc ++ (is.filter (fun i => decide (p i))).flatMap g := by
  induction is with
  | nil => intro acc; simp
  | cons i is ih =>
    intro acc
    simp only [List.foldl_cons, List.filter_cons]
    by_cases h : p i
    · simp [h, ih]
    · simp [h, ih]

theorem header_entries_eq (freq : Nat → Nat) :
    header_entries freq = (present freq).flatMap (fun i => i % 256 :: le_bytes 8 (freq i)) := by
  have := foldl_filter_append (fun i => freq i > 0) (fun i => [i % 256] ++ le_bytes 8 (freq i))
    (List.range MAX_SYMBOLS) []
  simp only [List.nil_append, List.append_assoc, List.singleton_append] at this
  simp only [header_entries, present, List.append_assoc, List.singleton_append]
  exact this

theorem foldl_filter_count (p : Nat → Prop) [DecidablePred p] (is : List Nat) : ∀ acc : Nat,
    is.foldl (fun n i => if p i then n + 1 else n) acc
      = acc + (is.filter (fun i => decide (p i))).length := by
  induction is with
  | nil => intro acc; simp
  | cons i is ih =>
    intro acc
    simp only [List.foldl_cons, List.filter_cons]
    by_cases h : p i
    · simp [h, ih]; omega
    · simp [h, ih]

theorem symbol_count_eq (freq : Nat → Nat) : symbol_count freq = (present freq).length := by
  have := foldl_filter_count (fun i => freq i > 0) (List.range MAX_SYMBOLS) 0
  simpa [symbol_count, present] using this

theorem read_entries_entries (freq : Nat → Nat) (syms : List Nat) (rest : List Nat) :
    ∀ init : Nat → Nat,
      read_entries syms.length init
          (syms.flatMap (fun i => i % 256 :: le_bytes 8 (freq i)) ++ rest)
        = some (read_table freq syms init, rest) := by
  induction syms with
  | nil => intro init; simp [read_entries, read_table]
  | cons i syms ih =>
    intro init
    simp only [List.length_cons, List.flatMap_cons, List.append_assoc, read_entries,
      List.cons_append]
    have h1 : fread 1 (i % 256 :: (le_bytes 8 (freq i) ++
        (syms.flatMap (fun i => i % 256 :: le_bytes 8 (freq i)) ++ rest)))
        = some ([i % 256], le_bytes 8 (freq i) ++
          (syms.flatMap (fun i => i % 256 :: le_bytes 8 (freq i)) ++ rest)) := by
      simp [fread]
    rw [h1]
    simp only
    rw [fread_le_bytes]
    simp only
    rw [ih]
    have e1 : le_value [i % 256] = i % 256 := by simp [le_value]
    have e2 : le_value (le_bytes 8 (freq i)) = freq i % U64 := by
      rw [le_value_le_bytes]; rfl
    rw [e1, e2]
    rfl

theorem read_table_apply (freq : Nat → Nat) (syms : List Nat) (hs : ∀ i ∈ syms, i < 256) :
    ∀ (init : Nat → Nat) (j : Nat),
      read_table freq syms init j = if j ∈ syms then freq j % U64 else init j := by
  induction syms with
  | nil => intro init j; simp [read_table]
  | cons i syms ih =>
    intro init j
    have hi : i % 256 = i := Nat.mod_eq_of_lt (hs i (by simp))
    simp only [read_table, List.foldl_cons, hi]
    have := ih (fun k hk => hs k (by simp [hk])) (assign init i (freq i % U64)) j
    simp only [read_table] at this
    rw [this]
    by_cases hj : j ∈ syms
    · simp [hj]
    · by_cases hji : j = i
      · subst hji; simp [hj, assign]
      · simp [hj, hji, assign]

theorem total_bits_lt (freq : Nat → Nat) (codes : Nat → Code) : total_bits freq codes < U64 := by
  unfold total_bits
  generalize List.range MAX_SYMBOLS = is
  have : ∀ (is : List Nat) (acc : Nat), acc < U64 →
      is.foldl (fun tb i => if freq i > 0 then (tb + freq i * (codes i).length) % U64 else tb) acc
        < U64 := by
    intro is
    induction is with
    | nil => intro acc h; simpa using h
    | cons i is ih =>
      intro acc h
      simp only [List.foldl_cons]
      apply ih
      split_ifs
      · exact Nat.mod_lt _ (by decide)
      · exact h
  exact this is 0 (by decide)

theorem valid_bits_range (tb : Nat) : 1 ≤ valid_bits tb ∧ valid_bits tb ≤ 8 := by
  unfold valid_bits
  split_ifs <;> omega

/-- Reading back the header written by `encode_file`. -/
theorem read_header_header (freq : Nat → Nat) (codes : Nat → Code) (payload : List Nat) :
    ∃ h : Header, read_header (header freq codes ++ payload) = some (h, payload) ∧
      (∀ j, h.freq j = if j ∈ present freq then freq j % U64 else 0) ∧
      h.valid_bits = valid_bits (total_bits freq codes) ∧
      h.total_bits = total_bits freq codes := by
  have hcount : symbol_count freq < 2147483648 := by
    rw [symbol_count_eq]
    have := present_length_le freq
    omega
  have hc4 : le_value (le_bytes 4 (symbol_count freq)) = symbol_count freq := by
    rw [le_value_le_bytes]
    exact Nat.mod_eq_of_lt (by norm_num; omega)
  have hv : le_value [valid_bits (total_bits freq codes)] = valid_bits (total_bits freq codes) := by
    simp [le_value]
  have ht : le_value (le_bytes 8 (total_bits freq codes)) = total_bits freq codes := by
    rw [le_value_le_bytes]
    exact Nat.mod_eq_of_lt (total_bits_lt freq codes)
  refine ⟨⟨read_table freq (present freq) (fun _ => 0), valid_bits (total_bits freq codes),
    total_bits freq codes⟩, ?_, ?_, ?_, ?_⟩
  · simp only [read_header, header, List.append_assoc]
    rw [fread_le_bytes]
    simp only [hc4, hcount, if_true]
    rw [symbol_count_eq, header_entries_eq]
    rw [read_entries_entries freq (present freq) _ (fun _ => 0)]
    simp only [List.singleton_append]
    have h1 : fread 1 (valid_bits (total_bits freq codes) ::
        (le_bytes 8 (total_bits freq codes) ++ payload))
        = some ([valid_bits (total_bits freq codes)],
            le_bytes 8 (total_bits freq codes) ++ payload) := by
      simp [fread]
    rw [h1]
    simp only
    rw [fread_le_bytes]
    simp only [hv, ht]
  · intro j
    exact read_table_apply freq (present freq) (fun i hi => (mem_present.mp hi).1) _ j
  · simp only
  · simp only

/-! ## Frequencies and the total bit count -/

theorem count_freq_fold (b : List Nat) : ∀ init : Nat → Nat, (∀ j, init j < U64) → ∀ j,
    (b.foldl (fun freq c => assign freq (c % 256) ((freq (c % 256) + 1) % U64)) init) j
      = (init j + (b.map (fun c => c % 256)).count j) % U64 := by
  induction b with
  | nil => intro init h j; simp [Nat.mod_eq_of_lt (h j)]
  | cons c b ih =>
    intro init h j
    simp only [List.foldl_cons, List.map_cons]
    have hU : 0 < U64 := by decide
    rw [ih _ (by
      intro k
      simp only [assign]
      split_ifs
      · exact Nat.mod_lt _ hU
      · exact h k)]
    by_cases hj : j = c % 256
    · subst hj
      simp only [assign, if_true, List.count_cons_self]
      rw [Nat.add_mod, Nat.mod_mod, ← Nat.add_mod]
      congr 1; omega
    · have hne : ¬ (c % 256 == j) = true := by simpa using fun h => hj h.symm
      simp [assign, hj, List.count_cons, hne]

theorem count_freq_eq (b : List Nat) (j : Nat) :
    count_freq b j = (b.map (fun c => c % 256)).count j % U64 := by
  have hU : 0 < U64 := by decide
  have := count_freq_fold b (fun _ => 0) (fun _ => hU) j
  simpa [count_freq] using this

theorem count_freq_lt (b : List Nat) (j : Nat) : count_freq b j < U64 := by
  rw [count_freq_eq]; exact Nat.mod_lt _ (by decide)

theorem count_freq_exact (b : List Nat) (h : b.length < U64) (j : Nat) :
    count_freq b j = (b.map (fun c => c % 256)).count j := by
  rw [count_freq_eq]
  apply Nat.mod_eq_of_lt
  have := List.count_le_length j (b.map (fun c => c % 256))
  simp only [List.length_map] at this
  omega

theorem count_freq_high (b : List Nat) (j : Nat) (hj : 256 ≤ j) : count_freq b j = 0 := by
  rw [count_freq_eq]
  have : (b.map (fun c => c % 256)).count j = 0 := by
    rw [List.count_eq_zero]
    intro hm
    obtain ⟨c, _, hc⟩ := List.mem_map.mp hm
    have := Nat.mod_lt c (show 0 < 256 by decide)
    omega
  rw [this]; rfl

theorem mem_present_count_freq (b : List Nat) (h : b.length < U64) (c : Nat) (hc : c ∈ b) :
    c % 256 ∈ present (count_freq b) := by
  rw [mem_present, count_freq_exact b h]
  refine ⟨Nat.mod_lt _ (by decide), ?_⟩
  exact List.count_pos_iff.mpr (List.mem_map.mpr ⟨c, hc, rfl⟩)

/-- The sum over all byte values of count times weight is the sum of the
weights along the list. -/
theorem sum_count_mul (g : Nat → Nat) (n : Nat) (l : List Nat) (hl : ∀ x ∈ l, x < n) :
    ((List.range n).map (fun i => l.count i * g i)).sum = (l.map g).sum := by
  induction l with
  | nil => simp
  | cons c l ih =>
    have hc : c < n := hl c (by simp)
    have ih' := ih (fun x hx => hl x (by simp [hx]))
    simp only [List.map_cons, List.sum_cons, ← ih']
    have hsplit : ∀ i, (c :: l).count i * g i = (if i = c then g i else 0) + l.count i * g i := by
      intro i
      by_cases hi : i = c
      · subst hi; simp [Nat.add_mul, Nat.add_comm]
      · have : ¬ (c == i) = true := by simpa using fun h => hi h.symm
        simp [List.count_cons, this, hi]
    simp only [hsplit]
    rw [List.sum_map_add]
    congr 1
    rw [List.sum_map_eq_nsmul_single c]
    · simp [List.count_eq_one_of_mem (List.nodup_range n) (List.mem_range.mpr hc)]
    · intro i hi _
      simp [hi]

theorem total_bits_fold (freq : Nat → Nat) (codes : Nat → Code) (is : List Nat) :
    ∀ acc : Nat,
      is.foldl (fun tb i => if freq i > 0 then (tb + freq i * (codes i).length) % U64 else tb) acc
        % U64 = (acc + (is.map (fun i => freq i * (codes i).length)).sum) % U64 := by
  induction is with
  | nil => intro acc; simp
  | cons i is ih =>
    intro acc
    simp only [List.foldl_cons, List.map_cons, List.sum_cons]
    rw [ih]
    by_cases h : freq i > 0
    · simp only [h, if_true]
      rw [Nat.add_mod, Nat.mod_mod, ← Nat.add_mod, Nat.add_assoc]
    · have h0 : freq i = 0 := by omega
      simp [h0]

theorem total_bits_eq (freq : Nat → Nat) (codes : Nat → Code) :
    total_bits freq codes
      = ((List.range MAX_SYMBOLS).map (fun i => freq i * (codes i).length)).sum % U64 := by
  have h1 := total_bits_fold freq codes (List.range MAX_SYMBOLS) 0
  have h2 := total_bits_lt freq codes
  rw [Nat.zero_add] at h1
  rw [← h1]
  exact (Nat.mod_eq_of_lt h2).symm

/-- Absent symbols contribute nothing to the sum. -/
theorem sum_present (freq : Nat → Nat) (g : Nat → Nat) :
    ((present freq).map (fun i => freq i * g i)).sum
      = ((List.range MAX_SYMBOLS).map (fun i => freq i * g i)).sum := by
  unfold present
  generalize List.range MAX_SYMBOLS = is
  induction is with
  | nil => rfl
  | cons i is ih =>
    simp only [List.filter_cons]
    by_cases h : freq i > 0
    · simp [h, ih]
    · have h0 : freq i = 0 := by omega
      simp [h0, ih]

theorem total_bits_count_freq (b : List Nat) (codes : Nat → Code) (h : b.length < U64) :
    total_bits (count_freq b) codes = (b.map (fun c => (codes (c % 256)).length)).sum % U64 := by
  rw [total_bits_eq]
  have e : (fun i => count_freq b i * (codes i).length)
      = (fun i => (b.map (fun c => c % 256)).count i * (codes i).length) := by
    funext i; rw [count_freq_exact b h]
  have hx : ∀ x ∈ b.map (fun c => c % 256), x < MAX_SYMBOLS := by
    intro x hx
    obtain ⟨c, _, rfl⟩ := List.mem_map.mp hx
    exact Nat.mod_lt _ (by decide)
  have key := sum_count_mul (fun i => (codes i).length) MAX_SYMBOLS (b.map (fun c => c % 256)) hx
  rw [List.map_map] at key
  rw [e, key]
  rfl

/-! ## The payload loop writes the paths of the input bytes -/

theorem push_bit_getD (code : List Nat) (w : Writer) (i : Nat) :
    push_bit code w i = push_bit [code.getD i 0] w 0 := by
  simp [push_bit]

theorem map_getD_range (l : List Nat) (n : Nat) (h : n ≤ l.length) :
    (List.range n).map (fun i => l.getD i 0) = l.take n := by
  apply List.ext_getElem
  · simp [Nat.min_eq_left h]
  · intro i h1 h2
    simp only [List.length_map, List.length_range] at h1
    have hi : i < l.length := by omega
    simp [List.getElem_take, List.getElem?_eq_getElem hi]

theorem push_code_eq (c : Code) (q : List Bool) (hlen : c.length = q.length)
    (hcode : c.code.take q.length = q.map step_char) (w : Writer) :
    push_code c w = write_bits q w := by
  have hle : q.length ≤ c.code.length := by
    have := congrArg List.length hcode
    simp only [List.length_take, List.length_map] at this
    omega
  have h1 : push_code c w
      = ((List.range c.length).map (fun i => c.code.getD i 0)).foldl
          (fun w x => push_bit [x] w 0) w := by
    rw [List.foldl_map]
    simp only [push_code]
    congr 1
  rw [h1, hlen, map_getD_range _ _ hle, hcode, List.foldl_map]
  rfl

theorem write_bits_append (a b : List Bool) (w : Writer) :
    write_bits (a ++ b) w = write_bits b (write_bits a w) := by
  simp [write_bits, List.foldl_append]

theorem sym_path_of_mem (t : Node) (hnd : (t.paths.map Prod.fst).Nodup) :
    ∀ p ∈ t.paths, sym_path t p.1 = p.2 := by
  unfold sym_path
  generalize t.paths = ps at hnd
  induction ps with
  | nil => intro p hp; simp at hp
  | cons a ps ih =>
    intro p hp
    simp only [List.map_cons, List.nodup_cons] at hnd
    rcases List.mem_cons.mp hp with h | h
    · subst h; simp [List.find?_cons]
    · have hne : a.1 ≠ p.1 := by
        intro e
        exact hnd.1 (e ▸ List.mem_map.mpr ⟨p, h, rfl⟩)
      have : (a.1 == p.1) = false := by simpa using hne
      simp only [List.find?_cons, this]
      exact ih hnd.2 p h

/-- For a present symbol, the code table holds the path to its leaf. -/
theorem code_of_present (freq : Nat → Nat) (s : Nat) (hs : s ∈ present freq) :
    (sym_path (build_huffman_tree freq) s) ∈
        ((build_huffman_tree freq).paths.filter (fun p => p.1 == s)).map Prod.snd ∧
    (code_table (build_huffman_tree freq) s).length
      = (sym_path (build_huffman_tree freq) s).length ∧
    (code_table (build_huffman_tree freq) s).code.take
        (sym_path (build_huffman_tree freq) s).length
      = (sym_path (build_huffman_tree freq) s).map step_char := by
  have hne : present freq ≠ [] := List.ne_nil_of_mem hs
  have hnd : ((build_huffman_tree freq).paths.map Prod.fst).Nodup :=
    (tree_syms_perm freq hne).nodup_iff.mpr (present_nodup freq)
  obtain ⟨p, hp, rfl⟩ := exists_path freq s hs
  rw [sym_path_of_mem _ hnd p hp]
  refine ⟨?_, code_table_spec freq hne p hp⟩
  exact List.mem_map.mpr ⟨p, List.mem_filter.mpr ⟨hp, by simp⟩, rfl⟩

theorem write_payload_eq (freq : Nat → Nat) (input : List Nat)
    (h : ∀ c ∈ input, c % 256 ∈ present freq) :
    write_payload (code_table (build_huffman_tree freq)) input
      = write_bits (input_bits (build_huffman_tree freq) input) ⟨[], 0, 0⟩ := by
  unfold write_payload input_bits
  generalize (⟨[], 0, 0⟩ : Writer) = w
  induction input generalizing w with
  | nil => rfl
  | cons c rest ih =>
    simp only [List.foldl_cons, List.flatMap_cons, write_bits_append]
    obtain ⟨_, h1, h2⟩ := code_of_present freq (c % 256) (h c (by simp))
    rw [push_code_eq _ _ h1 h2]
    exact ih (fun x hx => h x (by simp [hx])) _

theorem length_input_bits (freq : Nat → Nat) (input : List Nat)
    (h : ∀ c ∈ input, c % 256 ∈ present freq) :
    (input_bits (build_huffman_tree freq) input).length
      = (input.map (fun c => (code_table (build_huffman_tree freq) (c % 256)).length)).sum := by
  unfold input_bits
  induction input with
  | nil => rfl
  | cons c rest ih =>
    simp only [List.flatMap_cons, List.length_append, List.map_cons, List.sum_cons]
    rw [ih (fun x hx => h x (by simp [hx])), (code_of_present freq (c % 256) (h c (by simp))).2.1]

/-! ## Walking the tree along the written paths -/

theorem walk_path (root : Node) : ∀ u : Node, u.proper = true → u.isLeaf = false →
    ∀ p ∈ u.paths, ∀ out : List Nat, walk root p.2 (u, out) = some (root, out ++ [p.1]) := by
  intro u
  induction u with
  | null => intro h; simp [Node.proper] at h
  | mk s f l r ihl ihr =>
    intro hp hleaf p hmem out
    have hc : (l.isNull && r.isNull) = false := by simpa [Node.isLeaf, Node.left, Node.right] using hleaf
    simp only [Node.proper, hc, Bool.false_or, Bool.and_eq_true] at hp
    simp only [Node.paths, hc, Bool.false_eq_true, if_false, List.mem_append, List.mem_map] at hmem
    have key : ∀ (c : Node), c.proper = true →
        (∀ p ∈ c.paths, c.isLeaf = false → ∀ out : List Nat,
          walk root p.2 (c, out) = some (root, out ++ [p.1])) →
        ∀ q ∈ c.paths, ∀ b : Bool, (if b then r else l) = c →
          walk root (b :: q.2) (Node.mk s f l r, out) = some (root, out ++ [q.1]) := by
      intro c hcp ih q hq b hb
      simp only [walk, walk_bit, hb]
      cases c with
      | null => simp [Node.proper] at hcp
      | mk s1 f1 l1 r1 =>
        simp only
        by_cases hl1 : (l1.isNull && r1.isNull) = true
        · simp only [Node.paths, hl1, if_true, List.mem_singleton] at hq
          subst hq
          simp [hl1, walk]
        · simp only [hl1, Bool.false_eq_true, if_false]
          exact ih q hq (by simpa [Node.isLeaf, Node.left, Node.right] using hl1) out
    rcases hmem with ⟨q, hq, rfl⟩ | ⟨q, hq, rfl⟩
    · exact key l hp.1 (fun p hp' hl' out' => ihl hp.1 hl' p hp' out') q hq false rfl
    · exact key r hp.2 (fun p hp' hl' out' => ihr hp.2 hl' p hp' out') q hq true rfl

theorem walk_input_bits (t : Node) (hp : t.proper = true) (hleaf : t.isLeaf = false)
    (input : List Nat)
    (h : ∀ c ∈ input, sym_path t (c % 256) ∈
      (t.paths.filter (fun p => p.1 == c % 256)).map Prod.snd) :
    ∀ out : List Nat,
      walk t (input_bits t input) (t, out) = some (t, out ++ input.map (fun c => c % 256)) := by
  induction input with
  | nil => intro out; simp [input_bits, walk]
  | cons c rest ih =>
    intro out
    have hc := h c (by simp)
    obtain ⟨p, hpm, hpe⟩ := List.mem_map.mp hc
    obtain ⟨hp1, hp2⟩ := List.mem_filter.mp hpm
    have hp3 : p.1 = c % 256 := by simpa using hp2
    have e : input_bits t (c :: rest) = p.2 ++ input_bits t rest := by
      simp [input_bits, hpe]
    rw [e, walk_append, walk_path t t hp hleaf p hp1 out]
    simp only [Option.some_bind]
    rw [ih (fun x hx => h x (by simp [hx]))]
    simp [hp3]

/-! ## Round trip -/

theorem leaves_of_isLeaf (t : Node) (hp : t.proper = true) (h : t.isLeaf = true) :
    t.leaves.length = 1 := by
  cases t with
  | null => simp [Node.proper] at hp
  | mk s f l r =>
    have : (l.isNull && r.isNull) = true := by simpa [Node.isLeaf, Node.left, Node.right] using h
    simp [Node.leaves, this]

theorem two_le_length_of_ne {l : List Nat} {x y : Nat} (hx : x ∈ l) (hy : y ∈ l) (h : x ≠ y) :
    2 ≤ l.length := by
  match l, hx, hy with
  | [], hx, _ => simp at hx
  | [a], hx, hy =>
    simp only [List.mem_singleton] at hx hy
    exact absurd (hx.trans hy.symm) h
  | _ :: _ :: _, _, _ => simp

/-- With two present symbols the root of the tree is not a leaf. -/
theorem root_not_leaf (freq : Nat → Nat) (x y : Nat) (hx : x ∈ present freq)
    (hy : y ∈ present freq) (h : x ≠ y) : (build_huffman_tree freq).isLeaf = false := by
  have hne : present freq ≠ [] := List.ne_nil_of_mem hx
  obtain ⟨hp, hperm⟩ := (build_huffman_tree_spec freq).2 hne
  by_contra hl
  have hl' : (build_huffman_tree freq).isLeaf = true := by simpa using hl
  have h1 := leaves_of_isLeaf _ hp hl'
  have h2 := hperm.length_eq
  have h3 := two_le_length_of_ne hx hy h
  simp only [leaf_entries, List.length_map] at h2
  omega

/-- The header read back from the file holds the table counted from the input. -/
theorem header_freq_count (b : List Nat) (h : Header)
    (hf : ∀ j, h.freq j = if j ∈ present (count_freq b) then count_freq b j % U64 else 0) :
    h.freq = count_freq b := by
  funext j
  rw [hf j]
  split_ifs with hj
  · exact Nat.mod_eq_of_lt (count_freq_lt b j)
  · by_cases h256 : j < 256
    · have : ¬ 0 < count_freq b j := fun hpos => hj (mem_present.mpr ⟨h256, hpos⟩)
      omega
    · exact (count_freq_high b j (by omega)).symm

theorem encode_file_eq (b : List Nat) (hne : present (count_freq b) ≠ []) :
    encode_file b = some (header (count_freq b) (code_table (build_huffman_tree (count_freq b)))
      ++ flush (write_payload (code_table (build_huffman_tree (count_freq b))) b)) := by
  have hp := ((build_huffman_tree_spec (count_freq b)).2 hne).1
  simp only [encode_file, isNull_of_proper hp, Bool.false_eq_true, if_false]

theorem map_mod_of_bytes (b : List Nat) (h : ∀ c ∈ b, c < 256) :
    b.map (fun c => c % 256) = b := by
  induction b with
  | nil => rfl
  | cons c b ih =>
    simp only [List.map_cons]
    rw [Nat.mod_eq_of_lt (h c (by simp)), ih (fun x hx => h x (by simp [hx]))]

/-- Decoding what `encode_file` wrote, as long as the root of the tree has children. -/
theorem decode_encoded (b : List Nat) (hlen : b.length < U64)
    (hleaf : (build_huffman_tree (count_freq b)).isLeaf = false)
    (hne : present (count_freq b) ≠ [])
    (hbits : (b.map (fun c => (code_table (build_huffman_tree (count_freq b)) (c % 256)).length)).sum
      < U64) :
    encode_then_decode b = some (DecodeResult.written (b.map (fun c => c % 256))) := by
  have hpres : ∀ c ∈ b, c % 256 ∈ present (count_freq b) :=
    fun c hc => mem_present_count_freq b hlen c hc
  obtain ⟨hp, _⟩ := (build_huffman_tree_spec (count_freq b)).2 hne
  rw [encode_then_decode, encode_file_eq b hne, Option.map_some', write_payload_eq _ _ hpres]
  obtain ⟨h, hrd, hf, _, htb⟩ := read_header_header (count_freq b)
    (code_table (build_huffman_tree (count_freq b)))
    (flush (write_bits (input_bits (build_huffman_tree (count_freq b)) b) ⟨[], 0, 0⟩))
  have hfreq := header_freq_count b h hf
  have htotal : h.total_bits = (input_bits (build_huffman_tree (count_freq b)) b).length := by
    rw [htb, total_bits_count_freq b _ hlen, Nat.mod_eq_of_lt hbits, length_input_bits _ _ hpres]
  obtain ⟨_, hpb, _⟩ := packed_bits (input_bits (build_huffman_tree (count_freq b)) b)
  have hwalk := walk_input_bits _ hp hleaf b
    (fun c hc => (code_of_present _ _ (hpres c hc)).1) []
  simp only [decode_file, hrd, hfreq, isNull_of_proper hp, Bool.false_eq_true, if_false]
  rw [decode_loop_spec _ _ (by rw [htotal]; rw [length_input_bits _ _ hpres]; exact hbits)]
  simp only [Nat.sub_zero, htotal, hpb, List.take_left', hwalk, Option.map_some', Reader.advance,
    List.nil_append]

/-! ## Further facts on the header and the decoder -/

theorem sum_count_freq (b : List Nat) (h : b.length < U64) :
    ((List.range MAX_SYMBOLS).map (count_freq b)).sum = b.length := by
  have hx : ∀ x ∈ b.map (fun c => c % 256), x < MAX_SYMBOLS := by
    intro x hx
    obtain ⟨c, _, rfl⟩ := List.mem_map.mp hx
    exact Nat.mod_lt _ (by decide)
  have key := sum_count_mul (fun _ => 1) MAX_SYMBOLS (b.map (fun c => c % 256)) hx
  have e : (fun i => (b.map (fun c => c % 256)).count i * 1) = count_freq b := by
    funext i; rw [count_freq_exact b h, Nat.mul_one]
  rw [e] at key
  rw [key, List.map_map]
  have : ((fun _ => 1) ∘ fun c : Nat => c % 256) = fun _ => 1 := rfl
  rw [this, List.map_const', List.sum_replicate]
  simp

theorem sum_present_freq (freq : Nat → Nat) :
    ((present freq).map freq).sum = ((List.range MAX_SYMBOLS).map freq).sum := by
  have := sum_present freq (fun _ => 1)
  simpa using this

theorem present_count_freq_perm (b : List Nat) (h : b.length < U64) :
    List.Perm (present (count_freq b)) (b.map (fun c => c % 256)).dedup := by
  apply (List.perm_ext_iff_of_nodup (present_nodup _) (List.nodup_dedup _)).mpr
  intro a
  rw [List.mem_dedup, mem_present, count_freq_exact b h, List.count_pos_iff]
  constructor
  · exact fun h => h.2
  · intro hm
    refine ⟨?_, hm⟩
    obtain ⟨c, _, rfl⟩ := List.mem_map.mp hm
    exact Nat.mod_lt _ (by decide)

theorem le_value_lt (l : List Nat) (h : ∀ x ∈ l, x < 256) : le_value l < 256 ^ l.length := by
  induction l with
  | nil => simp [le_value]
  | cons a l ih =>
    have ha := h a (by simp)
    have := ih (fun x hx => h x (by simp [hx]))
    simp only [le_value, List.length_cons, pow_succ]
    omega

theorem fread_mem {n : Nat} {inp r rest : List Nat} (h : fread n inp = some (r, rest)) :
    r.length = n ∧ (∀ x ∈ r, x ∈ inp) ∧ (∀ x ∈ rest, x ∈ inp) := by
  unfold fread at h
  split_ifs at h with hlt
  simp only [Option.some.injEq, Prod.mk.injEq] at h
  obtain ⟨rfl, rfl⟩ := h
  refine ⟨by simp; omega, fun x hx => List.mem_of_mem_take hx, fun x hx => List.mem_of_mem_drop hx⟩

theorem read_entries_mem : ∀ (count : Nat) (freq : Nat → Nat) (inp : List Nat)
    (f : Nat → Nat) (rest : List Nat), read_entries count freq inp = some (f, rest) →
    ∀ x ∈ rest, x ∈ inp := by
  intro count
  induction count with
  | zero =>
    intro freq inp f rest h
    simp only [read_entries, Option.some.injEq, Prod.mk.injEq] at h
    rw [h.2]; exact fun x hx => hx
  | succ n ih =>
    intro freq inp f rest h x hx
    rw [read_entries] at h
    cases h1 : fread 1 inp with
    | none => rw [h1] at h; simp at h
    | some p1 =>
      obtain ⟨sb, r1⟩ := p1
      rw [h1] at h
      simp only at h
      cases h2 : fread 8 r1 with
      | none => rw [h2] at h; simp at h
      | some p2 =>
        obtain ⟨fb, r2⟩ := p2
        rw [h2] at h
        simp only at h
        exact (fread_mem h1).2.2 x ((fread_mem h2).2.2 x (ih _ _ _ _ h x hx))

/-- The field `total_bits` read from a file of bytes is a 64-bit value. -/
theorem read_header_total_lt (a : List Nat) (ha : ∀ x ∈ a, x < 256) (h : Header)
    (p : List Nat) (hr : read_header a = some (h, p)) : h.total_bits < U64 := by
  unfold read_header at hr
  cases h1 : fread 4 a with
  | none => rw [h1] at hr; simp at hr
  | some p1 =>
    obtain ⟨cb, r1⟩ := p1
    rw [h1] at hr
    simp only at hr
    generalize (if le_value cb < 2147483648 then le_value cb else 0) = count at hr
    cases h2 : read_entries count (fun _ => 0) r1 with
    | none => rw [h2] at hr; simp at hr
    | some p2 =>
      obtain ⟨f, r2⟩ := p2
      rw [h2] at hr
      simp only at hr
      cases h3 : fread 1 r2 with
      | none => rw [h3] at hr; simp at hr
      | some p3 =>
        obtain ⟨vb, r3⟩ := p3
        rw [h3] at hr
        simp only at hr
        cases h4 : fread 8 r3 with
        | none => rw [h4] at hr; simp at hr
        | some p4 =>
          obtain ⟨tb, r4⟩ := p4
          rw [h4] at hr
          simp only [Option.some.injEq, Prod.mk.injEq] at hr
          obtain ⟨rfl, _⟩ := hr
          simp only
          have hlen := (fread_mem h4).1
          have hmem : ∀ x ∈ tb, x < 256 := by
            intro x hx
            apply ha
            exact (fread_mem h1).2.2 x (read_entries_mem _ _ _ _ _ h2 x
              ((fread_mem h3).2.2 x ((fread_mem h4).2.1 x hx)))
          have := le_value_lt tb hmem
          rw [hlen] at this
          exact this

/-- What `decode_file` returns, in terms of the bits of the payload. -/
theorem decode_file_eq (a : List Nat) (h : Header) (p : List Nat)
    (hr : read_header a = some (h, p)) (ht : h.total_bits < U64) :
    decode_file a = decode_of_bits h.freq ((payload_bits p).take h.total_bits) := by
  simp only [decode_file, hr, decode_of_bits]
  split_ifs with hn
  · rfl
  · rw [decode_loop_spec _ _ ht]
    simp only [Nat.sub_zero]
    cases walk (build_huffman_tree h.freq) ((payload_bits p).take h.total_bits)
        (build_huffman_tree h.freq, []) with
    | none => rfl
    | some st => rfl

theorem length_payload_bits (p : List Nat) : (payload_bits p).length = 8 * p.length := by
  induction p with
  | nil => rfl
  | cons c p ih =>
    have : payload_bits (c :: p) = byte_bits (c % 256) ++ payload_bits p := by
      simp [payload_bits]
    rw [this, List.length_append, length_byte_bits, ih, List.length_cons]
    omega

/-! ## The heap order is kept by `insert_heap` and `extract_min` -/

theorem weight_at_set_eq (nodes : List Node) (i : Nat) (x : Node) (h : i < nodes.length) :
    weight_at (nodes.set i x) i = x.freq := by
  simp only [weight_at, getD_set_eq _ _ _ _ h]

theorem weight_at_set_ne (nodes : List Node) (i j : Nat) (x : Node) (h : i ≠ j) :
    weight_at (nodes.set i x) j = weight_at nodes j := by
  simp only [weight_at, getD_set_ne _ _ _ _ _ h]

theorem heap_ordered_insert_loop (node : Node) (fuel : Nat) :
    ∀ (nodes : List Node) (i : Nat), i < fuel → i < nodes.length →
      (∀ j, 0 < j → j < nodes.length → j ≠ i → (j - 1) / 2 ≠ i →
        weight_at nodes ((j - 1) / 2) ≤ weight_at nodes j) →
      (∀ j, 0 < j → j < nodes.length → (j - 1) / 2 = i → node.freq ≤ weight_at nodes j) →
      (∀ j, 0 < j → j < nodes.length → (j - 1) / 2 = i → 0 < i →
        weight_at nodes ((i - 1) / 2) ≤ weight_at nodes j) →
      heap_ordered (insert_loop node fuel nodes i) := by
  induction fuel with
  | zero => intro nodes i h; omega
  | succ fuel ih =>
    intro nodes i hfuel hi ha hb hc
    have hexit : (i = 0 ∨ weight_at nodes ((i - 1) / 2) ≤ node.freq) →
        heap_ordered (nodes.set i node) := by
      intro hex j hj0 hjl
      rw [List.length_set] at hjl
      by_cases hji : j = i
      · subst hji
        rw [weight_at_set_eq _ _ _ hi, weight_at_set_ne _ _ _ _ (by omega)]
        rcases hex with h | h
        · omega
        · exact h
      · rw [weight_at_set_ne _ _ _ _ (Ne.symm hji)]
        by_cases hpi : (j - 1) / 2 = i
        · rw [hpi, weight_at_set_eq _ _ _ hi]
          exact hb j hj0 hjl hpi
        · rw [weight_at_set_ne _ _ _ _ (Ne.symm hpi)]
          exact ha j hj0 hjl hji hpi
    rw [insert_loop]
    dsimp only
    split_ifs with h0 h1
    · exact hexit (Or.inr h1)
    · have h1' : node.freq < weight_at nodes ((i - 1) / 2) := by
        simp only [weight_at]; omega
      have hp : (i - 1) / 2 < i := by omega
      apply ih
      · omega
      · rw [List.length_set]; omega
      · intro j hj0 hjl hjp hpp
        rw [List.length_set] at hjl
        by_cases hji : j = i
        · subst hji; exact absurd rfl hpp
        · rw [weight_at_set_ne _ _ _ _ (Ne.symm hji)]
          by_cases hpi : (j - 1) / 2 = i
          · rw [hpi, weight_at_set_eq _ _ _ hi]
            exact hc j hj0 hjl hpi h0
          · rw [weight_at_set_ne _ _ _ _ (Ne.symm hpi)]
            exact ha j hj0 hjl hji hpi
      · intro j hj0 hjl hjp
        rw [List.length_set] at hjl
        by_cases hji : j = i
        · subst hji
          rw [weight_at_set_eq _ _ _ hi]
          exact Nat.le_of_lt h1'
        · rw [weight_at_set_ne _ _ _ _ (Ne.symm hji)]
          have := ha j hj0 hjl hji (by omega)
          rw [hjp] at this
          omega
      · intro j hj0 hjl hjp hp0
        rw [List.length_set] at hjl
        have hpp := ha ((i - 1) / 2) hp0 (by omega) (by omega) (by omega)
        rw [weight_at_set_ne _ _ _ _ (by omega)]
        by_cases hji : j = i
        · subst hji
          rw [weight_at_set_eq _ _ _ hi]
          exact hpp
        · rw [weight_at_set_ne _ _ _ _ (Ne.symm hji)]
          have := ha j hj0 hjl hji (by omega)
          rw [hjp] at this
          omega
    · exact hexit (Or.inl (by omega))

theorem weight_at_append_left (nodes : List Node) (x : Node) (j : Nat) (h : j < nodes.length) :
    weight_at (nodes ++ [x]) j = weight_at nodes j := by
  simp only [weight_at, List.getD_eq_getElem?_getD, List.getElem?_append_left h]

theorem heap_ordered_insert_heap (heap : MinHeap) (node : Node) (h : heap_ordered heap.nodes) :
    heap_ordered (insert_heap heap node).nodes := by
  unfold insert_heap MinHeap.size
  apply heap_ordered_insert_loop
  · omega
  · simp
  · intro j hj0 hjl hji hpi
    simp only [List.length_append, List.length_singleton] at hjl
    have hj : j < heap.nodes.length := by omega
    rw [weight_at_append_left _ _ _ hj, weight_at_append_left _ _ _ (by omega)]
    exact h j hj0 hj
  · intro j hj0 hjl hpi
    simp only [List.length_append, List.length_singleton] at hjl
    omega
  · intro j hj0 hjl hpi
    simp only [List.length_append, List.length_singleton] at hjl
    omega

theorem weight_at_swap (nodes : List Node) (i m : Nat) (hi : i < nodes.length)
    (hm : m < nodes.length) (him : i ≠ m) (j : Nat) :
    weight_at (swap_nodes nodes i m) j =
      if j = i then weight_at nodes m else if j = m then weight_at nodes i
      else weight_at nodes j := by
  unfold swap_nodes
  dsimp only
  by_cases hjm : j = m
  · subst hjm
    rw [weight_at_set_eq _ _ _ (by rw [List.length_set]; exact hm)]
    simp [Ne.symm him, weight_at]
  · rw [weight_at_set_ne _ _ _ _ (Ne.symm hjm)]
    by_cases hji : j = i
    · subst hji
      rw [weight_at_set_eq _ _ _ hi]
      simp [weight_at]
    · rw [weight_at_set_ne _ _ _ _ (Ne.symm hji)]
      simp [hji, hjm]

theorem heap_ordered_sift_down (fuel : Nat) :
    ∀ (nodes : List Node) (i : Nat), nodes.length ≤ i + fuel →
      (∀ j, 0 < j → j < nodes.length → (j - 1) / 2 ≠ i →
        weight_at nodes ((j - 1) / 2) ≤ weight_at nodes j) →
      (∀ j, 0 < j → j < nodes.length → (j - 1) / 2 = i → 0 < i →
        weight_at nodes ((i - 1) / 2) ≤ weight_at nodes j) →
      heap_ordered (sift_down fuel nodes i) := by
  induction fuel with
  | zero =>
    intro nodes i hlen ha _ j hj0 hjl
    simp only [sift_down] at hjl ⊢
    exact ha j hj0 hjl (by omega)
  | succ fuel ih =>
    intro nodes i hlen ha hg
    rw [sift_down]
    -- the two comparisons of the loop body
    have hstay : ∀ (h1 : ¬ (2 * i + 1 < nodes.length ∧
          weight_at nodes (2 * i + 1) < weight_at nodes i))
        (h2 : ¬ (2 * i + 2 < nodes.length ∧
          weight_at nodes (2 * i + 2) < weight_at nodes i)), heap_ordered nodes := by
      intro h1 h2 j hj0 hjl
      by_cases hp : (j - 1) / 2 = i
      · rw [hp]
        have hj : j = 2 * i + 1 ∨ j = 2 * i + 2 := by omega
        rcases hj with hj | hj
        · subst hj
          have := fun h => h1 ⟨hjl, h⟩
          omega
        · subst hj
          have := fun h => h2 ⟨hjl, h⟩
          omega
      · exact ha j hj0 hjl hp
    have hmove : ∀ m, (m = 2 * i + 1 ∨ m = 2 * i + 2) → m < nodes.length →
        weight_at nodes m < weight_at nodes i →
        (∀ c, (c = 2 * i + 1 ∨ c = 2 * i + 2) → c < nodes.length →
          weight_at nodes m ≤ weight_at nodes c) →
        heap_ordered (sift_down fuel (swap_nodes nodes i m) m) := by
      intro m hm hml hlt hmin
      have hi : i < nodes.length := by omega
      have him : i ≠ m := by omega
      apply ih
      · rw [length_swap_nodes]; omega
      · intro j hj0 hjl hp
        rw [length_swap_nodes] at hjl
        rw [weight_at_swap _ _ _ hi hml him, weight_at_swap _ _ _ hi hml him]
        by_cases hpi : (j - 1) / 2 = i
        · have hj : j = 2 * i + 1 ∨ j = 2 * i + 2 := by omega
          have hji : j ≠ i := by omega
          simp only [hpi, if_true, hji, if_false]
          by_cases hjm : j = m
          · simp only [hjm, if_true]; omega
          · simp only [hjm, if_false]; exact hmin j hj hjl
        · have hpm : (j - 1) / 2 ≠ m := hp
          simp only [hpi, hpm, if_false]
          by_cases hji : j = i
          · subst hji
            simp only [if_true]
            exact hg m (by omega) hml (by omega) hj0
          · have hjm : j ≠ m := by omega
            simp only [hji, hjm, if_false]
            exact ha j hj0 hjl hpi
      · intro j hj0 hjl hp hm0
        rw [length_swap_nodes] at hjl
        rw [weight_at_swap _ _ _ hi hml him, weight_at_swap _ _ _ hi hml him]
        have hpm : (m - 1) / 2 = i := by omega
        have hji : j ≠ i := by omega
        have hjm : j ≠ m := by omega
        simp only [hpm, if_true, hji, hjm, if_false]
        have := ha j hj0 hjl (by omega)
        rw [hp] at this
        exact this
    simp only [show ∀ j, (nodes.getD j Node.null).freq = weight_at nodes j from fun _ => rfl]
    by_cases hL : 2 * i + 1 < nodes.length ∧ weight_at nodes (2 * i + 1) < weight_at nodes i
    · simp only [hL, and_self, if_true]
      by_cases hR : 2 * i + 2 < nodes.length ∧
          weight_at nodes (2 * i + 2) < weight_at nodes (2 * i + 1)
      · simp only [hR, and_self, if_true, show ¬ (2 * i + 2 = i) by omega, if_false]
        refine hmove (2 * i + 2) (Or.inr rfl) hR.1 (by omega) ?_
        intro c hc _
        rcases hc with hc | hc <;> subst hc <;> omega
      · simp only [hR, if_false, show ¬ (2 * i + 1 = i) by omega]
        refine hmove (2 * i + 1) (Or.inl rfl) hL.1 hL.2 ?_
        intro c hc hcl
        rcases hc with hc | hc
        · subst hc; exact le_refl _
        · subst hc
          have := fun h => hR ⟨hcl, h⟩
          omega
    · simp only [hL, if_false]
      by_cases hR : 2 * i + 2 < nodes.length ∧ weight_at nodes (2 * i + 2) < weight_at nodes i
      · simp only [hR, and_self, if_true, show ¬ (2 * i + 2 = i) by omega, if_false]
        refine hmove (2 * i + 2) (Or.inr rfl) hR.1 hR.2 ?_
        intro c hc hcl
        rcases hc with hc | hc
        · subst hc
          have := fun h => hL ⟨hcl, h⟩
          omega
        · subst hc; exact le_refl _
      · simp only [hR, if_false, if_true]
        exact hstay hL hR

theorem weight_at_take (nodes : List Node) (n j : Nat) (h : j < n) :
    weight_at (nodes.take n) j = weight_at nodes j := by
  simp only [weight_at, List.getD_eq_getElem?_getD, List.getElem?_take, h, if_true]

theorem heap_ordered_extract_min (heap : MinHeap) (h : heap_ordered heap.nodes) :
    heap_ordered (extract_min heap).2.nodes := by
  simp only [extract_min, MinHeap.size]
  apply heap_ordered_sift_down
  · simp only [List.length_take, List.length_set]; omega
  · intro j hj0 hjl hp
    simp only [List.length_take, List.length_set] at hjl
    have hj : j < heap.nodes.length - 1 := by omega
    rw [weight_at_take _ _ _ (by omega), weight_at_take _ _ _ hj,
      weight_at_set_ne _ _ _ _ (by omega), weight_at_set_ne _ _ _ _ (by omega)]
    exact h j hj0 (by omega)
  · intro j _ _ _ h0
    omega

theorem root_le_of_heap_ordered (nodes : List Node) (h : heap_ordered nodes) :
    ∀ j, j < nodes.length → weight_at nodes 0 ≤ weight_at nodes j := by
  intro j
  induction j using Nat.strong_induction_on with
  | _ j ih =>
    intro hj
    by_cases h0 : j = 0
    · subst h0; exact le_refl _
    · have hp : (j - 1) / 2 < j := by omega
      exact le_trans (ih _ hp (by omega)) (h j (by omega) hj)

/-- On an ordered heap `extract_min` returns a node of least weight. -/
theorem extract_min_le (heap : MinHeap) (h : heap_ordered heap.nodes) :
    ∀ n ∈ heap.nodes, (extract_min heap).1.freq ≤ n.freq := by
  intro n hn
  obtain ⟨j, hj, rfl⟩ := List.mem_iff_getElem.mp hn
  have := root_le_of_heap_ordered heap.nodes h j hj
  simp only [weight_at, List.getD_eq_getElem _ _ hj] at this
  exact this

theorem heap_ordered_nil : heap_ordered [] := by
  intro j _ hj
  simp at hj

/-! ## Optimality of merging the two least weights -/

theorem treeDepths_singleton {d : Nat} (h : TreeDepths {d}) : d = 0 := by
  generalize hs : ({d} : Multiset Nat) = s at h
  cases h with
  | single => simpa using hs
  | split e s' _ =>
    have := congrArg Multiset.card hs
    simp at this

/-- In a tree with at least two leaves two leaves sit at the greatest depth
`m + 1`, and merging them into one leaf at depth `m` gives a tree again. -/
theorem treeDepths_deepest {s : Multiset Nat} (h : TreeDepths s) (hc : 2 ≤ Multiset.card s) :
    ∃ (m : Nat) (r : Multiset Nat), s = (m + 1) ::ₘ (m + 1) ::ₘ r ∧ (∀ d ∈ s, d ≤ m + 1) ∧
      TreeDepths (m ::ₘ r) := by
  induction h with
  | single => simp at hc
  | split d s' h' ih =>
    by_cases hc' : 2 ≤ Multiset.card (d ::ₘ s')
    · obtain ⟨m, r, hr, hmax, ht⟩ := ih hc'
      by_cases hdm : d = m + 1
      · -- the split leaf is one of the deepest
        subst hdm
        have hs' : s' = (m + 1) ::ₘ r := by
          have := hr
          rw [Multiset.cons_inj_right] at this
          exact this
        refine ⟨m + 1, (m + 1) ::ₘ r, ?_, ?_, ?_⟩
        · rw [hs']
        · intro e he
          simp only [Multiset.mem_cons] at he
          rcases he with he | he | he
          · omega
          · omega
          · have := hmax e (Multiset.mem_cons_of_mem he)
            omega
        · rw [← hs']; exact h'
      · -- the split leaf is elsewhere
        have hdr : d ∈ (m + 1) ::ₘ (m + 1) ::ₘ r := by
          rw [← hr]; exact Multiset.mem_cons_self _ _
        simp only [Multiset.mem_cons] at hdr
        have hdr' : d ∈ r := by
          rcases hdr with h1 | h1 | h1
          · exact absurd h1 hdm
          · exact absurd h1 hdm
          · exact h1
        obtain ⟨r', rfl⟩ := Multiset.exists_cons_of_mem hdr'
        have hs' : s' = (m + 1) ::ₘ (m + 1) ::ₘ r' := by
          have e : d ::ₘ s' = d ::ₘ (m + 1) ::ₘ (m + 1) ::ₘ r' := by
            rw [hr, Multiset.cons_swap (m + 1) d, Multiset.cons_swap (m + 1) d]
          exact (Multiset.cons_inj_right d).mp e
        have hdle : d ≤ m + 1 := hmax d (Multiset.mem_cons_self _ _)
        refine ⟨m, (d + 1) ::ₘ (d + 1) ::ₘ r', ?_, ?_, ?_⟩
        · rw [hs', Multiset.cons_swap (d + 1) (m + 1), Multiset.cons_swap (d + 1) (m + 1),
            Multiset.cons_swap (d + 1) (m + 1), Multiset.cons_swap (d + 1) (m + 1)]
        · intro e he
          simp only [Multiset.mem_cons] at he
          rcases he with he | he | he
          · omega
          · omega
          · exact hmax e (Multiset.mem_cons_of_mem he)
        · have := TreeDepths.split d (m ::ₘ r') (by rw [Multiset.cons_swap]; exact ht)
          rw [Multiset.cons_swap m (d + 1), Multiset.cons_swap m (d + 1)]
          exact this
    · -- the tree before the split is a single leaf
      have hc1 : Multiset.card s' = 0 := by
        simp only [Multiset.card_cons] at hc'; omega
      have hs' : s' = 0 := Multiset.card_eq_zero.mp hc1
      subst hs'
      have hd := treeDepths_singleton h'
      subst hd
      exact ⟨0, 0, rfl, by simp, TreeDepths.single⟩

theorem weighted_depth_cons (p : Nat × Nat) (l : Multiset (Nat × Nat)) :
    weighted_depth (p ::ₘ l) = p.1 * p.2 + weighted_depth l := by
  simp [weighted_depth]

/-- Moving a least weight to a greatest depth does not raise the weighted depth. -/
theorem exchange_least (a da m : Nat) (r : Multiset (Nat × Nat))
    (ha : ∀ p ∈ r, a ≤ p.1) (hm : m ∈ da ::ₘ r.map Prod.snd)
    (hmax : ∀ d ∈ da ::ₘ r.map Prod.snd, d ≤ m) :
    ∃ r' : Multiset (Nat × Nat), r'.map Prod.fst = r.map Prod.fst ∧
      m ::ₘ r'.map Prod.snd = da ::ₘ r.map Prod.snd ∧
      a * m + weighted_depth r' ≤ a * da + weighted_depth r := by
  by_cases hda : m = da
  · subst hda
    exact ⟨r, rfl, rfl, le_refl _⟩
  · have hmr : m ∈ r.map Prod.snd := by
      rcases Multiset.mem_cons.mp hm with h | h
      · exact absurd h hda
      · exact h
    obtain ⟨p, hp, hpm⟩ := Multiset.mem_map.mp hmr
    obtain ⟨r0, rfl⟩ := Multiset.exists_cons_of_mem hp
    obtain ⟨w, d⟩ := p
    simp only at hpm
    subst hpm
    refine ⟨(w, da) ::ₘ r0, by simp, ?_, ?_⟩
    · simp only [Multiset.map_cons]
      exact Multiset.cons_swap _ _ _
    · have haw : a ≤ w := ha (w, d) (Multiset.mem_cons_self _ _)
      have hdd : da ≤ d := hmax da (Multiset.mem_cons_self _ _)
      simp only [weighted_depth_cons]
      nlinarith [Nat.mul_le_mul haw hdd, Nat.zero_le (weighted_depth r0)]

theorem exists_cons_of_map_fst {l : Multiset (Nat × Nat)} {a : Nat} {s : Multiset Nat}
    (h : l.map Prod.fst = a ::ₘ s) :
    ∃ (d : Nat) (r : Multiset (Nat × Nat)), l = (a, d) ::ₘ r ∧ r.map Prod.fst = s := by
  obtain ⟨p, hp, hpa, hr⟩ := (Multiset.map_eq_cons _ _ _ _).mpr h
  obtain ⟨w, d⟩ := p
  simp only at hpa
  subst hpa
  exact ⟨d, l.erase (w, d), (Multiset.cons_erase hp).symm, hr⟩

/-- Merging the two least weights first costs no more than the weighted
depth of any tree carrying the same weights at its leaves. -/
theorem mergeCost_le {w : Multiset Nat} {c : Nat} (h : MergeCost w c) :
    ∀ l : Multiset (Nat × Nat), l.map Prod.fst = w → TreeDepths (l.map Prod.snd) →
      c ≤ weighted_depth l := by
  induction h with
  | single w => intro l _ _; exact Nat.zero_le _
  | merge a b s c hab hb _ ih =>
    intro l hl ht
    have hcard : 2 ≤ Multiset.card (l.map Prod.snd) := by
      have := congrArg Multiset.card hl
      simp only [Multiset.card_map, Multiset.card_cons] at this ⊢
      omega
    obtain ⟨m, r, hr, hmax, htr⟩ := treeDepths_deepest ht hcard
    -- the leaf carrying `a` goes to depth `m + 1`
    obtain ⟨da, r1, rfl, hr1⟩ := exists_cons_of_map_fst hl
    have hsnd1 : ((a, da) ::ₘ r1).map Prod.snd = da ::ₘ r1.map Prod.snd := by simp
    rw [hsnd1] at hr hmax
    have ha1 : ∀ p ∈ r1, a ≤ p.1 := by
      intro p hp
      have : p.1 ∈ b ::ₘ s := by rw [← hr1]; exact Multiset.mem_map_of_mem _ hp
      rcases Multiset.mem_cons.mp this with h | h
      · omega
      · exact le_trans hab (hb _ h)
    obtain ⟨r2, hf2, hs2, hc2⟩ := exchange_least a da (m + 1) r1 ha1
      (by rw [hr]; exact Multiset.mem_cons_self _ _) hmax
    rw [hr, Multiset.cons_inj_right] at hs2
    -- the leaf carrying `b` goes to depth `m + 1`
    obtain ⟨db, r3, rfl, hr3⟩ := exists_cons_of_map_fst (hf2.trans hr1)
    have hsnd3 : ((b, db) ::ₘ r3).map Prod.snd = db ::ₘ r3.map Prod.snd := by simp
    rw [hsnd3] at hs2
    have hb3 : ∀ p ∈ r3, b ≤ p.1 := by
      intro p hp
      exact hb _ (by rw [← hr3]; exact Multiset.mem_map_of_mem _ hp)
    obtain ⟨r4, hf4, hs4, hc4⟩ := exchange_least b db (m + 1) r3 hb3
      (by rw [hs2]; exact Multiset.mem_cons_self _ _)
      (by
        intro d hd
        rw [hs2] at hd
        exact hmax d (by rw [hr]; exact Multiset.mem_cons_of_mem hd))
    rw [hs2, Multiset.cons_inj_right] at hs4
    -- the merged leaf at depth `m`
    have hih := ih ((a + b, m) ::ₘ r4) (by simp [hf4, hr3]) (by simpa [hs4] using htr)
    simp only [weighted_depth_cons] at hih hc2 hc4 ⊢
    nlinarith

/-! ## The tree built by the merge loop is optimal -/

theorem treeDepths_subst : ∀ t : Node, t.proper = true → ∀ (d : Nat) (e : Multiset Nat),
    TreeDepths (d ::ₘ e) →
    TreeDepths ((↑(t.paths.map (fun p => d + p.2.length)) : Multiset Nat) + e) := by
  intro t
  induction t with
  | null => intro h; simp [Node.proper] at h
  | mk s f l r ihl ihr =>
    intro hp d e hde
    by_cases hc : (l.isNull && r.isNull) = true
    · simp only [Node.paths, hc, if_true, List.map_cons, List.map_nil, List.length_nil,
        Nat.add_zero]
      exact hde
    · simp only [Node.proper, hc, Bool.false_or, Bool.and_eq_true] at hp
      have h1 := TreeDepths.split d e hde
      have h2 := ihl hp.1 (d + 1) ((d + 1) ::ₘ e) h1
      have h3 := ihr hp.2 (d + 1)
        ((↑(l.paths.map (fun p => d + 1 + p.2.length)) : Multiset Nat) + e)
        (by rw [Multiset.add_cons] at h2; exact h2)
      have e1 : (Node.mk s f l r).paths.map (fun p => d + p.2.length)
          = l.paths.map (fun p => d + 1 + p.2.length)
            ++ r.paths.map (fun p => d + 1 + p.2.length) := by
        simp only [Node.paths, hc, Bool.false_eq_true, if_false, List.map_append, List.map_map]
        congr 1 <;> apply List.map_congr_left <;> intro p _ <;>
          simp only [Function.comp, List.length_cons] <;> omega
      have e2 : (↑(l.paths.map (fun p => d + 1 + p.2.length)
            ++ r.paths.map (fun p => d + 1 + p.2.length)) : Multiset Nat) + e
          = (↑(r.paths.map (fun p => d + 1 + p.2.length)) : Multiset Nat)
            + ((↑(l.paths.map (fun p => d + 1 + p.2.length)) : Multiset Nat) + e) := by
        rw [← Multiset.coe_add]
        ac_rfl
      rw [e1, e2]
      exact h3

/-- The leaf depths of a well-formed tree. -/
theorem treeDepths_paths (t : Node) (hp : t.proper = true) :
    TreeDepths (↑(t.paths.map (fun p => p.2.length)) : Multiset Nat) := by
  have := treeDepths_subst t hp 0 0 TreeDepths.single
  simpa using this

theorem cost_eq_wpl (g : Nat → Nat) : ∀ t : Node, (∀ e ∈ t.leaves, e.2 = g e.1) →
    t.cost = wpl g t ∧ t.leaf_sum = (t.paths.map (fun p => g p.1)).sum := by
  intro t
  induction t with
  | null => intro _; simp [Node.cost, wpl, Node.paths, Node.leaf_sum, Node.leaves]
  | mk s f l r ihl ihr =>
    intro h
    by_cases hc : (l.isNull && r.isNull) = true
    · have := h (s, f) (by simp [Node.leaves, hc])
      simp only at this
      simp [Node.cost, wpl, Node.paths, Node.leaf_sum, Node.leaves, hc, this]
    · simp only [Node.leaves, hc, Bool.false_eq_true, if_false, List.mem_append] at h
      obtain ⟨l1, l2⟩ := ihl (fun e he => h e (Or.inl he))
      obtain ⟨r1, r2⟩ := ihr (fun e he => h e (Or.inr he))
      simp only [wpl] at l1 r1
      constructor
      · simp only [Node.cost, hc, Bool.false_eq_true, if_false, wpl, Node.paths,
          List.map_append, List.map_map, List.sum_append, l1, r1, l2, r2]
        simp only [Function.comp_def, List.length_cons, Nat.mul_add, Nat.mul_one,
          List.sum_map_add]
        omega
      · simp only [Node.leaf_sum, Node.leaves, hc, Bool.false_eq_true, if_false,
          List.map_append, List.sum_append, Node.paths, List.map_map]
        simp only [Node.leaf_sum] at l2 r2
        rw [l2, r2]
        rfl

theorem cost_parent {l r : Node} (f : Nat) (hl : l.proper = true) :
    (Node.mk 0 f l r).cost = l.cost + r.cost + l.leaf_sum + r.leaf_sum := by
  simp [Node.cost, isNull_of_proper hl]

theorem leaf_sum_parent {l r : Node} (f : Nat) (hl : l.proper = true) :
    (Node.mk 0 f l r).leaf_sum = l.leaf_sum + r.leaf_sum := by
  simp [Node.leaf_sum, leaves_parent f hl]

/-- One iteration of the merge loop on a sound heap: the two nodes taken out
are the two lightest, and the heap stays sound. -/
theorem merge_step_sound (heap : MinHeap) (hs : 1 < heap.size) (hj : heap.sound) :
    let left := (extract_min heap).1
    let heap1 := (extract_min heap).2
    let right := (extract_min heap1).1
    let heap2 := (extract_min heap1).2
    let parent := Node.mk 0 ((left.freq + right.freq) % U64) left right
    let res := insert_heap heap2 parent
    res.sound ∧ left.freq ≤ right.freq ∧ (∀ n ∈ heap2.nodes, right.freq ≤ n.freq) ∧
      List.Perm heap.nodes (left :: right :: heap2.nodes) ∧
      List.Perm res.nodes (parent :: heap2.nodes) ∧
      parent.freq = left.freq + right.freq ∧
      parent.cost = left.cost + right.cost + left.freq + right.freq := by
  intro left heap1 right heap2 parent res
  obtain ⟨ho, hn, hsum⟩ := hj
  have e1 := perm_extract_min heap (by omega)
  have s1 : heap1.size = heap.size - 1 := size_extract_min heap
  have e2 := perm_extract_min heap1 (by omega)
  have e3 : List.Perm res.nodes (parent :: heap2.nodes) := perm_insert_heap heap2 parent
  have hall : List.Perm heap.nodes (left :: right :: heap2.nodes) :=
    ((List.Perm.cons left e2).trans e1).symm
  have ho1 : heap_ordered heap1.nodes := heap_ordered_extract_min heap ho
  have ho2 : heap_ordered heap2.nodes := heap_ordered_extract_min heap1 ho1
  have hl := hn left (hall.symm.subset (by simp))
  have hr := hn right (hall.symm.subset (by simp))
  have hle : left.freq ≤ right.freq :=
    extract_min_le heap ho right (hall.symm.subset (by simp))
  have hle2 : ∀ n ∈ heap2.nodes, right.freq ≤ n.freq := by
    intro n hn2
    exact extract_min_le heap1 ho1 n (e2.subset (by simp [hn2]))
  have hsum2 : (heap.nodes.map Node.freq).sum
      = left.freq + (right.freq + (heap2.nodes.map Node.freq).sum) := by
    rw [(hall.map Node.freq).sum_eq]; simp
  have hpf : parent.freq = left.freq + right.freq := by
    show (left.freq + right.freq) % U64 = left.freq + right.freq
    exact Nat.mod_eq_of_lt (by omega)
  have hpc : parent.cost = left.cost + right.cost + left.freq + right.freq := by
    show (Node.mk 0 _ left right).cost = _
    rw [cost_parent _ hl.1, ← hl.2, ← hr.2]
  refine ⟨⟨heap_ordered_insert_heap heap2 parent ho2, ?_, ?_⟩, hle, hle2, hall, e3, hpf, hpc⟩
  · intro n hn'
    rcases List.mem_cons.mp (e3.subset hn') with h | h
    · rw [h]
      refine ⟨proper_parent _ hl.1 hr.1, ?_⟩
      rw [hpf]
      show _ = (Node.mk 0 _ left right).leaf_sum
      rw [leaf_sum_parent _ hl.1, ← hl.2, ← hr.2]
    · exact hn n (hall.symm.subset (by simp [h]))
  · rw [(e3.map Node.freq).sum_eq, List.map_cons, List.sum_cons, hpf]
    omega

/-- The merge loop on a sound heap realises the cost of merging the two
least weights, as the growth of the summed tree costs. -/
theorem merge_loop_cost (fuel : Nat) :
    ∀ heap : MinHeap, heap.size ≤ fuel + 1 → 1 ≤ heap.size → heap.sound →
      ∃ c, MergeCost (↑(heap.nodes.map Node.freq) : Multiset Nat) c ∧
        ((merge_loop fuel heap).nodes.map Node.cost).sum
          = (heap.nodes.map Node.cost).sum + c := by
  induction fuel with
  | zero =>
    intro heap hs h1 _
    have hlen : heap.nodes.length = 1 := by simp only [MinHeap.size] at hs h1; omega
    obtain ⟨n, hn⟩ := List.length_eq_one.mp hlen
    refine ⟨0, ?_, by simp [merge_loop]⟩
    rw [hn]
    exact MergeCost.single n.freq
  | succ fuel ih =>
    intro heap hs h1 hj
    rw [merge_loop]
    by_cases hgt : heap.size > 1
    · simp only [hgt, if_true]
      obtain ⟨q1, q2, q3, q4, q5, q6, q7⟩ := merge_step_sound heap hgt hj
      have hsize := (merge_step_spec heap hgt (fun n hn => (hj.2.1 n hn).1)).1
      obtain ⟨c, hc1, hc2⟩ := ih _ (by omega) (by rw [size_insert_heap]; omega) q1
      refine ⟨c + (extract_min heap).1.freq + (extract_min (extract_min heap).2).1.freq, ?_, ?_⟩
      · have e : (↑(heap.nodes.map Node.freq) : Multiset Nat)
            = (extract_min heap).1.freq ::ₘ (extract_min (extract_min heap).2).1.freq ::ₘ
              (↑((extract_min (extract_min heap).2).2.nodes.map Node.freq) : Multiset Nat) := by
          rw [Multiset.coe_eq_coe.mpr (q4.map Node.freq)]
          rfl
        rw [e]
        apply MergeCost.merge _ _ _ _ q2
        · intro x hx
          obtain ⟨n, hn, rfl⟩ := List.mem_map.mp (Multiset.mem_coe.mp hx)
          exact q3 n hn
        · have e' := Multiset.coe_eq_coe.mpr (q5.map Node.freq)
          rw [List.map_cons, q6, ← Multiset.cons_coe] at e'
          rw [← e']
          exact hc1
      · rw [hc2, (q5.map Node.cost).sum_eq, (q4.map Node.cost).sum_eq]
        simp only [List.map_cons, List.sum_cons, q7]
        omega
    · simp only [hgt, if_false]
      have hlen : heap.nodes.length = 1 := by simp only [MinHeap.size] at hgt h1; omega
      obtain ⟨n, hn⟩ := List.length_eq_one.mp hlen
      refine ⟨0, ?_, by simp⟩
      rw [hn]
      exact MergeCost.single n.freq

theorem fill_heap_fold_inv (freq : Nat → Nat) (P : MinHeap → Prop)
    (hP : ∀ heap s f, P heap → P (insert_heap heap (create_node s f))) (is : List Nat) :
    ∀ heap : MinHeap, P heap →
      P (is.foldl
        (fun heap i => if freq i > 0 then insert_heap heap (create_node (i % 256) (freq i)) else heap)
        heap) := by
  induction is with
  | nil => intro heap h; exact h
  | cons i is ih =>
    intro heap h
    simp only [List.foldl_cons]
    apply ih
    split_ifs
    · exact hP _ _ _ h
    · exact h

/-- After the first loop the heap is ordered and holds leaves only. -/
theorem fill_heap_leaves (freq : Nat → Nat) :
    heap_ordered (fill_heap freq).nodes ∧
      ∀ n ∈ (fill_heap freq).nodes, ∃ s f, n = create_node s f := by
  apply fill_heap_fold_inv freq
    (fun heap => heap_ordered heap.nodes ∧ ∀ n ∈ heap.nodes, ∃ s f, n = create_node s f)
  · intro heap s f h
    refine ⟨heap_ordered_insert_heap heap _ h.1, ?_⟩
    intro n hn
    rcases List.mem_cons.mp ((perm_insert_heap heap _).subset hn) with h' | h'
    · exact ⟨s, f, h'⟩
    · exact h.2 n h'
  · exact ⟨heap_ordered_nil, by simp [init_heap]⟩

theorem fill_heap_weights (freq : Nat → Nat) :
    List.Perm ((fill_heap freq).nodes.map Node.freq) ((present freq).map freq) := by
  have h1 := (fill_heap_spec freq).2
  have h2 : (forest_leaves (fill_heap freq)).map Prod.snd
      = (fill_heap freq).nodes.map Node.freq := by
    have hl := (fill_heap_leaves freq).2
    simp only [forest_leaves]
    generalize (fill_heap freq).nodes = ns at hl
    induction ns with
    | nil => rfl
    | cons n ns ih =>
      obtain ⟨s, f, rfl⟩ := hl n (by simp)
      simp only [List.flatMap_cons, List.map_append, List.map_cons, leaves_create_node,
        List.map_nil, List.singleton_append]
      rw [ih (fun m hm => hl m (by simp [hm]))]
      rfl
  have h3 := h1.map Prod.snd
  rw [h2] at h3
  simpa [leaf_entries, Function.comp_def] using h3

theorem fill_heap_sound (freq : Nat → Nat) (hsum : ((present freq).map freq).sum < U64) :
    (fill_heap freq).sound ∧ ((fill_heap freq).nodes.map Node.cost).sum = 0 := by
  obtain ⟨ho, hl⟩ := fill_heap_leaves freq
  refine ⟨⟨ho, ?_, ?_⟩, ?_⟩
  · intro n hn
    obtain ⟨s, f, rfl⟩ := hl n hn
    exact ⟨proper_create_node s f, by simp [Node.leaf_sum, leaves_create_node]; rfl⟩
  · rw [(fill_heap_weights freq).sum_eq]; exact hsum
  · apply List.sum_eq_zero
    intro x hx
    obtain ⟨n, hn, rfl⟩ := List.mem_map.mp hx
    obtain ⟨s, f, rfl⟩ := hl n hn
    simp [create_node, Node.cost, Node.isNull]

/-- The weighted path length of the tree built is the cost of merging the
two least weights, when the counts add up to less than `2^64`. -/
theorem mergeCost_tree (freq : Nat → Nat) (hne : present freq ≠ [])
    (hsum : ((present freq).map freq).sum < U64) :
    MergeCost (↑((present freq).map freq) : Multiset Nat) (wpl freq (build_huffman_tree freq)) := by
  obtain ⟨hsound, hzero⟩ := fill_heap_sound freq hsum
  obtain ⟨hp, hperm⟩ := (build_huffman_tree_spec freq).2 hne
  have hsize : 1 ≤ (fill_heap freq).size := by
    have := (fill_heap_weights freq).length_eq
    simp only [List.length_map] at this
    have : (present freq).length ≠ 0 := fun h => hne (List.length_eq_zero.mp h)
    simp only [MinHeap.size]; omega
  obtain ⟨c, hc1, hc2⟩ := merge_loop_cost (fill_heap freq).size (fill_heap freq)
    (by omega) hsize hsound
  rw [Multiset.coe_eq_coe.mpr (fill_heap_weights freq)] at hc1
  rw [hzero, Nat.zero_add] at hc2
  -- the final heap holds the tree alone
  have hfs := (final_heap_spec freq).1
  have hlen : (final_heap freq).nodes.length = 1 := by
    simp only [MinHeap.size] at hfs hsize; omega
  obtain ⟨n, hn⟩ := List.length_eq_one.mp hlen
  have htree : build_huffman_tree freq = n := by
    rw [build_huffman_tree_eq]
    simp [MinHeap.size, hn]
  have hcost : n.cost = c := by
    have : (merge_loop (fill_heap freq).size (fill_heap freq)).nodes = [n] := hn
    rw [this] at hc2
    simpa using hc2
  have hwpl := (cost_eq_wpl freq (build_huffman_tree freq) (by
    intro e he
    have := hperm.subset he
    simp only [leaf_entries, List.mem_map] at this
    obtain ⟨i, _, rfl⟩ := this
    rfl)).1
  rw [← hwpl, htree, hcost]
  exact hc1

/-- The tree built is optimal among the well-formed trees with the same leaves. -/
theorem wpl_le (freq : Nat → Nat) (hne : present freq ≠ [])
    (hsum : ((present freq).map freq).sum < U64) (t : Node) (hp : t.proper = true)
    (hleaves : List.Perm (t.paths.map Prod.fst) (present freq)) :
    wpl freq (build_huffman_tree freq) ≤ wpl freq t := by
  have h := mergeCost_le (mergeCost_tree freq hne hsum)
    (↑(t.paths.map (fun p => (freq p.1, p.2.length))) : Multiset (Nat × Nat))
    (by
      rw [Multiset.map_coe, List.map_map]
      have := hleaves.map freq
      rw [List.map_map] at this
      exact Multiset.coe_eq_coe.mpr this)
    (by
      rw [Multiset.map_coe, List.map_map]
      exact treeDepths_paths t hp)
  simpa [weighted_depth, wpl, Function.comp_def] using h

/-! ## A bound on the total bit count -/

theorem paths_create_node (s f : Nat) : (create_node s f).paths = [(s, [])] := by
  simp [create_node, Node.paths, Node.isNull]

theorem halving_tree_spec (d : Nat) : ∀ l : List Nat, l ≠ [] → l.length ≤ 2 ^ d →
    (halving_tree d l).proper = true ∧ (halving_tree d l).paths.map Prod.fst = l ∧
      ∀ p ∈ (halving_tree d l).paths, p.2.length ≤ d := by
  induction d with
  | zero =>
    intro l hne hlen
    obtain ⟨x, rfl⟩ : ∃ x, l = [x] := by
      match l, hne, hlen with
      | [x], _, _ => exact ⟨x, rfl⟩
      | _ :: _ :: _, _, h => simp at h
    simp [halving_tree, proper_create_node, paths_create_node]
  | succ d ih =>
    intro l hne hlen
    rw [halving_tree]
    by_cases h1 : l.length ≤ 1
    · obtain ⟨x, rfl⟩ : ∃ x, l = [x] := by
        match l, hne, h1 with
        | [x], _, _ => exact ⟨x, rfl⟩
        | _ :: _ :: _, _, h => simp at h
      simp [proper_create_node, paths_create_node]
    · simp only [h1, if_false]
      have hpow : 2 ^ (d + 1) = 2 * 2 ^ d := by rw [pow_succ]; ring
      have hl1 : l.take (l.length / 2) ≠ [] := by
        intro h
        have := congrArg List.length h
        simp only [List.length_take, List.length_nil] at this
        omega
      have hl2 : l.drop (l.length / 2) ≠ [] := by
        intro h
        have := congrArg List.length h
        simp only [List.length_drop, List.length_nil] at this
        omega
      obtain ⟨a1, a2, a3⟩ := ih _ hl1 (by simp only [List.length_take]; omega)
      obtain ⟨b1, b2, b3⟩ := ih _ hl2 (by simp only [List.length_drop]; omega)
      have hnl : (halving_tree d (l.take (l.length / 2))).isNull = false := isNull_of_proper a1
      refine ⟨by simp [Node.proper, a1, b1], ?_, ?_⟩
      · simp only [Node.paths, hnl, Bool.false_and, Bool.false_eq_true, if_false,
          List.map_append, List.map_map]
        have e : (Prod.fst ∘ fun p : Nat × List Bool => (p.1, false :: p.2)) = Prod.fst := rfl
        have e' : (Prod.fst ∘ fun p : Nat × List Bool => (p.1, true :: p.2)) = Prod.fst := rfl
        rw [e, e', a2, b2, List.take_append_drop]
      · intro p hp
        simp only [Node.paths, hnl, Bool.false_and, Bool.false_eq_true, if_false,
          List.mem_append, List.mem_map] at hp
        rcases hp with ⟨q, hq, rfl⟩ | ⟨q, hq, rfl⟩
        · have := a3 q hq; simp only [List.length_cons]; omega
        · have := b3 q hq; simp only [List.length_cons]; omega

/-- The `total_bits` computed by `encode_file` is the weighted path length
of the tree, modulo `2^64`. -/
theorem total_bits_eq_wpl (freq : Nat → Nat) (hne : present freq ≠ []) :
    total_bits freq (code_table (build_huffman_tree freq))
      = wpl freq (build_huffman_tree freq) % U64 := by
  have hperm := tree_syms_perm freq hne
  have h1 := (hperm.map (fun s => freq s * (code_table (build_huffman_tree freq) s).length)).sum_eq
  have h2 : ((build_huffman_tree freq).paths.map Prod.fst).map
        (fun s => freq s * (code_table (build_huffman_tree freq) s).length)
      = (build_huffman_tree freq).paths.map (fun p => freq p.1 * p.2.length) := by
    rw [List.map_map]
    apply List.map_congr_left
    intro p hp
    simp only [Function.comp]
    rw [(code_table_spec freq hne p hp).1]
  rw [h2] at h1
  rw [total_bits_eq, ← sum_present freq (fun s => (code_table (build_huffman_tree freq) s).length),
    ← h1]
  rfl

theorem wpl_create_node (freq : Nat → Nat) (s f : Nat) : wpl freq (create_node s f) = 0 := by
  simp [wpl, paths_create_node]

theorem wpl_heavy_tree (freq : Nat → Nat) (x : Nat) (os : List Nat) (hos : os ≠ [])
    (hlen : os.length ≤ 256) :
    (Node.mk 0 0 (create_node x 0) (halving_tree 8 os)).proper = true ∧
    (Node.mk 0 0 (create_node x 0) (halving_tree 8 os)).paths.map Prod.fst = x :: os ∧
    wpl freq (Node.mk 0 0 (create_node x 0) (halving_tree 8 os))
      ≤ freq x + 9 * (os.map freq).sum := by
  obtain ⟨a1, a2, a3⟩ := halving_tree_spec 8 os hos (by norm_num; exact hlen)
  have hpaths : (Node.mk 0 0 (create_node x 0) (halving_tree 8 os)).paths
      = (x, [false]) :: (halving_tree 8 os).paths.map (fun p => (p.1, true :: p.2)) := by
    rfl
  refine ⟨proper_parent 0 (proper_create_node x 0) a1, ?_, ?_⟩
  · rw [hpaths, List.map_cons, List.map_map]
    have e' : (Prod.fst ∘ fun p : Nat × List Bool => (p.1, true :: p.2)) = Prod.fst := rfl
    rw [e', a2]
  · rw [wpl, hpaths, List.map_cons, List.sum_cons, List.map_map]
    have hb : ((halving_tree 8 os).paths.map
          ((fun p : Nat × List Bool => freq p.1 * p.2.length) ∘ fun p => (p.1, true :: p.2))).sum
        ≤ ((halving_tree 8 os).paths.map (fun p => 9 * freq p.1)).sum := by
      apply List.sum_le_sum
      intro p hp
      have := a3 p hp
      simp only [Function.comp, List.length_cons]
      have h9 : p.2.length + 1 ≤ 9 := by omega
      calc freq p.1 * (p.2.length + 1) ≤ freq p.1 * 9 := Nat.mul_le_mul_left _ h9
        _ = 9 * freq p.1 := Nat.mul_comm _ _
    have hs : ((halving_tree 8 os).paths.map (fun p => 9 * freq p.1)).sum
        = 9 * (os.map freq).sum := by
      have e : (os.map freq) = (halving_tree 8 os).paths.map (fun p => freq p.1) := by
        conv_lhs => rw [← a2]
        rw [List.map_map]
        rfl
      rw [e, List.sum_map_mul_left]
    rw [hs] at hb
    simp only [List.length_singleton, Nat.mul_one]
    omega

/-- With one byte value making up nine tenths of the input, fewer than
eight bits per input byte are counted. -/
theorem total_bits_skewed (b : List Nat) (hne : b ≠ []) (hlen : b.length < U64) (x : Nat)
    (hx : 9 * b.length ≤ 10 * count_freq b x) :
    total_bits (count_freq b) (code_table (build_huffman_tree (count_freq b))) < 8 * b.length := by
  have hn : 0 < b.length := List.length_pos.mpr hne
  have hfx : 0 < count_freq b x := by omega
  have hx256 : x < 256 := by
    by_contra h
    have := count_freq_high b x (by omega)
    omega
  have hxp : x ∈ present (count_freq b) := mem_present.mpr ⟨hx256, hfx⟩
  have hpne : present (count_freq b) ≠ [] := List.ne_nil_of_mem hxp
  have hsum : ((present (count_freq b)).map (count_freq b)).sum = b.length := by
    rw [sum_present_freq, sum_count_freq b hlen]
  have hperm : List.Perm (present (count_freq b)) (x :: (present (count_freq b)).erase x) :=
    List.perm_cons_erase hxp
  have hsplit : count_freq b x + (((present (count_freq b)).erase x).map (count_freq b)).sum
      = b.length := by
    rw [← hsum, (hperm.map (count_freq b)).sum_eq]; simp
  have hmod : total_bits (count_freq b) (code_table (build_huffman_tree (count_freq b)))
      ≤ wpl (count_freq b) (build_huffman_tree (count_freq b)) := by
    rw [total_bits_eq_wpl _ hpne]; exact Nat.mod_le _ _
  refine lt_of_le_of_lt hmod ?_
  by_cases hos : (present (count_freq b)).erase x = []
  · rw [hos] at hperm
    have := wpl_le (count_freq b) hpne (by rw [hsum]; exact hlen) (create_node x 0)
      (proper_create_node x 0) (by rw [paths_create_node]; exact hperm.symm)
    rw [wpl_create_node] at this
    omega
  · have hl : ((present (count_freq b)).erase x).length ≤ 256 := by
      have := present_length_le (count_freq b)
      have := List.length_erase_le x (present (count_freq b))
      omega
    obtain ⟨t1, t2, t3⟩ := wpl_heavy_tree (count_freq b) x _ hos hl
    have := wpl_le (count_freq b) hpne (by rw [hsum]; exact hlen) _ t1
      (by rw [t2]; exact hperm.symm)
    omega

/-! ## The iteration budgets are never used up

Each loop function gives the same result with a larger budget as soon as
the budget is the one its caller hands over: the branch for an exhausted
budget is not reached. -/

theorem insert_loop_budget (node : Node) (fuel : Nat) :
    ∀ (nodes : List Node) (i : Nat), i < fuel →
      insert_loop node (fuel + 1) nodes i = insert_loop node fuel nodes i := by
  induction fuel with
  | zero => intro nodes i h; omega
  | succ fuel ih =>
    intro nodes i h
    conv_lhs => rw [insert_loop]
    conv_rhs => rw [insert_loop]
    dsimp only
    split_ifs with h0 h1
    · rfl
    · exact ih _ _ (by omega)
    · rfl

theorem sift_down_budget (fuel : Nat) :
    ∀ (nodes : List Node) (i : Nat), nodes.length ≤ i + fuel →
      sift_down (fuel + 1) nodes i = sift_down fuel nodes i := by
  induction fuel with
  | zero =>
    intro nodes i h
    have h1 : ¬ (2 * i + 1 < nodes.length) := by omega
    have h2 : ¬ (2 * i + 2 < nodes.length) := by omega
    simp [sift_down, h1, h2]
  | succ fuel ih =>
    intro nodes i h
    conv_lhs => rw [sift_down]
    conv_rhs => rw [sift_down]
    generalize hs : (if 2 * i + 2 < nodes.length ∧
        (nodes.getD (2 * i + 2) Node.null).freq <
          (nodes.getD (if 2 * i + 1 < nodes.length ∧
              (nodes.getD (2 * i + 1) Node.null).freq < (nodes.getD i Node.null).freq
            then 2 * i + 1 else i) Node.null).freq
      then 2 * i + 2
      else if 2 * i + 1 < nodes.length ∧
          (nodes.getD (2 * i + 1) Node.null).freq < (nodes.getD i Node.null).freq
        then 2 * i + 1 else i) = s
    have hcases : s = i ∨ s = 2 * i + 1 ∨ s = 2 * i + 2 := by
      rw [← hs]; split_ifs <;> simp
    by_cases hsi : s = i
    · simp only [hsi, if_true]
    · simp only [hsi, if_false]
      exact ih _ _ (by rw [length_swap_nodes]; omega)

theorem merge_loop_budget (fuel : Nat) :
    ∀ heap : MinHeap, heap.size ≤ fuel + 1 →
      merge_loop (fuel + 1) heap = merge_loop fuel heap := by
  induction fuel with
  | zero =>
    intro heap h
    have : ¬ heap.size > 1 := by omega
    simp [merge_loop, this]
  | succ fuel ih =>
    intro heap h
    conv_lhs => rw [merge_loop]
    conv_rhs => rw [merge_loop]
    split_ifs with h1
    · apply ih
      rw [size_insert_heap, size_extract_min, size_extract_min]
      omega
    · rfl

/-! ## The walk never leaves a tree with two leaves or more -/

theorem isLeaf_mk (s f : Nat) (l r : Node) :
    (Node.mk s f l r).isLeaf = (l.isNull && r.isNull) := rfl

theorem walk_defined (root : Node) (hp : root.proper = true) (hl : root.isLeaf = false) :
    ∀ (bits : List Bool) (cur : Node) (out : List Nat),
      cur.proper = true → cur.isLeaf = false →
      ∃ st, walk root bits (cur, out) = some st := by
  intro bits
  induction bits with
  | nil => intro cur out _ _; exact ⟨_, rfl⟩
  | cons b bits ih =>
    intro cur out hcp hcl
    cases cur with
    | null => simp [Node.proper] at hcp
    | mk s f l r =>
      rw [isLeaf_mk] at hcl
      simp only [Node.proper, hcl, Bool.false_or, Bool.and_eq_true] at hcp
      have hchild : (if b then r else l).proper = true := by
        cases b
        · simpa using hcp.1
        · simpa using hcp.2
      simp only [walk, walk_bit]
      generalize (if b = true then r else l) = child at hchild
      cases child with
      | null => simp [Node.proper] at hchild
      | mk s1 f1 l1 r1 =>
        simp only
        by_cases hleaf : (l1.isNull && r1.isNull) = true
        · simp only [hleaf, if_true]
          exact ih root _ hp hl
        · simp only [hleaf, Bool.false_eq_true, if_false]
          exact ih _ _ hchild (by rw [isLeaf_mk]; simpa using hleaf)

/-- With two present symbols `decode_of_bits` always writes an output. -/
theorem decode_of_bits_written (freq : Nat → Nat) (x y : Nat) (hx : x ∈ present freq)
    (hy : y ∈ present freq) (hxy : x ≠ y) (bits : List Bool) :
    ∃ out, decode_of_bits freq bits = DecodeResult.written out := by
  have hne : present freq ≠ [] := List.ne_nil_of_mem hx
  have hp := ((build_huffman_tree_spec freq).2 hne).1
  have hl := root_not_leaf freq x y hx hy hxy
  obtain ⟨st, hst⟩ := walk_defined _ hp hl bits _ [] hp hl
  refine ⟨st.2, ?_⟩
  simp only [decode_of_bits, isNull_of_proper hp, Bool.false_eq_true, if_false, hst]

/-! ## The tree depends on the 256 table entries only -/

theorem foldl_congr_mem {α β : Type} (f g : α → β → α) (l : List β) :
    ∀ a : α, (∀ a, ∀ x ∈ l, f a x = g a x) → l.foldl f a = l.foldl g a := by
  induction l with
  | nil => intro a _; rfl
  | cons x l ih =>
    intro a h
    simp only [List.foldl_cons]
    rw [h a x (by simp)]
    exact ih _ (fun a y hy => h a y (by simp [hy]))

theorem fill_heap_congr (f g : Nat → Nat) (h : ∀ i, i < 256 → f i = g i) :
    fill_heap f = fill_heap g := by
  unfold fill_heap
  apply foldl_congr_mem
  intro a i hi
  have hi' : i < 256 := by simpa [MAX_SYMBOLS] using hi
  rw [h i hi']

theorem build_huffman_tree_congr (f g : Nat → Nat) (h : ∀ i, i < 256 → f i = g i) :
    build_huffman_tree f = build_huffman_tree g := by
  unfold build_huffman_tree
  rw [fill_heap_congr f g h]

theorem present_eq_nil_iff (freq : Nat → Nat) :
    present freq = [] ↔ ∀ i, i < 256 → freq i = 0 := by
  constructor
  · intro h i hi
    by_contra hne
    have : i ∈ present freq := mem_present.mpr ⟨hi, by omega⟩
    rw [h] at this
    simp at this
  · intro h
    apply List.eq_nil_iff_forall_not_mem.mpr
    intro i hi
    have := mem_present.mp hi
    have := h i this.1
    omega

/-- The result is `NULL` exactly when no symbol is present. -/
theorem build_huffman_tree_null_iff (freq : Nat → Nat) :
    build_huffman_tree freq = Node.null ↔ present freq = [] := by
  constructor
  · intro h
    by_contra hne
    have := ((build_huffman_tree_spec freq).2 hne).1
    rw [h] at this
    simp [Node.proper] at this
  · exact (build_huffman_tree_spec freq).1

theorem isNull_iff (t : Node) : t.isNull = true ↔ t = Node.null := by
  cases t <;> simp [Node.isNull]

theorem encode_file_none_iff (b : List Nat) (hlen : b.length < U64) :
    encode_file b = none ↔ b = [] := by
  have h1 : encode_file b = none ↔ build_huffman_tree (count_freq b) = Node.null := by
    rw [← isNull_iff]
    simp only [encode_file]
    split_ifs with h
    · simp [h]
    · simp [h]
  rw [h1, build_huffman_tree_null_iff]
  constructor
  · intro h
    by_contra hne
    obtain ⟨c, hc⟩ := List.exists_mem_of_ne_nil b hne
    have := mem_present_count_freq b hlen c hc
    rw [h] at this
    simp at this
  · intro h
    subst h
    rw [present_eq_nil_iff]
    intro i _
    rfl

/-- A proper tree with a single leaf is that leaf. -/
theorem eq_leaf_of_leaves_singleton (t : Node) (hp : t.proper = true) (e : Nat × Nat)
    (h : t.leaves = [e]) : t = Node.mk e.1 e.2 Node.null Node.null := by
  cases t with
  | null => simp [Node.proper] at hp
  | mk s f l r =>
    by_cases hc : (l.isNull && r.isNull) = true
    · simp only [Node.leaves, hc, if_true, List.cons.injEq, and_true] at h
      have hl : l = Node.null := (isNull_iff l).mp (by simp at hc; exact hc.1)
      have hr : r = Node.null := (isNull_iff r).mp (by simp at hc; exact hc.2)
      rw [hl, hr, ← h]
    · simp only [Node.proper, hc, Bool.false_or, Bool.and_eq_true] at hp
      simp only [Node.leaves, hc, Bool.false_eq_true, if_false] at h
      have h1 := leaves_ne_nil_of_proper l hp.1
      have h2 := leaves_ne_nil_of_proper r hp.2
      have := congrArg List.length h
      simp only [List.length_append, List.length_singleton] at this
      have := List.length_pos.mpr h1
      have := List.length_pos.mpr h2
      omega

theorem tree_single_symbol (freq : Nat → Nat) (s : Nat) (h : present freq = [s]) :
    build_huffman_tree freq = create_node s (freq s) := by
  have hne : present freq ≠ [] := by rw [h]; simp
  obtain ⟨hp, hperm⟩ := (build_huffman_tree_spec freq).2 hne
  have hl : leaf_entries freq = [(s, freq s)] := by simp [leaf_entries, h]
  rw [hl] at hperm
  have := List.perm_singleton.mp hperm
  exact eq_leaf_of_leaves_singleton _ hp _ this


/-! ## Reachable heaps -/

theorem heap_ordered_of_reachable (heap : MinHeap) (h : Reachable heap) :
    heap_ordered heap.nodes := by
  induction h with
  | init => exact heap_ordered_nil
  | insert heap node _ _ ih => exact heap_ordered_insert_heap heap node ih
  | extract heap _ _ ih => exact heap_ordered_extract_min heap ih

theorem size_le_of_reachable (heap : MinHeap) (h : Reachable heap) :
    heap.size ≤ MAX_HEAP_SIZE := by
  induction h with
  | init => simp [init_heap, MinHeap.size]
  | insert heap node _ hs _ => rw [size_insert_heap]; omega
  | extract heap _ _ ih => rw [size_extract_min]; omega

/-! ## The run of `build_huffman_tree` -/

theorem merge_loop_succ (fuel : Nat) (heap : MinHeap) :
    merge_loop (fuel + 1) heap
      = if heap.size > 1 then merge_loop fuel (merge_body heap) else heap := rfl

theorem size_merge_body (heap : MinHeap) (h : 1 < heap.size) :
    (merge_body heap).size + 1 = heap.size := by
  simp only [merge_body, size_insert_heap, size_extract_min]
  omega

theorem fill_states_size (freq : Nat → Nat) (is : List Nat) :
    ∀ heap : MinHeap, ∀ h ∈ fill_states freq is heap,
      h.size ≤ heap.size + (is.filter (fun i => decide (freq i > 0))).length := by
  induction is with
  | nil => intro heap h hh; simp [fill_states] at hh
  | cons i is ih =>
    intro heap h hh
    simp only [fill_states, List.mem_cons] at hh
    by_cases hf : freq i > 0
    · simp only [hf, if_true] at hh
      simp only [List.filter_cons, hf, decide_True, if_true, List.length_cons]
      rcases hh with rfl | hh
      · rw [size_insert_heap]; omega
      · have := ih _ h hh
        rw [size_insert_heap] at this
        omega
    · simp only [hf, if_false] at hh
      simp only [List.filter_cons, hf, decide_False, Bool.false_eq_true, if_false]
      rcases hh with rfl | hh
      · omega
      · exact ih _ h hh

theorem fill_fold_size (freq : Nat → Nat) (is : List Nat) :
    ∀ heap : MinHeap,
      (is.foldl (fun heap i =>
          if freq i > 0 then insert_heap heap (create_node (i % 256) (freq i)) else heap)
        heap).size = heap.size + (is.filter (fun i => decide (freq i > 0))).length := by
  induction is with
  | nil => intro heap; simp
  | cons i is ih =>
    intro heap
    simp only [List.foldl_cons]
    rw [ih]
    by_cases hf : freq i > 0
    · simp only [hf, if_true, List.filter_cons, decide_True, List.length_cons, size_insert_heap]
      omega
    · simp only [hf, if_false, List.filter_cons, decide_False, Bool.false_eq_true]

/-- The first loop leaves one node per present symbol. -/
theorem size_fill_heap (freq : Nat → Nat) : (fill_heap freq).size = (present freq).length := by
  have := fill_fold_size freq (List.range MAX_SYMBOLS) init_heap
  simpa [fill_heap, present, init_heap, MinHeap.size] using this

/-- The last value of the first loop is the heap `fill_heap` returns. -/
theorem fill_states_getLast (freq : Nat → Nat) (is : List Nat) :
    ∀ heap : MinHeap, (heap :: fill_states freq is heap).getLast?
      = some (is.foldl (fun heap i =>
          if freq i > 0 then insert_heap heap (create_node (i % 256) (freq i)) else heap)
        heap) := by
  induction is with
  | nil => intro heap; simp [fill_states]
  | cons i is ih =>
    intro heap
    simp only [fill_states, List.foldl_cons]
    rw [List.getLast?_cons_cons]
    exact ih _

theorem merge_states_size (fuel : Nat) :
    ∀ heap : MinHeap, ∀ h ∈ merge_states fuel heap, h.size ≤ heap.size := by
  induction fuel with
  | zero => intro heap h hh; simp [merge_states] at hh
  | succ fuel ih =>
    intro heap h hh
    simp only [merge_states] at hh
    split_ifs at hh with hs
    · have hb := size_merge_body heap hs
      simp only [List.mem_cons] at hh
      rcases hh with rfl | rfl | rfl | hh
      · rw [size_extract_min]; omega
      · rw [size_extract_min, size_extract_min]; omega
      · omega
      · have := ih _ h hh
        omega
    · simp at hh

theorem merge_extract_calls_pos (fuel : Nat) :
    ∀ heap : MinHeap, ∀ h ∈ merge_extract_calls fuel heap, 0 < h.size := by
  induction fuel with
  | zero => intro heap h hh; simp [merge_extract_calls] at hh
  | succ fuel ih =>
    intro heap h hh
    simp only [merge_extract_calls] at hh
    split_ifs at hh with hs
    · simp only [List.mem_cons] at hh
      rcases hh with rfl | rfl | hh
      · omega
      · rw [size_extract_min]; omega
      · exact ih _ h hh
    · simp at hh

/-- With fuel for every node, the merge loop makes one iteration per node
but one, and stops because its condition fails. -/
theorem merge_iterations_eq (fuel : Nat) :
    ∀ heap : MinHeap, heap.size ≤ fuel + 1 →
      merge_iterations fuel heap = heap.size - 1 ∧ (merge_loop fuel heap).size ≤ 1 := by
  induction fuel with
  | zero =>
    intro heap h
    simp only [merge_iterations, merge_loop]
    omega
  | succ fuel ih =>
    intro heap h
    rw [merge_loop_succ]
    simp only [merge_iterations]
    split_ifs with hs
    · have hb := size_merge_body heap hs
      obtain ⟨h1, h2⟩ := ih (merge_body heap) (by omega)
      exact ⟨by omega, h2⟩
    · omega

/-! ## The run of `build_codes` -/

theorem write_indices_lt : ∀ t : Node, t.proper = true → ∀ depth : Nat,
    ∀ i ∈ write_indices t depth, i < depth + t.height := by
  intro t
  induction t with
  | null => intro h; simp [Node.proper] at h
  | mk s f l r ihl ihr =>
    intro hp depth i hi
    by_cases hc : (l.isNull && r.isNull) = true
    · simp [write_indices, hc] at hi
    · simp only [Node.proper, hc, Bool.false_or, Bool.and_eq_true] at hp
      simp only [write_indices, hc, Bool.false_eq_true, if_false, List.mem_cons,
        List.mem_append] at hi
      simp only [Node.height, hc, Bool.false_eq_true, if_false]
      rcases hi with (rfl | hi) | (rfl | hi)
      · omega
      · have := ihl hp.1 (depth + 1) i hi
        have := Nat.le_max_left l.height r.height
        omega
      · omega
      · have := ihr hp.2 (depth + 1) i hi
        have := Nat.le_max_right l.height r.height
        omega

theorem length_c_string_le (buf : List Nat) (h : buf.getD 255 1 = 0) :
    (c_string buf).length ≤ 255 := by
  unfold c_string
  by_contra hlt
  have hlen : 255 < (buf.takeWhile (fun c => c != 0)).length := by omega
  have hmem := List.getElem_mem hlen
  have hne := List.mem_takeWhile_imp hmem
  obtain ⟨t, ht⟩ : (buf.takeWhile (fun c => c != 0)) <+: buf := List.takeWhile_prefix _
  rw [← ht, List.getD_append _ _ _ _ hlen, List.getD_eq_getElem _ _ hlen] at h
  simp [h] at hne

/-- The last cell of `current_code` stays NUL, so every string copied by
`strcpy` has at most 255 characters. -/
theorem build_codes_fits : ∀ t : Node, t.proper = true →
    ∀ (codes : Nat → Code) (cc : List Nat) (depth : Nat),
      depth + t.height < 256 → cc.getD 255 1 = 0 →
      (∀ s, (codes s).code.length ≤ 255) →
      (build_codes t codes cc depth).2.getD 255 1 = 0 ∧
      (∀ s, ((build_codes t codes cc depth).1 s).code.length ≤ 255) := by
  intro t
  induction t with
  | null => intro h; simp [Node.proper] at h
  | mk s f l r ihl ihr =>
    intro hp codes cc depth hd hcc hcodes
    by_cases hc : (l.isNull && r.isNull) = true
    · simp only [build_codes, hc, if_true]
      refine ⟨hcc, ?_⟩
      intro x
      simp only [assign]
      split_ifs
      · exact length_c_string_le cc hcc
      · exact hcodes x
    · simp only [Node.proper, hc, Bool.false_or, Bool.and_eq_true] at hp
      simp only [Node.height, hc, Bool.false_eq_true, if_false] at hd
      simp only [build_codes, hc, Bool.false_eq_true, if_false]
      have hl := Nat.le_max_left l.height r.height
      have hr := Nat.le_max_right l.height r.height
      have hset : ∀ (b : List Nat) (v : Nat), b.getD 255 1 = 0 → (b.set depth v).getD 255 1 = 0 := by
        intro b v hb
        rw [List.getD_eq_getElem?_getD, List.getElem?_set_ne (by omega),
          ← List.getD_eq_getElem?_getD]
        exact hb
      obtain ⟨a1, a2⟩ := ihl hp.1 codes (cc.set depth 48) (depth + 1) (by omega)
        (hset cc 48 hcc) hcodes
      exact ihr hp.2 _ _ (depth + 1) (by omega) (hset _ 49 a1) a2


theorem path_length_le_height : ∀ t : Node, ∀ p ∈ t.paths, p.2.length ≤ t.height := by
  intro t
  induction t with
  | null => intro p hp; simp [Node.paths] at hp
  | mk s f l r ihl ihr =>
    intro p hp
    by_cases hc : (l.isNull && r.isNull) = true
    · simp only [Node.paths, hc, if_true, List.mem_singleton] at hp
      subst hp
      simp
    · simp only [Node.paths, hc, Bool.false_eq_true, if_false, List.mem_append,
        List.mem_map] at hp
      simp only [Node.height, hc, Bool.false_eq_true, if_false]
      rcases hp with ⟨q, hq, rfl⟩ | ⟨q, hq, rfl⟩
      · have := ihl q hq
        have := Nat.le_max_left l.height r.height
        simp only [List.length_cons]
        omega
      · have := ihr q hq
        have := Nat.le_max_right l.height r.height
        simp only [List.length_cons]
        omega

/-- Every recorded code length is at most the height of the tree, which is
below the number of present symbols. -/
theorem code_length_le (freq : Nat → Nat) (s : Nat) :
    (code_table (build_huffman_tree freq) s).length ≤ (present freq).length - 1 := by
  by_cases hs : s ∈ present freq
  · have hne : present freq ≠ [] := List.ne_nil_of_mem hs
    obtain ⟨p, hp, rfl⟩ := exists_path freq s hs
    rw [(code_table_spec freq hne p hp).1]
    have h1 := path_length_le_height _ p hp
    have h2 := height_lt_leaves _ ((build_huffman_tree_spec freq).2 hne).1
    have h3 := ((build_huffman_tree_spec freq).2 hne).2.length_eq
    simp only [leaf_entries, List.length_map] at h3
    omega
  · rw [code_table_absent freq s hs]
    simp [init_codes]

theorem write_indices_tree (freq : Nat → Nat) :
    ∀ i ∈ write_indices (build_huffman_tree freq) 0, i ≤ 254 := by
  intro i hi
  by_cases h : present freq = []
  · rw [(build_huffman_tree_spec freq).1 h] at hi
    simp [write_indices] at hi
  · have h1 := write_indices_lt _ ((build_huffman_tree_spec freq).2 h).1 0 i hi
    have h2 := tree_height_lt freq h
    omega

theorem code_string_fits (freq : Nat → Nat) (s : Nat) :
    (code_table (build_huffman_tree freq) s).code.length ≤ 255 := by
  by_cases h : present freq = []
  · rw [code_table_absent freq s (by rw [h]; simp)]
    simp [init_codes]
  · have hcc : init_current_code.getD 255 1 = 0 := by
      unfold init_current_code
      rw [List.getD_eq_getElem?_getD, List.getElem?_replicate]
      simp
    exact (build_codes_fits _ ((build_huffman_tree_spec freq).2 h).1 init_codes
      init_current_code 0 (by have := tree_height_lt freq h; omega) hcc
      (by intro s; simp [init_codes])).2 s

theorem merge_states_budget (fuel : Nat) :
    ∀ heap : MinHeap, heap.size ≤ fuel + 1 →
      merge_states (fuel + 1) heap = merge_states fuel heap := by
  induction fuel with
  | zero =>
    intro heap h
    have : ¬ heap.size > 1 := by omega
    simp [merge_states, this]
  | succ fuel ih =>
    intro heap h
    conv_lhs => rw [merge_states]
    conv_rhs => rw [merge_states]
    split_ifs with hs
    · have hb := size_merge_body heap hs
      rw [ih _ (by omega)]
    · rfl

theorem merge_extract_calls_budget (fuel : Nat) :
    ∀ heap : MinHeap, heap.size ≤ fuel + 1 →
      merge_extract_calls (fuel + 1) heap = merge_extract_calls fuel heap := by
  induction fuel with
  | zero =>
    intro heap h
    have : ¬ heap.size > 1 := by omega
    simp [merge_extract_calls, this]
  | succ fuel ih =>
    intro heap h
    conv_lhs => rw [merge_extract_calls]
    conv_rhs => rw [merge_extract_calls]
    split_ifs with hs
    · have hb := size_merge_body heap hs
      rw [ih _ (by omega)]
    · rfl

theorem build_states_size (freq : Nat → Nat) :
    ∀ h ∈ build_states freq, h.size ≤ (present freq).length := by
  intro h hh
  simp only [build_states, List.cons_append, List.mem_cons, List.mem_append] at hh
  rcases hh with rfl | (hh | hh) | hh
  · simp [init_heap, MinHeap.size]
  · have := fill_states_size freq (List.range MAX_SYMBOLS) init_heap h hh
    simpa [init_heap, MinHeap.size, present] using this
  · have := merge_states_size _ _ h hh
    rw [size_fill_heap] at this
    exact this
  · split_ifs at hh with h0
    · simp at hh
    · simp only [List.mem_singleton] at hh
      subst hh
      rw [size_extract_min]
      have := (final_heap_spec freq).1
      rw [size_fill_heap] at this
      omega

theorem extract_calls_pos (freq : Nat → Nat) : ∀ h ∈ extract_calls freq, 0 < h.size := by
  intro h hh
  simp only [extract_calls, List.mem_append] at hh
  rcases hh with hh | hh
  · exact merge_extract_calls_pos _ _ h hh
  · split_ifs at hh with h0
    · simp at hh
    · simp only [List.mem_singleton] at hh
      subst hh
      omega

theorem merge_loop_add (heap : MinHeap) (k : Nat) :
    merge_loop (heap.size + k) heap = merge_loop heap.size heap := by
  induction k with
  | zero => rfl
  | succ k ih => rw [← Nat.add_assoc, merge_loop_budget _ _ (by omega), ih]

theorem merge_states_add (heap : MinHeap) (k : Nat) :
    merge_states (heap.size + k) heap = merge_states heap.size heap := by
  induction k with
  | zero => rfl
  | succ k ih => rw [← Nat.add_assoc, merge_states_budget _ _ (by omega), ih]

theorem merge_extract_calls_add (heap : MinHeap) (k : Nat) :
    merge_extract_calls (heap.size + k) heap = merge_extract_calls heap.size heap := by
  induction k with
  | zero => rfl
  | succ k ih => rw [← Nat.add_assoc, merge_extract_calls_budget _ _ (by omega), ih]


/-! ## The payload for any input -/

theorem sym_path_absent (t : Node) (s : Nat) (h : s ∉ t.paths.map Prod.fst) :
    sym_path t s = [] := by
  unfold sym_path
  have : t.paths.find? (fun p => p.1 == s) = none := by
    rw [List.find?_eq_none]
    intro p hp hps
    apply h
    simp only [beq_iff_eq] at hps
    exact List.mem_map.mpr ⟨p, hp, hps⟩
  rw [this]
  rfl

/-- The code stored for any byte value is the path of its leaf (empty when
it has no leaf). -/
theorem code_is_path (freq : Nat → Nat) (s : Nat) :
    (code_table (build_huffman_tree freq) s).length
      = (sym_path (build_huffman_tree freq) s).length ∧
    (code_table (build_huffman_tree freq) s).code.take
        (sym_path (build_huffman_tree freq) s).length
      = (sym_path (build_huffman_tree freq) s).map step_char := by
  by_cases hs : s ∈ present freq
  · exact (code_of_present freq s hs).2
  · have hp : sym_path (build_huffman_tree freq) s = [] := by
      apply sym_path_absent
      by_cases h : present freq = []
      · rw [(build_huffman_tree_spec freq).1 h]
        simp [Node.paths]
      · intro hmem
        exact hs ((tree_syms_perm freq h).subset hmem)
    rw [hp, code_table_absent freq s hs]
    simp [init_codes]

theorem write_payload_all (freq : Nat → Nat) (input : List Nat) :
    write_payload (code_table (build_huffman_tree freq)) input
      = write_bits (input_bits (build_huffman_tree freq) input) ⟨[], 0, 0⟩ := by
  unfold write_payload input_bits
  generalize (⟨[], 0, 0⟩ : Writer) = w
  induction input generalizing w with
  | nil => rfl
  | cons c rest ih =>
    simp only [List.foldl_cons, List.flatMap_cons, write_bits_append]
    obtain ⟨h1, h2⟩ := code_is_path freq (c % 256)
    rw [push_code_eq _ _ h1 h2]
    exact ih _

theorem code_stream_eq (freq : Nat → Nat) (input : List Nat) :
    code_stream (code_table (build_huffman_tree freq)) input
      = (input_bits (build_huffman_tree freq) input).map step_char := by
  unfold code_stream input_bits
  induction input with
  | nil => rfl
  | cons c rest ih =>
    simp only [List.flatMap_cons, List.map_append]
    obtain ⟨h1, h2⟩ := code_is_path freq (c % 256)
    rw [ih, Code.bits, h1, h2]

theorem length_code_stream (codes : Nat → Code) (input : List Nat)
    (h : ∀ s, (codes s).length ≤ (codes s).code.length) :
    (code_stream codes input).length = (input.map (fun c => (codes (c % 256)).length)).sum := by
  unfold code_stream
  induction input with
  | nil => rfl
  | cons c rest ih =>
    simp only [List.flatMap_cons, List.length_append, List.map_cons, List.sum_cons]
    rw [ih, Code.bits, List.length_take, Nat.min_eq_left (h _)]

theorem length_input_bits_all (freq : Nat → Nat) (input : List Nat) :
    (input_bits (build_huffman_tree freq) input).length
      = (input.map (fun c => (code_table (build_huffman_tree freq) (c % 256)).length)).sum := by
  unfold input_bits
  induction input with
  | nil => rfl
  | cons c rest ih =>
    simp only [List.flatMap_cons, List.length_append, List.map_cons, List.sum_cons]
    rw [ih, (code_is_path freq (c % 256)).1]

/-- The header never announces more bits than the payload writer wrote. -/
theorem total_bits_le (b : List Nat) (codes : Nat → Code) :
    total_bits (count_freq b) codes ≤ (b.map (fun c => (codes (c % 256)).length)).sum := by
  rw [total_bits_eq]
  refine le_trans (Nat.mod_le _ _) ?_
  have hx : ∀ x ∈ b.map (fun c => c % 256), x < MAX_SYMBOLS := by
    intro x hx
    obtain ⟨c, _, rfl⟩ := List.mem_map.mp hx
    exact Nat.mod_lt _ (by decide)
  have key := sum_count_mul (fun i => (codes i).length) MAX_SYMBOLS (b.map (fun c => c % 256)) hx
  rw [List.map_map] at key
  have key' : ((b.map (fun c => c % 256)).map (fun i => (codes i).length))
      = b.map (fun c => (codes (c % 256)).length) := by
    rw [List.map_map]; rfl
  rw [← key', ← sum_count_mul (fun i => (codes i).length) MAX_SYMBOLS (b.map (fun c => c % 256)) hx]
  apply List.sum_le_sum
  intro i _
  rw [count_freq_eq]
  exact Nat.mul_le_mul_right _ (Nat.mod_le _ _)

/-- What `encode_file` writes, when it writes: the header, then the packed
paths of the input bytes. -/
theorem artifact_split (b artifact : List Nat) (hart : encode_file b = some artifact) :
    ∃ h : Header,
      read_header artifact = some (h,
        flush (write_bits (input_bits (build_huffman_tree (count_freq b)) b) ⟨[], 0, 0⟩)) ∧
      h.valid_bits = valid_bits
        (total_bits (count_freq b) (code_table (build_huffman_tree (count_freq b)))) ∧
      h.total_bits
        = total_bits (count_freq b) (code_table (build_huffman_tree (count_freq b))) := by
  have hne : present (count_freq b) ≠ [] := by
    intro h
    have hnull := (build_huffman_tree_null_iff (count_freq b)).mpr h
    have : encode_file b = none := by
      simp only [encode_file, hnull, Node.isNull, if_true]
    rw [this] at hart
    simp at hart
  rw [encode_file_eq b hne, write_payload_all] at hart
  obtain ⟨h, hrd, _, hv, ht⟩ := read_header_header (count_freq b)
    (code_table (build_huffman_tree (count_freq b)))
    (flush (write_bits (input_bits (build_huffman_tree (count_freq b)) b) ⟨[], 0, 0⟩))
  rw [Option.some.inj hart] at hrd
  exact ⟨h, hrd, hv, ht⟩

/-- Number of bytes and of padding bits of a packed bit sequence. -/
theorem packed_length (bits : List Bool) :
    8 * (flush (write_bits bits ⟨[], 0, 0⟩)).length = bits.length + (8 - bits.length % 8) % 8 ∧
    payload_bits (flush (write_bits bits ⟨[], 0, 0⟩))
      = bits ++ List.replicate ((8 - bits.length % 8) % 8) false := by
  obtain ⟨a1, _, a3⟩ := write_bits_spec bits ⟨[], 0, 0⟩ init_writer_ok
  obtain ⟨_, b2, b3⟩ := packed_bits bits
  have hbc : (write_bits bits ⟨[], 0, 0⟩).bit_count = bits.length % 8 := by
    have := a1.1
    simp only [List.length_nil, Nat.mul_zero, Nat.zero_add] at a3
    omega
  rw [hbc] at b2 b3
  exact ⟨b3, b2⟩


/-! ## A file whose code bits do not fit 64 bits -/

theorem mem_eight_values (n c : Nat) (h : c ∈ eight_values n) : c < 8 := by
  simp only [eight_values, List.mem_flatMap, List.mem_replicate] at h
  obtain ⟨s, hs, _, rfl⟩ := h
  simp only [List.mem_cons, List.mem_singleton, List.not_mem_nil, or_false] at hs
  omega

theorem length_eight_values (n : Nat) : (eight_values n).length = 8 * n := by
  simp only [eight_values, List.flatMap_cons, List.flatMap_nil, List.length_append,
    List.length_replicate, List.length_nil]
  omega

theorem count_eight_values (n j : Nat) : (eight_values n).count j = eight_table n j := by
  simp only [eight_values, List.flatMap_cons, List.flatMap_nil, List.count_append,
    List.count_replicate, List.count_nil, eight_table, beq_iff_eq]
  split_ifs <;> omega

theorem count_freq_eight_values (n : Nat) (h : 8 * n < U64) :
    count_freq (eight_values n) = eight_table n := by
  funext j
  rw [count_freq_exact _ (by rw [length_eight_values]; exact h),
    map_mod_of_bytes _ (fun c hc => by have := mem_eight_values n c hc; omega),
    count_eight_values]

/-- The artifact of `eight_values n` when all eight codes have length 3:
the payload has `3 * n` bytes, whatever the header says. -/
theorem eight_values_artifact (n : Nat) (hn : 0 < n) (h : 8 * n < U64)
    (hcode : ∀ i, i < 8 → (code_table (build_huffman_tree (eight_table n)) i).length = 3) :
    ∃ (artifact : List Nat) (hd : Header) (payload : List Nat),
      encode_file (eight_values n) = some artifact ∧
      read_header artifact = some (hd, payload) ∧
      payload.length = 3 * n ∧
      hd.total_bits = total_bits (eight_table n) (code_table (build_huffman_tree (eight_table n))) ∧
      hd.valid_bits = valid_bits
        (total_bits (eight_table n) (code_table (build_huffman_tree (eight_table n)))) := by
  have hcf := count_freq_eight_values n h
  have hne : present (count_freq (eight_values n)) ≠ [] := by
    rw [hcf]
    apply List.ne_nil_of_mem (a := 0)
    rw [mem_present]
    simp [eight_table, hn]
  obtain ⟨hd, hrd, hv, ht⟩ := artifact_split _ _ (encode_file_eq _ hne)
  obtain ⟨p1, _⟩ := packed_length
    (input_bits (build_huffman_tree (count_freq (eight_values n))) (eight_values n))
  have hL := length_input_bits_all (count_freq (eight_values n)) (eight_values n)
  rw [hcf] at hv ht hL
  have hsum : ((eight_values n).map
      (fun c => (code_table (build_huffman_tree (eight_table n)) (c % 256)).length)).sum
      = 3 * (8 * n) := by
    have : (eight_values n).map
        (fun c => (code_table (build_huffman_tree (eight_table n)) (c % 256)).length)
        = (eight_values n).map (fun _ => 3) := by
      apply List.map_congr_left
      intro c hc
      have hc8 := mem_eight_values n c hc
      rw [Nat.mod_eq_of_lt (by omega)]
      exact hcode c hc8
    rw [this, List.map_const', List.sum_replicate, length_eight_values, smul_eq_mul]
    omega
  rw [hsum] at hL
  rw [hcf] at p1
  rw [hL] at p1
  refine ⟨_, hd, _, encode_file_eq _ hne, hrd, ?_, ht, hv⟩
  rw [hcf]
  omega

set_option maxRecDepth 100000 in
theorem eight_codes :
    (∀ i, i < 8 →
      (code_table (build_huffman_tree (eight_table 1152921504606846975)) i).length = 3) ∧
    total_bits (eight_table 1152921504606846975)
      (code_table (build_huffman_tree (eight_table 1152921504606846975)))
      = 9223372036854775784 := by
  decide


/-! # The claims -/

set_option maxRecDepth 100000


/-- C1 (as stated, refuted): for the empty input `encode_file` takes the
`Empty file` return and writes no file, so there is no artifact to decode;
and decoding the artifact of the one-byte input `"a"` writes no byte at all. -/
theorem roundtrip_counterexample :
    encode_file [] = none ∧ encode_then_decode [97] = some (DecodeResult.written []) := by
  decide

/-- C1 (amended): the empty input produces no artifact; an input of bytes
with at least two distinct values, whose length and total number of code bits
are below `2^64`, is recovered exactly by decoding its artifact. -/
theorem roundtrip (b : List Nat) (hbytes : ∀ c ∈ b, c < 256) (hlen : b.length < U64)
    (hdistinct : ∃ x ∈ b, ∃ y ∈ b, x ≠ y)
    (hbits : (b.map (fun c => (code_table (build_huffman_tree (count_freq b)) (c % 256)).length)).sum
      < U64) :
    encode_file [] = none ∧ encode_then_decode b = some (DecodeResult.written b) := by
  refine ⟨by decide, ?_⟩
  obtain ⟨x, hx, y, hy, hxy⟩ := hdistinct
  have hx' := mem_present_count_freq b hlen x hx
  have hy' := mem_present_count_freq b hlen y hy
  have hne : x % 256 ≠ y % 256 := by
    rw [Nat.mod_eq_of_lt (hbytes x hx), Nat.mod_eq_of_lt (hbytes y hy)]; exact hxy
  have := decode_encoded b hlen (root_not_leaf _ _ _ hx' hy' hne) (List.ne_nil_of_mem hx') hbits
  rw [this, map_mod_of_bytes b hbytes]

theorem roundtrip_witness :
    encode_file [] = none ∧
      encode_then_decode [97, 98, 114, 97, 99, 97, 100, 97, 98, 114, 97]
        = some (DecodeResult.written [97, 98, 114, 97, 99, 97, 100, 97, 98, 114, 97]) :=
  roundtrip [97, 98, 114, 97, 99, 97, 100, 97, 98, 114, 97] (by decide) (by decide)
    ⟨97, by decide, 98, by decide, by decide⟩ (by decide)

/-- C2: for the input `"aaab"` both symbols get a 1-bit code, the header
carries `total_bit_count = 4` (the artifact is listed byte by byte), and
decoding the artifact gives back `"aaab"`. -/
theorem aaab_example :
    (code_table (build_huffman_tree (count_freq [97, 97, 97, 98])) 97).length = 1 ∧
    (code_table (build_huffman_tree (count_freq [97, 97, 97, 98])) 98).length = 1 ∧
    encode_file [97, 97, 97, 98]
      = some [2, 0, 0, 0, 97, 3, 0, 0, 0, 0, 0, 0, 0, 98, 1, 0, 0, 0, 0, 0, 0, 0,
          4, 4, 0, 0, 0, 0, 0, 0, 0, 224] ∧
    ((encode_file [97, 97, 97, 98]).bind read_header).map (fun x => x.1.total_bits) = some 4 ∧
    encode_then_decode [97, 97, 97, 98] = some (DecodeResult.written [97, 97, 97, 98]) := by
  decide

/-- C3 (failing input): for an input holding one distinct byte value the tree
is a single leaf and `build_codes` records the depth of the root, 0, as the
code length; `total_bits` is then 0, the payload is empty and decoding the
artifact writes no byte. -/
theorem single_symbol_code_length_zero :
    build_huffman_tree (count_freq [65, 65, 65]) = Node.mk 65 3 Node.null Node.null ∧
    (code_table (build_huffman_tree (count_freq [65, 65, 65])) 65).length = 0 ∧
    ((encode_file [65, 65, 65]).bind read_header).map (fun x => (x.1.total_bits, x.2))
      = some (0, []) ∧
    encode_then_decode [65, 65, 65] = some (DecodeResult.written []) := by
  decide

/-- C4: in the code table derived from the tree of any frequency table, the
code of a present symbol (the first `length` characters of its stored string)
is never a prefix of the code of a different present symbol. -/
theorem code_table_prefix_free (freq : Nat → Nat) (s t : Nat) (hs : s < 256) (ht : t < 256)
    (hfs : 0 < freq s) (hft : 0 < freq t) (hne : s ≠ t) :
    ¬ (code_table (build_huffman_tree freq) s).bits
        <+: (code_table (build_huffman_tree freq) t).bits :=
  prefix_free freq s t hs ht hfs hft hne

theorem code_table_prefix_free_witness :
    ¬ (code_table (build_huffman_tree (count_freq [97, 97, 97, 98, 99, 99, 100])) 99).bits
        <+: (code_table (build_huffman_tree (count_freq [97, 97, 97, 98, 99, 99, 100])) 100).bits :=
  code_table_prefix_free (count_freq [97, 97, 97, 98, 99, 99, 100]) 99 100
    (by decide) (by decide) (by decide) (by decide) (by decide)

/-- C5 (as stated, refuted): for the table with the counts `2^63`, `2^63`,
`2^63 + 1`, `2^63 + 1` of the byte values 0 to 3 (all of them 64-bit values)
the sums of weights wrap around modulo `2^64`; the tree built puts the
symbols at depths 3, 3, 2, 1 and its weighted path length exceeds that of the
tree with the four leaves at depth 2. -/
theorem optimal_overflow_counterexample :
    (∀ i, i < 256 → overflow_table i < U64) ∧
    balanced_four.proper = true ∧
    balanced_four.paths.map Prod.fst = present overflow_table ∧
    (build_huffman_tree overflow_table).paths
      = [(3, [false]), (0, [true, false, false]), (1, [true, false, true]), (2, [true, true])] ∧
    wpl overflow_table balanced_four < wpl overflow_table (build_huffman_tree overflow_table) := by
  decide

/-- C5 (amended): for a frequency table with a nonzero count whose counts add
up to less than `2^64`, the tree returned by `build_huffman_tree` has a
weighted path length no greater than that of any tree (every inner node with
two children) whose leaves are exactly the present symbols; `encode_file`
computes this weighted path length, modulo `2^64`, as `total_bits`. -/
theorem huffman_tree_optimal (freq : Nat → Nat) (i : Nat) (hi : i < 256) (hfi : 0 < freq i)
    (hsum : ((List.range MAX_SYMBOLS).map freq).sum < U64)
    (t : Node) (hp : t.proper = true)
    (hleaves : List.Perm (t.paths.map Prod.fst) (present freq)) :
    wpl freq (build_huffman_tree freq) ≤ wpl freq t ∧
    total_bits freq (code_table (build_huffman_tree freq))
      = wpl freq (build_huffman_tree freq) % U64 := by
  have hne : present freq ≠ [] := List.ne_nil_of_mem (mem_present.mpr ⟨hi, hfi⟩)
  exact ⟨wpl_le freq hne (by rw [sum_present_freq]; exact hsum) t hp hleaves,
    total_bits_eq_wpl freq hne⟩

theorem huffman_tree_optimal_witness :
    wpl (count_freq [97, 98, 97, 99, 97]) (build_huffman_tree (count_freq [97, 98, 97, 99, 97]))
      ≤ wpl (count_freq [97, 98, 97, 99, 97])
          (Node.mk 0 0 (Node.mk 0 0 (create_node 97 0) (create_node 98 0)) (create_node 99 0)) ∧
    total_bits (count_freq [97, 98, 97, 99, 97])
        (code_table (build_huffman_tree (count_freq [97, 98, 97, 99, 97])))
      = wpl (count_freq [97, 98, 97, 99, 97])
          (build_huffman_tree (count_freq [97, 98, 97, 99, 97])) % U64 :=
  huffman_tree_optimal (count_freq [97, 98, 97, 99, 97]) 97 (by decide) (by decide) (by decide)
    (Node.mk 0 0 (Node.mk 0 0 (create_node 97 0) (create_node 98 0)) (create_node 99 0))
    (by decide) (List.Perm.of_eq (by decide))

/-- C6: for a non-empty input, without 64-bit overflow (input length and
total number of code bits below `2^64`), the `total_bit_count` found in the
header `encode_file` wrote is the sum over the present symbols of
`freq[s] * codes[s].length`, it is the sum of the code lengths of the input
bytes, and it is the number of bits the payload loop pushed (eight per byte
written plus the bits still held in `buffer`). -/
theorem total_bit_count_consistent (b : List Nat) (hne : b ≠ []) (hlen : b.length < U64)
    (hbits : (b.map (fun c => (code_table (build_huffman_tree (count_freq b)) (c % 256)).length)).sum
      < U64) :
    ∃ (h : Header) (payload : List Nat),
      (encode_file b).bind read_header = some (h, payload) ∧
      h.total_bits = ((present (count_freq b)).map (fun s =>
        count_freq b s * (code_table (build_huffman_tree (count_freq b)) s).length)).sum ∧
      h.total_bits
        = (b.map (fun c => (code_table (build_huffman_tree (count_freq b)) (c % 256)).length)).sum ∧
      8 * (write_payload (code_table (build_huffman_tree (count_freq b))) b).out.length
          + (write_payload (code_table (build_huffman_tree (count_freq b))) b).bit_count
        = h.total_bits := by
  obtain ⟨c, hc⟩ := List.exists_mem_of_ne_nil b hne
  have hpres : ∀ c ∈ b, c % 256 ∈ present (count_freq b) :=
    fun c hc => mem_present_count_freq b hlen c hc
  have hpne : present (count_freq b) ≠ [] := List.ne_nil_of_mem (hpres c hc)
  obtain ⟨h, hrd, _, _, htb⟩ := read_header_header (count_freq b)
    (code_table (build_huffman_tree (count_freq b)))
    (flush (write_payload (code_table (build_huffman_tree (count_freq b))) b))
  have e1 := total_bits_count_freq b (code_table (build_huffman_tree (count_freq b))) hlen
  rw [Nat.mod_eq_of_lt hbits] at e1
  have e2 := total_bits_eq (count_freq b) (code_table (build_huffman_tree (count_freq b)))
  have e3 := sum_present (count_freq b)
    (fun s => (code_table (build_huffman_tree (count_freq b)) s).length)
  have e4 : ((List.range MAX_SYMBOLS).map (fun i =>
      count_freq b i * (code_table (build_huffman_tree (count_freq b)) i).length)).sum
      = (b.map (fun c => (code_table (build_huffman_tree (count_freq b)) (c % 256)).length)).sum := by
    have hx : ∀ x ∈ b.map (fun c => c % 256), x < MAX_SYMBOLS := by
      intro x hx
      obtain ⟨c, _, rfl⟩ := List.mem_map.mp hx
      exact Nat.mod_lt _ (by decide)
    have key := sum_count_mul
      (fun i => (code_table (build_huffman_tree (count_freq b)) i).length) MAX_SYMBOLS
      (b.map (fun c => c % 256)) hx
    have e : (fun i => count_freq b i * (code_table (build_huffman_tree (count_freq b)) i).length)
        = (fun i => (b.map (fun c => c % 256)).count i *
            (fun i => (code_table (build_huffman_tree (count_freq b)) i).length) i) := by
      funext i; rw [count_freq_exact b hlen]
    rw [e, key, List.map_map]
    rfl
  refine ⟨h, flush (write_payload (code_table (build_huffman_tree (count_freq b))) b),
    ?_, ?_, ?_, ?_⟩
  · rw [encode_file_eq b hpne, Option.some_bind, hrd]
  · rw [htb, e1, e3, e4]
  · rw [htb, e1]
  · rw [htb, e1, write_payload_eq _ _ hpres]
    have := (write_bits_spec (input_bits (build_huffman_tree (count_freq b)) b) ⟨[], 0, 0⟩
      init_writer_ok).2.2
    rw [this, length_input_bits _ _ hpres]
    simp

theorem total_bit_count_consistent_witness :
    ∃ (h : Header) (payload : List Nat),
      (encode_file [97, 98, 97, 99]).bind read_header = some (h, payload) ∧
      h.total_bits = ((present (count_freq [97, 98, 97, 99])).map (fun s =>
        count_freq [97, 98, 97, 99] s
          * (code_table (build_huffman_tree (count_freq [97, 98, 97, 99])) s).length)).sum ∧
      h.total_bits = (([97, 98, 97, 99] : List Nat).map (fun c =>
        (code_table (build_huffman_tree (count_freq [97, 98, 97, 99])) (c % 256)).length)).sum ∧
      8 * (write_payload (code_table (build_huffman_tree (count_freq [97, 98, 97, 99])))
            [97, 98, 97, 99]).out.length
          + (write_payload (code_table (build_huffman_tree (count_freq [97, 98, 97, 99])))
            [97, 98, 97, 99]).bit_count
        = h.total_bits :=
  total_bit_count_consistent [97, 98, 97, 99] (by decide) (by decide) (by decide)

/-- C7: for an input (a file, so of length below `2^64`) the counts of the
256 byte values add up to the input length; the entries written to the header
are, in increasing order of symbol, exactly those of the symbols with a
nonzero count, each followed by its 8-byte count; these counts add up to the
input length too, and `symbol_count` is the number of distinct byte values. -/
theorem header_entries_consistent (b : List Nat) (hlen : b.length < U64) :
    ((List.range MAX_SYMBOLS).map (count_freq b)).sum = b.length ∧
    header_entries (count_freq b)
      = ((List.range MAX_SYMBOLS).filter (fun i => decide (count_freq b i ≠ 0))).flatMap
          (fun i => i :: le_bytes 8 (count_freq b i)) ∧
    (((List.range MAX_SYMBOLS).filter (fun i => decide (count_freq b i ≠ 0))).map
      (count_freq b)).sum = b.length ∧
    symbol_count (count_freq b) = (b.map (fun c => c % 256)).dedup.length := by
  have hp : (List.range MAX_SYMBOLS).filter (fun i => decide (count_freq b i ≠ 0))
      = present (count_freq b) := by
    unfold present
    congr 1
    funext i
    simp [Nat.pos_iff_ne_zero]
  rw [hp]
  refine ⟨sum_count_freq b hlen, ?_, ?_, ?_⟩
  · rw [header_entries_eq]
    apply List.flatMap_congr
    intro i hi
    rw [Nat.mod_eq_of_lt (mem_present.mp hi).1]
  · rw [sum_present_freq, sum_count_freq b hlen]
  · rw [symbol_count_eq, (present_count_freq_perm b hlen).length_eq]

theorem header_entries_consistent_witness :
    ((List.range MAX_SYMBOLS).map (count_freq [97, 97, 97, 98])).sum
        = ([97, 97, 97, 98] : List Nat).length ∧
    header_entries (count_freq [97, 97, 97, 98])
      = ((List.range MAX_SYMBOLS).filter
            (fun i => decide (count_freq [97, 97, 97, 98] i ≠ 0))).flatMap
          (fun i => i :: le_bytes 8 (count_freq [97, 97, 97, 98] i)) ∧
    (((List.range MAX_SYMBOLS).filter (fun i => decide (count_freq [97, 97, 97, 98] i ≠ 0))).map
      (count_freq [97, 97, 97, 98])).sum = ([97, 97, 97, 98] : List Nat).length ∧
    symbol_count (count_freq [97, 97, 97, 98])
      = (([97, 97, 97, 98] : List Nat).map (fun c => c % 256)).dedup.length :=
  header_entries_consistent [97, 97, 97, 98] (by decide)

/-- C8: for a non-empty input of bytes (a file, so of length below `2^64`) in
which one byte value makes up at least 90% of the bytes, the `total_bits`
computed by `encode_file` is less than eight times the input length. -/
theorem skewed_input_compresses (b : List Nat) (hne : b ≠ []) (hbytes : ∀ c ∈ b, c < 256)
    (hlen : b.length < U64) (x : Nat) (hx : 9 * b.length ≤ 10 * b.count x) :
    total_bits (count_freq b) (code_table (build_huffman_tree (count_freq b))) < 8 * b.length := by
  apply total_bits_skewed b hne hlen x
  rw [count_freq_exact b hlen, map_mod_of_bytes b hbytes]
  exact hx

theorem skewed_input_compresses_witness :
    total_bits (count_freq [97, 97, 97, 97, 97, 98, 97, 97, 97, 97])
        (code_table (build_huffman_tree (count_freq [97, 97, 97, 97, 97, 98, 97, 97, 97, 97])))
      < 8 * ([97, 97, 97, 97, 97, 98, 97, 97, 97, 97] : List Nat).length :=
  skewed_input_compresses [97, 97, 97, 97, 97, 98, 97, 97, 97, 97] (by decide) (by decide)
    (by decide) 97 (by decide)

/-- C9: two files of bytes with the same header, whose payloads have the same
first `total_bit_count` bits (they may differ in the padding bits of the last
byte used and in all later bytes), are decoded by `decode_file` to the same
result. -/
theorem decode_reads_only_total_bits (a1 a2 : List Nat) (h : Header) (p1 p2 : List Nat)
    (hbytes : ∀ x ∈ a1, x < 256)
    (h1 : read_header a1 = some (h, p1)) (h2 : read_header a2 = some (h, p2))
    (hagree : (payload_bits p1).take h.total_bits = (payload_bits p2).take h.total_bits) :
    decode_file a1 = decode_file a2 := by
  have ht := read_header_total_lt a1 hbytes h p1 h1
  rw [decode_file_eq a1 h p1 h1 ht, decode_file_eq a2 h p2 h2 ht, hagree]

theorem decode_reads_only_total_bits_witness :
    decode_file [2, 0, 0, 0, 97, 3, 0, 0, 0, 0, 0, 0, 0, 98, 1, 0, 0, 0, 0, 0, 0, 0,
        4, 4, 0, 0, 0, 0, 0, 0, 0, 224]
      = decode_file [2, 0, 0, 0, 97, 3, 0, 0, 0, 0, 0, 0, 0, 98, 1, 0, 0, 0, 0, 0, 0, 0,
        4, 4, 0, 0, 0, 0, 0, 0, 0, 239, 255, 7] :=
  decode_reads_only_total_bits
    [2, 0, 0, 0, 97, 3, 0, 0, 0, 0, 0, 0, 0, 98, 1, 0, 0, 0, 0, 0, 0, 0,
      4, 4, 0, 0, 0, 0, 0, 0, 0, 224]
    [2, 0, 0, 0, 97, 3, 0, 0, 0, 0, 0, 0, 0, 98, 1, 0, 0, 0, 0, 0, 0, 0,
      4, 4, 0, 0, 0, 0, 0, 0, 0, 239, 255, 7]
    ⟨assign (assign (fun _ => 0) 97 3) 98 1, 4, 4⟩ [224] [239, 255, 7]
    (by decide) (by rfl) (by rfl) (by decide)

/-- C10 (as stated, refuted): a file whose header declares `total_bit_count =
16` but which holds a single payload byte is decoded without any error: the
eight bits present are decoded and the output file is written. -/
theorem decode_short_payload_counterexample :
    (read_header [2, 0, 0, 0, 97, 3, 0, 0, 0, 0, 0, 0, 0, 98, 1, 0, 0, 0, 0, 0, 0, 0,
        8, 16, 0, 0, 0, 0, 0, 0, 0, 224]).map (fun x => (x.1.total_bits, x.2))
      = some (16, [224]) ∧
    decode_file [2, 0, 0, 0, 97, 3, 0, 0, 0, 0, 0, 0, 0, 98, 1, 0, 0, 0, 0, 0, 0, 0,
        8, 16, 0, 0, 0, 0, 0, 0, 0, 224]
      = DecodeResult.written [97, 97, 97, 98, 98, 98, 98, 98] := by
  decide

/-- C10 (amended): `decode_file` never checks the header against the payload.
For a file of bytes whose declared `total_bit_count` exceeds eight times the
number of payload bytes present it reports no error: it stops at end of file
and returns what decoding all the payload bits present gives, which is an
output file as soon as the table lists two symbols. -/
theorem decode_short_payload (a : List Nat) (h : Header) (p : List Nat)
    (hbytes : ∀ x ∈ a, x < 256) (hr : read_header a = some (h, p))
    (hshort : 8 * p.length < h.total_bits) :
    decode_file a = decode_of_bits h.freq (payload_bits p) ∧
    (∀ x y, x ∈ present h.freq → y ∈ present h.freq → x ≠ y →
      ∃ out, decode_file a = DecodeResult.written out) := by
  have ht := read_header_total_lt a hbytes h p hr
  have e : decode_file a = decode_of_bits h.freq (payload_bits p) := by
    rw [decode_file_eq a h p hr ht,
      List.take_of_length_le (by rw [length_payload_bits]; omega)]
  refine ⟨e, ?_⟩
  intro x y hx hy hxy
  rw [e]
  exact decode_of_bits_written h.freq x y hx hy hxy _

theorem decode_short_payload_witness :
    decode_file [2, 0, 0, 0, 97, 3, 0, 0, 0, 0, 0, 0, 0, 98, 1, 0, 0, 0, 0, 0, 0, 0,
        8, 16, 0, 0, 0, 0, 0, 0, 0, 224]
      = decode_of_bits (assign (assign (fun _ => 0) 97 3) 98 1) (payload_bits [224]) ∧
    (∀ x y, x ∈ present (assign (assign (fun _ => 0) 97 3) 98 1) →
      y ∈ present (assign (assign (fun _ => 0) 97 3) 98 1) → x ≠ y →
      ∃ out, decode_file [2, 0, 0, 0, 97, 3, 0, 0, 0, 0, 0, 0, 0, 98, 1, 0, 0, 0, 0, 0, 0, 0,
        8, 16, 0, 0, 0, 0, 0, 0, 0, 224] = DecodeResult.written out) :=
  decode_short_payload
    [2, 0, 0, 0, 97, 3, 0, 0, 0, 0, 0, 0, 0, 98, 1, 0, 0, 0, 0, 0, 0, 0,
      8, 16, 0, 0, 0, 0, 0, 0, 0, 224]
    ⟨assign (assign (fun _ => 0) 97 3) 98 1, 8, 16⟩ [224] (by decide) (by rfl) (by decide)

/-- C11: `build_huffman_tree` returns `NULL` exactly when all 256 frequencies
are zero, and for a file (fewer than `2^64` bytes) `encode_file` takes the
`Empty file` exit, writing no artifact, exactly when the input has no bytes.
That exit is the plain `return` of `encode_file` (the result `none`), after
which `main` returns 0. -/
theorem null_tree_iff_empty (freq : Nat → Nat) (b : List Nat) (hlen : b.length < U64) :
    (build_huffman_tree freq = Node.null ↔ ∀ i, i < 256 → freq i = 0) ∧
    (encode_file b = none ↔ b = []) :=
  ⟨(build_huffman_tree_null_iff freq).trans (present_eq_nil_iff freq),
    encode_file_none_iff b hlen⟩

theorem null_tree_iff_empty_witness :
    ((build_huffman_tree (count_freq [97, 98]) = Node.null ↔
        ∀ i, i < 256 → count_freq [97, 98] i = 0) ∧
      (encode_file [97, 98] = none ↔ [97, 98] = [])) ∧
    ((build_huffman_tree (fun _ => 0) = Node.null ↔ ∀ i, i < 256 → (fun _ : Nat => 0) i = 0) ∧
      (encode_file [] = none ↔ ([] : List Nat) = [])) :=
  ⟨null_tree_iff_empty (count_freq [97, 98]) [97, 98] (by decide),
    null_tree_iff_empty (fun _ => 0) [] (by decide)⟩

/-- C12 (counterexample): for the file of `2^63 - 8` bytes holding
`2^60 - 1` bytes of each of the values 0 to 7, every code has 3 bits and the
payload has `3 * (2^60 - 1)` bytes, but the `total_bits` of the header has
wrapped around to `2^63 - 24` with `valid_bits = 8`: the payload is longer
than `ceil(total_bits / 8)` bytes, and `8 * payload_length - total_bits` is
`2^64`, not `8 - valid_bits`. -/
theorem valid_bits_payload_counterexample :
    (eight_values 1152921504606846975).length = 9223372036854775800 ∧
    ∃ (artifact : List Nat) (h : Header) (payload : List Nat),
      encode_file (eight_values 1152921504606846975) = some artifact ∧
      read_header artifact = some (h, payload) ∧
      h.valid_bits = 8 ∧ h.total_bits = 9223372036854775784 ∧
      payload.length = 3458764513820540925 ∧
      payload.length ≠ (h.total_bits + 7) / 8 ∧
      8 * payload.length - h.total_bits ≠ 8 - h.valid_bits := by
  refine ⟨by rw [length_eight_values], ?_⟩
  obtain ⟨artifact, h, payload, h1, h2, h3, h4, h5⟩ :=
    eight_values_artifact 1152921504606846975 (by decide) (by decide) eight_codes.1
  rw [eight_codes.2] at h4 h5
  have hv : h.valid_bits = 8 := by rw [h5]; decide
  refine ⟨artifact, h, payload, h1, h2, hv, h4, by omega, ?_, ?_⟩
  · rw [h3, h4]; decide
  · rw [h3, h4, hv]; decide

/-- C12 (amended): when `encode_file` writes an artifact for a file whose
length and total number of code bits are below `2^64`, the `valid_bits` of
its header lies in 1..8, the payload has `ceil(total_bits / 8)` bytes,
`8 * payload_length - total_bits = 8 - valid_bits`, and the payload bits
after the first `total_bits` are `8 - valid_bits` zero bits. -/
theorem valid_bits_payload (b artifact : List Nat) (hart : encode_file b = some artifact)
    (hlen : b.length < U64)
    (hbits : (b.map (fun c => (code_table (build_huffman_tree (count_freq b)) (c % 256)).length)).sum
      < U64) :
    ∃ (h : Header) (payload : List Nat), read_header artifact = some (h, payload) ∧
      1 ≤ h.valid_bits ∧ h.valid_bits ≤ 8 ∧
      payload.length = (h.total_bits + 7) / 8 ∧
      8 * payload.length - h.total_bits = 8 - h.valid_bits ∧
      (payload_bits payload).drop h.total_bits = List.replicate (8 - h.valid_bits) false := by
  obtain ⟨h, hrd, hv, ht⟩ := artifact_split b artifact hart
  obtain ⟨p1, p2⟩ := packed_length (input_bits (build_huffman_tree (count_freq b)) b)
  have hL := length_input_bits_all (count_freq b) b
  have htb : h.total_bits = (input_bits (build_huffman_tree (count_freq b)) b).length := by
    rw [ht, total_bits_count_freq b _ hlen, hL]
    exact Nat.mod_eq_of_lt hbits
  have hvb : h.valid_bits = valid_bits h.total_bits := by rw [hv, ht]
  have hr := valid_bits_range h.total_bits
  have hpad : (8 - h.total_bits % 8) % 8 = 8 - h.valid_bits := by
    rw [hvb]; unfold valid_bits; split_ifs <;> omega
  rw [← htb, hpad] at p1 p2
  refine ⟨h, _, hrd, by rw [hvb]; exact hr.1, by rw [hvb]; exact hr.2, by omega, by omega, ?_⟩
  rw [p2, List.drop_append_of_le_length (by omega), htb, List.drop_length, List.nil_append]

theorem valid_bits_payload_witness :
    ∃ (h : Header) (payload : List Nat),
      read_header [3, 0, 0, 0, 97, 3, 0, 0, 0, 0, 0, 0, 0, 98, 1, 0, 0, 0, 0, 0, 0, 0,
        99, 1, 0, 0, 0, 0, 0, 0, 0, 7, 7, 0, 0, 0, 0, 0, 0, 0, 142] = some (h, payload) ∧
      1 ≤ h.valid_bits ∧ h.valid_bits ≤ 8 ∧
      payload.length = (h.total_bits + 7) / 8 ∧
      8 * payload.length - h.total_bits = 8 - h.valid_bits ∧
      (payload_bits payload).drop h.total_bits = List.replicate (8 - h.valid_bits) false :=
  valid_bits_payload [97, 98, 99, 97, 97]
    [3, 0, 0, 0, 97, 3, 0, 0, 0, 0, 0, 0, 0, 98, 1, 0, 0, 0, 0, 0, 0, 0,
        99, 1, 0, 0, 0, 0, 0, 0, 0, 7, 7, 0, 0, 0, 0, 0, 0, 0, 142] (by decide) (by decide) (by decide)

/-- C13: for every table of 256 64-bit counts, reading (as `decode_file`
does) the header written by `encode_file`, followed by any payload, gives
back the same table (the counts of the listed symbols, zero elsewhere), the
same `valid_bits` and `total_bits`, and leaves the payload; the tree built
from the table read is the tree built from the original table. -/
theorem header_read_back (freq : Nat → Nat) (codes : Nat → Code) (payload : List Nat)
    (hfreq : ∀ i, i < 256 → freq i < U64) :
    ∃ h : Header, read_header (header freq codes ++ payload) = some (h, payload) ∧
      (∀ i, i < 256 → h.freq i = freq i) ∧ (∀ i, 256 ≤ i → h.freq i = 0) ∧
      h.valid_bits = valid_bits (total_bits freq codes) ∧
      h.total_bits = total_bits freq codes ∧
      build_huffman_tree h.freq = build_huffman_tree freq := by
  obtain ⟨h, hrd, hf, hv, ht⟩ := read_header_header freq codes payload
  have h1 : ∀ i, i < 256 → h.freq i = freq i := by
    intro i hi
    rw [hf i]
    split_ifs with hp
    · exact Nat.mod_eq_of_lt (hfreq i hi)
    · have : ¬ 0 < freq i := fun hpos => hp (mem_present.mpr ⟨hi, hpos⟩)
      omega
  refine ⟨h, hrd, h1, ?_, hv, ht, build_huffman_tree_congr _ _ h1⟩
  intro i hi
  rw [hf i, if_neg]
  intro hp
  have := (mem_present.mp hp).1
  omega

theorem header_read_back_witness :
    ∃ h : Header,
      read_header (header (count_freq [97, 97, 97, 98])
          (code_table (build_huffman_tree (count_freq [97, 97, 97, 98]))) ++ [224])
        = some (h, [224]) ∧
      (∀ i, i < 256 → h.freq i = count_freq [97, 97, 97, 98] i) ∧
      (∀ i, 256 ≤ i → h.freq i = 0) ∧
      h.valid_bits = valid_bits (total_bits (count_freq [97, 97, 97, 98])
        (code_table (build_huffman_tree (count_freq [97, 97, 97, 98])))) ∧
      h.total_bits = total_bits (count_freq [97, 97, 97, 98])
        (code_table (build_huffman_tree (count_freq [97, 97, 97, 98]))) ∧
      build_huffman_tree h.freq = build_huffman_tree (count_freq [97, 97, 97, 98]) :=
  header_read_back (count_freq [97, 97, 97, 98])
    (code_table (build_huffman_tree (count_freq [97, 97, 97, 98]))) [224]
    (fun i _ => count_freq_lt [97, 97, 97, 98] i)

/-- C14: for a file of bytes with at least two distinct values whose total
number of code bits is below `2^64`, `encode_file` writes an artifact and
`decode_file` on that artifact writes exactly the original bytes. -/
theorem roundtrip_two_distinct (b : List Nat) (hbytes : ∀ c ∈ b, c < 256)
    (hlen : b.length < U64) (hdistinct : ∃ x ∈ b, ∃ y ∈ b, x ≠ y)
    (hbits : (b.map (fun c => (code_table (build_huffman_tree (count_freq b)) (c % 256)).length)).sum
      < U64) :
    ∃ artifact, encode_file b = some artifact ∧
      decode_file artifact = DecodeResult.written b := by
  obtain ⟨x, hx, y, hy, hxy⟩ := hdistinct
  have hx' := mem_present_count_freq b hlen x hx
  have hy' := mem_present_count_freq b hlen y hy
  have hne : x % 256 ≠ y % 256 := by
    rw [Nat.mod_eq_of_lt (hbytes x hx), Nat.mod_eq_of_lt (hbytes y hy)]; exact hxy
  have hpres : present (count_freq b) ≠ [] := List.ne_nil_of_mem hx'
  have hdec := decode_encoded b hlen (root_not_leaf _ _ _ hx' hy' hne) hpres hbits
  rw [encode_then_decode, encode_file_eq b hpres, Option.map_some', map_mod_of_bytes b hbytes]
    at hdec
  exact ⟨_, encode_file_eq b hpres, Option.some.inj hdec⟩

theorem roundtrip_two_distinct_witness :
    ∃ artifact, encode_file [104, 117, 102, 102, 109, 97, 110] = some artifact ∧
      decode_file artifact = DecodeResult.written [104, 117, 102, 102, 109, 97, 110] :=
  roundtrip_two_distinct [104, 117, 102, 102, 109, 97, 110] (by decide) (by decide)
    ⟨104, by decide, 117, by decide, by decide⟩ (by decide)

/-- C15: `decode_file` has no single-symbol case. On the artifact whose
header lists the one symbol `0x41` with count 3, `valid_bits = 3`,
`total_bits = 3` and whose payload is the byte `0x00`, the rebuilt tree is a
single leaf, and the first payload bit makes the walk step to the (missing)
left child of that leaf and read its `left` field. -/
theorem single_symbol_decode_null_deref :
    build_huffman_tree (assign (fun _ => 0) 65 3) = create_node 65 3 ∧
      decode_file [1, 0, 0, 0, 65, 3, 0, 0, 0, 0, 0, 0, 0, 3, 3, 0, 0, 0, 0, 0, 0, 0, 0]
        = DecodeResult.null_deref := by
  decide

/-- C16: for a table with a nonzero count, every node of the tree returned by
`build_huffman_tree` is a leaf or has two children, the leaves are exactly
the pairs (symbol, frequency) of the symbols with nonzero frequency, each
once, and with one such symbol the tree is the single leaf of that symbol. -/
theorem tree_leaves_exact (freq : Nat → Nat) (i : Nat) (hi : i < 256) (hfi : 0 < freq i) :
    (build_huffman_tree freq).proper = true ∧
    List.Perm (build_huffman_tree freq).leaves
      (((List.range MAX_SYMBOLS).filter (fun s => decide (freq s > 0))).map
        (fun s => (s, freq s))) ∧
    (∀ s, (List.range MAX_SYMBOLS).filter (fun s => decide (freq s > 0)) = [s] →
      build_huffman_tree freq = Node.mk s (freq s) Node.null Node.null) := by
  have hne : present freq ≠ [] := List.ne_nil_of_mem (mem_present.mpr ⟨hi, hfi⟩)
  obtain ⟨hp, hperm⟩ := (build_huffman_tree_spec freq).2 hne
  exact ⟨hp, hperm, fun s hs => tree_single_symbol freq s hs⟩

theorem tree_leaves_exact_witness :
    (build_huffman_tree (count_freq [97, 98, 97])).proper = true ∧
    List.Perm (build_huffman_tree (count_freq [97, 98, 97])).leaves
      (((List.range MAX_SYMBOLS).filter (fun s => decide (count_freq [97, 98, 97] s > 0))).map
        (fun s => (s, count_freq [97, 98, 97] s))) ∧
    (∀ s, (List.range MAX_SYMBOLS).filter (fun s => decide (count_freq [97, 98, 97] s > 0)) = [s] →
      build_huffman_tree (count_freq [97, 98, 97])
        = Node.mk s (count_freq [97, 98, 97] s) Node.null Node.null) :=
  tree_leaves_exact (count_freq [97, 98, 97]) 97 (by decide) (by decide)

/-- C17: on every heap reachable from `init_heap` through `insert_heap`
(with room left) and `extract_min` (on a non-empty heap), `extract_min` on a
non-empty heap returns a node whose weight is at most the weight of every
node of the heap, leaves one node less, and the returned node together with
the nodes left are exactly the nodes the heap held; `insert_heap` adds
exactly the given node; and the size never exceeds 256. -/
theorem heap_contract (heap : MinHeap) (node : Node) (hr : Reachable heap) :
    heap.size ≤ MAX_HEAP_SIZE ∧
    (0 < heap.size →
      (∀ n ∈ heap.nodes, (extract_min heap).1.freq ≤ n.freq) ∧
      (extract_min heap).2.size + 1 = heap.size ∧
      List.Perm ((extract_min heap).1 :: (extract_min heap).2.nodes) heap.nodes) ∧
    (insert_heap heap node).size = heap.size + 1 ∧
    List.Perm (insert_heap heap node).nodes (node :: heap.nodes) := by
  refine ⟨size_le_of_reachable heap hr, ?_, size_insert_heap heap node,
    perm_insert_heap heap node⟩
  intro hpos
  refine ⟨extract_min_le heap (heap_ordered_of_reachable heap hr), ?_, perm_extract_min heap hpos⟩
  rw [size_extract_min]
  omega

theorem heap_contract_witness :
    Reachable (insert_heap (insert_heap (insert_heap init_heap (create_node 97 5))
        (create_node 98 2)) (create_node 99 9)) ∧
    (extract_min (insert_heap (insert_heap (insert_heap init_heap (create_node 97 5))
        (create_node 98 2)) (create_node 99 9))).1 = create_node 98 2 ∧
    ((insert_heap (insert_heap (insert_heap init_heap (create_node 97 5))
        (create_node 98 2)) (create_node 99 9)).size ≤ MAX_HEAP_SIZE ∧
    (0 < (insert_heap (insert_heap (insert_heap init_heap (create_node 97 5))
        (create_node 98 2)) (create_node 99 9)).size →
      (∀ n ∈ (insert_heap (insert_heap (insert_heap init_heap (create_node 97 5))
          (create_node 98 2)) (create_node 99 9)).nodes,
        (extract_min (insert_heap (insert_heap (insert_heap init_heap (create_node 97 5))
          (create_node 98 2)) (create_node 99 9))).1.freq ≤ n.freq) ∧
      (extract_min (insert_heap (insert_heap (insert_heap init_heap (create_node 97 5))
          (create_node 98 2)) (create_node 99 9))).2.size + 1
        = (insert_heap (insert_heap (insert_heap init_heap (create_node 97 5))
          (create_node 98 2)) (create_node 99 9)).size ∧
      List.Perm
        ((extract_min (insert_heap (insert_heap (insert_heap init_heap (create_node 97 5))
            (create_node 98 2)) (create_node 99 9))).1 ::
          (extract_min (insert_heap (insert_heap (insert_heap init_heap (create_node 97 5))
            (create_node 98 2)) (create_node 99 9))).2.nodes)
        (insert_heap (insert_heap (insert_heap init_heap (create_node 97 5))
          (create_node 98 2)) (create_node 99 9)).nodes) ∧
    (insert_heap (insert_heap (insert_heap (insert_heap init_heap (create_node 97 5))
        (create_node 98 2)) (create_node 99 9)) (create_node 100 1)).size
      = (insert_heap (insert_heap (insert_heap init_heap (create_node 97 5))
        (create_node 98 2)) (create_node 99 9)).size + 1 ∧
    List.Perm
      (insert_heap (insert_heap (insert_heap (insert_heap init_heap (create_node 97 5))
        (create_node 98 2)) (create_node 99 9)) (create_node 100 1)).nodes
      (create_node 100 1 :: (insert_heap (insert_heap (insert_heap init_heap (create_node 97 5))
        (create_node 98 2)) (create_node 99 9)).nodes)) :=
  have hr : Reachable (insert_heap (insert_heap (insert_heap init_heap (create_node 97 5))
      (create_node 98 2)) (create_node 99 9)) :=
    Reachable.insert _ _ (Reachable.insert _ _ (Reachable.insert _ _ Reachable.init (by decide))
      (by decide)) (by decide)
  ⟨hr, by decide, heap_contract _ (create_node 100 1) hr⟩

/-- C18: in the run of `build_huffman_tree` on any table, the heap never
holds more nodes than there are symbols with a nonzero count, hence never
more than 256; every call of `extract_min` is made on a non-empty heap; and
given fuel for its nodes the merge loop makes exactly (number of symbols
with a nonzero count) - 1 iterations (none for the all-zero table) and stops
because `heap.size > 1` fails, more fuel changing nothing. -/
theorem build_run_bounded (freq : Nat → Nat) :
    (init_heap :: fill_states freq (List.range MAX_SYMBOLS) init_heap).getLast?
      = some (fill_heap freq) ∧
    (∀ h ∈ build_states freq, h.size ≤ (present freq).length ∧ h.size ≤ MAX_HEAP_SIZE) ∧
    (∀ h ∈ extract_calls freq, 0 < h.size) ∧
    (∀ fuel, (fill_heap freq).size ≤ fuel →
      merge_iterations fuel (fill_heap freq) = (present freq).length - 1 ∧
      (merge_loop fuel (fill_heap freq)).size ≤ 1 ∧
      merge_loop fuel (fill_heap freq) = final_heap freq ∧
      merge_states fuel (fill_heap freq) = merge_states (fill_heap freq).size (fill_heap freq) ∧
      merge_extract_calls fuel (fill_heap freq)
        = merge_extract_calls (fill_heap freq).size (fill_heap freq)) := by
  refine ⟨fill_states_getLast freq _ _, ?_, extract_calls_pos freq, ?_⟩
  · intro h hh
    have h1 := build_states_size freq h hh
    have h2 := present_length_le freq
    exact ⟨h1, by simp only [MAX_HEAP_SIZE]; omega⟩
  · intro fuel hfuel
    obtain ⟨k, rfl⟩ := Nat.exists_eq_add_of_le hfuel
    obtain ⟨h1, h2⟩ := merge_iterations_eq ((fill_heap freq).size + k) (fill_heap freq) (by omega)
    refine ⟨by rw [h1, size_fill_heap], h2, merge_loop_add _ k, merge_states_add _ k,
      merge_extract_calls_add _ k⟩

/-- C19: for every table, each code length recorded by `build_codes` on the
tree of `build_huffman_tree` is at most the number of symbols with a nonzero
count minus one, hence at most 255; every write to `current_code` is at an
index of at most 254; and every stored code string has at most 255
characters, so with its NUL it fits the 256 cells of `code`. -/
theorem code_lengths_bounded (freq : Nat → Nat) :
    (∀ s, (code_table (build_huffman_tree freq) s).length ≤ (present freq).length - 1 ∧
      (code_table (build_huffman_tree freq) s).length ≤ 255) ∧
    (∀ i ∈ write_indices (build_huffman_tree freq) 0, i ≤ 254) ∧
    (∀ s, (code_table (build_huffman_tree freq) s).code.length ≤ 255) := by
  refine ⟨?_, write_indices_tree freq, code_string_fits freq⟩
  intro s
  have h1 := code_length_le freq s
  have h2 := present_length_le freq
  exact ⟨h1, by omega⟩

/-- C20: when `encode_file` writes an artifact, the bits of its payload, byte
after byte and most significant bit first, written as the characters `'0'`
and `'1'`, are the codes of the input bytes one after the other in input
order, followed by fewer than 8 characters `'0'` that fill the last byte; the
first `total_bits` payload bits are bits of that concatenation. -/
theorem payload_is_packed_codes (b artifact : List Nat) (hart : encode_file b = some artifact) :
    ∃ (h : Header) (payload : List Nat), read_header artifact = some (h, payload) ∧
      (∀ c ∈ payload, c < 256) ∧
      (payload_bits payload).map step_char
        = code_stream (code_table (build_huffman_tree (count_freq b))) b
          ++ List.replicate
            (8 * payload.length
              - (code_stream (code_table (build_huffman_tree (count_freq b))) b).length) 48 ∧
      (code_stream (code_table (build_huffman_tree (count_freq b))) b).length
        ≤ 8 * payload.length ∧
      8 * payload.length
        < (code_stream (code_table (build_huffman_tree (count_freq b))) b).length + 8 ∧
      h.total_bits ≤ (code_stream (code_table (build_huffman_tree (count_freq b))) b).length ∧
      (∀ k, k < h.total_bits → ((payload_bits payload).map step_char)[k]?
        = (code_stream (code_table (build_huffman_tree (count_freq b))) b)[k]?) := by
  obtain ⟨h, hrd, _, ht⟩ := artifact_split b artifact hart
  obtain ⟨p1, p2⟩ := packed_length (input_bits (build_huffman_tree (count_freq b)) b)
  have hbytes := (packed_bits (input_bits (build_huffman_tree (count_freq b)) b)).1
  have hcs := code_stream_eq (count_freq b) b
  have hlen : (code_stream (code_table (build_huffman_tree (count_freq b))) b).length
      = (input_bits (build_huffman_tree (count_freq b)) b).length := by
    rw [hcs, List.length_map]
  have htb : h.total_bits
      ≤ (code_stream (code_table (build_huffman_tree (count_freq b))) b).length := by
    rw [hlen, ht, length_input_bits_all]
    exact total_bits_le b _
  have hpad : 8 * (flush (write_bits (input_bits (build_huffman_tree (count_freq b)) b)
        ⟨[], 0, 0⟩)).length
      - (code_stream (code_table (build_huffman_tree (count_freq b))) b).length
      = (8 - (input_bits (build_huffman_tree (count_freq b)) b).length % 8) % 8 := by
    rw [hlen]; omega
  have hmain : (payload_bits (flush (write_bits (input_bits (build_huffman_tree (count_freq b)) b)
        ⟨[], 0, 0⟩))).map step_char
      = code_stream (code_table (build_huffman_tree (count_freq b))) b
        ++ List.replicate
          (8 * (flush (write_bits (input_bits (build_huffman_tree (count_freq b)) b)
              ⟨[], 0, 0⟩)).length
            - (code_stream (code_table (build_huffman_tree (count_freq b))) b).length) 48 := by
    rw [hpad, p2, List.map_append, List.map_replicate, ← hcs]
    rfl
  refine ⟨h, _, hrd, hbytes, hmain, by rw [hlen]; omega, by rw [hlen]; omega, htb, ?_⟩
  intro k hk
  rw [hmain, List.getElem?_append_left (by omega)]

theorem payload_is_packed_codes_witness :
    ∃ (h : Header) (payload : List Nat),
      read_header [2, 0, 0, 0, 97, 3, 0, 0, 0, 0, 0, 0, 0, 98, 1, 0, 0, 0, 0, 0, 0, 0,
          4, 4, 0, 0, 0, 0, 0, 0, 0, 224] = some (h, payload) ∧
      (∀ c ∈ payload, c < 256) ∧
      (payload_bits payload).map step_char
        = code_stream (code_table (build_huffman_tree (count_freq [97, 97, 97, 98])))
            [97, 97, 97, 98]
          ++ List.replicate
            (8 * payload.length
              - (code_stream (code_table (build_huffman_tree (count_freq [97, 97, 97, 98])))
                  [97, 97, 97, 98]).length) 48 ∧
      (code_stream (code_table (build_huffman_tree (count_freq [97, 97, 97, 98])))
          [97, 97, 97, 98]).length ≤ 8 * payload.length ∧
      8 * payload.length
        < (code_stream (code_table (build_huffman_tree (count_freq [97, 97, 97, 98])))
            [97, 97, 97, 98]).length + 8 ∧
      h.total_bits ≤ (code_stream (code_table (build_huffman_tree (count_freq [97, 97, 97, 98])))
          [97, 97, 97, 98]).length ∧
      (∀ k, k < h.total_bits → ((payload_bits payload).map step_char)[k]?
        = (code_stream (code_table (build_huffman_tree (count_freq [97, 97, 97, 98])))
            [97, 97, 97, 98])[k]?) :=
  payload_is_packed_codes [97, 97, 97, 98]
    [2, 0, 0, 0, 97, 3, 0, 0, 0, 0, 0, 0, 0, 98, 1, 0, 0, 0, 0, 0, 0, 0,
      4, 4, 0, 0, 0, 0, 0, 0, 0, 224] (by decide)

end Huffman
